import Mathlib

/-!
The image decoders of arc_unpacker.

A shallow embedding of

* `decompress_vsp` (`src/fmt/alice_soft/vsp_image_decoder.cc`), the bitplane
  run-length decoder,
* the SGD alpha / colour decoders and `MgdImageDecoder::decode_internal`
  (`src/fmt/nsystem/mgd_image_decoder.cc`),
* the pseudo-random generator `CustomMersenneTwister` (`src/fmt/qlie/mt.cc`),

followed by the theorems that settle the properties stated about them.

Conventions.  A byte is a natural number; every store into a `u8` cell
truncates modulo 256.  A stream is the list of the bytes that are still
unread, so that reading is taking the head of the list and the read position is
observable as the list that is left.  Lengths and indices are naturals; the one
sum the code forms in `size_t` and compares (`size_compressed + 4`) is reduced
modulo `2 ^ size_t_bits`.
-/

namespace ArcUnpacker

/-- The exceptions the embedded functions can raise.  `outOfFuel` is not an
exception of the program: it is the answer of a loop of the embedding whose
iteration budget ran out. -/
inductive Error where
  /-- The `std::logic_error("Invalid width")`. -/
  | invalidWidth
  /-- A read, skip or seek beyond the end of a stream. -/
  | eof
  /-- The `err::CorruptDataError("Bad decompression flag")`. -/
  | badFlag
  /-- The `err::CorruptDataError("Compressed data size mismatch")`. -/
  | sizeMismatch
  /-- The `err::CorruptDataError("Region size mismatch")`. -/
  | regionSizeMismatch
  /-- The `err::NotSupportedError("Unexpected meta format")`. -/
  | unexpectedMetaFormat
  /-- The `err::NotSupportedError("Unsupported compression type")`. -/
  | unsupportedCompression
  /-- The iteration budget of a loop of the embedding ran out. -/
  | outOfFuel
  deriving DecidableEq, Repr

/-- The errors of class `err::CorruptDataError`. -/
def Error.isCorruptData : Error → Bool
  | .badFlag => true
  | .sizeMismatch => true
  | .regionSizeMismatch => true
  | _ => false

/-- A raised exception together with the input stream as the throw left it
(the stream is passed by reference, its position survives the throw). -/
structure Failure where
  error : Error
  input_io : List Nat
  deriving DecidableEq, Repr

/-- Modelled from the spec: `io::IO::read_u8` (the `io::IO` class is not part of
the sources at hand).  The compressed stream is "an ordered, finite byte
sequence read strictly forward"; reading at the end of the stream fails. -/
def read_u8 : List Nat → Except Failure (Nat × List Nat)
  | [] => .error ⟨.eof, []⟩
  | b :: rest => .ok (b % 256, rest)

/-! ## The VSP bitplane decoder -/

/-- A history buffer `u8 [height][4]`: row, plane ↦ byte.  Rows at or beyond
`height` stand for the memory behind the allocation. -/
abbrev Buf := Nat → Nat → Nat

/-- The assignment `b[y][plane] = v` to a `u8` cell. -/
def Buf.set (b : Buf) (y plane v : Nat) : Buf :=
  fun r p => if r = y ∧ p = plane then v % 256 else b r p

/-- The run loop `while (n-- && y < height) { bc[y][plane] = val; y++; }`
shared by opcodes 0x00, 0x01, 0x03, 0x04 and 0x05; `val bc y` is the right-hand
side evaluated in the buffer as it is when row `y` is written.  Returns the new
row cursor and buffer. -/
def runFill (height plane : Nat) (val : Buf → Nat → Nat) : Nat → Nat → Buf → Nat × Buf
  | 0, y, bc => (y, bc)
  | n + 1, y, bc =>
    if y < height then
      runFill height plane val n (y + 1) (bc.set y plane (val bc y))
    else (y, bc)

/-- The run loop of opcode 0x02:
`while (n-- && y < height)
   { bc[y++][plane] = b0; if (y >= height) break; bc[y++][plane] = b1; }`. -/
def runPair (height plane b0 b1 : Nat) : Nat → Nat → Buf → Nat × Buf
  | 0, y, bc => (y, bc)
  | n + 1, y, bc =>
    if y < height then
      if y + 1 ≥ height then (y + 1, bc.set y plane b0)
      else runPair height plane b0 b1 n (y + 2) ((bc.set y plane b0).set (y + 1) plane b1)
    else (y, bc)

/-- The variables live inside the decode of one plane: the stream, the
"current" buffer `bc`, the mask and the row cursor `y`. -/
structure PlaneState where
  input_io : List Nat
  bc : Buf
  mask : Nat
  y : Nat

/-- One iteration of the body of `while (y < height)`: read an opcode byte and
execute it (the `switch` of lines 35-119).  `bp` is the "previous" buffer. -/
def opcode (height plane : Nat) (bp : Buf) (s : PlaneState) : Except Failure PlaneState :=
  match read_u8 s.input_io with
  | .error e => .error e
  | .ok (c, io1) =>
    if c = 0x00 then
      match read_u8 io1 with
      | .error e => .error e
      | .ok (k, io2) =>
        let r := runFill height plane (fun _ y => bp y plane) (k + 1) s.y s.bc
        .ok { input_io := io2, bc := r.2, mask := s.mask, y := r.1 }
    else if c = 0x01 then
      match read_u8 io1 with
      | .error e => .error e
      | .ok (k, io2) =>
        match read_u8 io2 with
        | .error e => .error e
        | .ok (b0, io3) =>
          let r := runFill height plane (fun _ _ => b0) (k + 1) s.y s.bc
          .ok { input_io := io3, bc := r.2, mask := s.mask, y := r.1 }
    else if c = 0x02 then
      match read_u8 io1 with
      | .error e => .error e
      | .ok (k, io2) =>
        match read_u8 io2 with
        | .error e => .error e
        | .ok (b0, io3) =>
          match read_u8 io3 with
          | .error e => .error e
          | .ok (b1, io4) =>
            let r := runPair height plane b0 b1 (k + 1) s.y s.bc
            .ok { input_io := io4, bc := r.2, mask := s.mask, y := r.1 }
    else if c = 0x03 ∨ c = 0x04 ∨ c = 0x05 then
      match read_u8 io1 with
      | .error e => .error e
      | .ok (k, io2) =>
        let r := runFill height plane (fun bc y => bc y (c - 3) ^^^ s.mask) (k + 1) s.y s.bc
        .ok { input_io := io2, bc := r.2, mask := 0, y := r.1 }
    else if c = 0x06 then
      .ok { input_io := io1, bc := s.bc, mask := 0xFF, y := s.y }
    else if c = 0x07 then
      match read_u8 io1 with
      | .error e => .error e
      | .ok (b, io2) =>
        .ok { input_io := io2, bc := s.bc.set s.y plane b, mask := s.mask, y := s.y + 1 }
    else
      .ok { input_io := io1, bc := s.bc.set s.y plane c, mask := s.mask, y := s.y + 1 }

/-- The loop `while (y < height)` of one plane, with an iteration budget. -/
def decodePlane (height plane : Nat) (bp : Buf) : Nat → PlaneState → Except Failure PlaneState
  | 0, s => if s.y < height then .error ⟨.outOfFuel, s.input_io⟩ else .ok s
  | fuel + 1, s =>
    if s.y < height then
      match opcode height plane bp s with
      | .error e => .error e
      | .ok s1 => decodePlane height plane bp fuel s1
    else .ok s

/-- The loop `for (auto plane : util::range(4))` over the planes still to
decode; each plane starts at `y = 0` and may run one iteration per unread byte
(plus the one that finds `y = height`). -/
def decodePlanes (height : Nat) (bp : Buf) :
    List Nat → List Nat → Buf → Nat → Except Failure (List Nat × Buf × Nat)
  | [], io, bc, mask => .ok (io, bc, mask)
  | plane :: ps, io, bc, mask =>
    match decodePlane height plane bp (io.length + 1) ⟨io, bc, mask, 0⟩ with
    | .error e => .error e
    | .ok s => decodePlanes height bp ps s.input_io s.bc s.mask

/-- The `int component[i] = (bc[y][i] << i) | (bc[y][i] >> (8 - i))`. -/
def component (bc : Buf) (y i : Nat) : Nat :=
  (bc y i <<< i) ||| (bc y i >>> (8 - i))

/-- The loop `for (auto i : util::range(4)) *output_ptr |= (component[i] >> (7 - j)) & (1 << i)`
on the output byte whose value is `old`. -/
def packPixel (bc : Buf) (y j old : Nat) : Nat :=
  (List.range 4).foldl
    (fun acc i => (acc ||| ((component bc y i >>> (7 - j)) &&& (1 <<< i))) % 256) old

/-- The body of `for (auto y : util::range(height))` of the pack step: the
eight output bytes from `&output[(y * (width / 8) + x) * 8]` on. -/
def packRow (width x : Nat) (bc : Buf) (output : List Nat) (y : Nat) : List Nat :=
  (List.range 8).foldl
    (fun out j =>
      let idx := (y * (width / 8) + x) * 8 + j
      out.set idx (packPixel bc y j (out.getD idx 0)))
    output

/-- The pack step of strip `x` (lines 123-136). -/
def packStrip (width height x : Nat) (bc : Buf) (output : List Nat) : List Nat :=
  (List.range height).foldl (packRow width x bc) output

/-- The variables of `decompress_vsp` that live across strips. -/
structure VspState where
  input_io : List Nat
  bp : Buf
  bc : Buf
  mask : Nat
  output : List Nat

/-- The body of `for (auto x : util::range(width / 8))`: decode the four
planes, pack, swap the buffers. -/
def decodeStrip (width height x : Nat) (s : VspState) : Except Failure VspState :=
  match decodePlanes height s.bp (List.range 4) s.input_io s.bc s.mask with
  | .error e => .error e
  | .ok (io, bc, mask) =>
    .ok { input_io := io, bp := bc, bc := s.bp, mask := mask,
          output := packStrip width height x bc s.output }

/-- The loop over the strips still to decode. -/
def decodeStrips (width height : Nat) : List Nat → VspState → Except Failure VspState
  | [], s => .ok s
  | x :: xs, s =>
    match decodeStrip width height x s with
    | .error e => .error e
    | .ok s1 => decodeStrips width height xs s1

/-- The state with which the strip loop is entered: the zero-filled output and
the two freshly allocated history buffers, whose contents `buf1`, `buf2` are
whatever the allocation holds. -/
def vspInit (buf1 buf2 : Buf) (input_io : List Nat) (width height : Nat) : VspState :=
  { input_io := input_io, bp := buf1, bc := buf2, mask := 0,
    output := List.replicate (width * height) 0 }

/-- The function `decompress_vsp(input_io, width, height)`.  It returns the output
buffer and the stream as the call left it. -/
def decompress_vsp (buf1 buf2 : Buf) (input_io : List Nat) (width height : Nat) :
    Except Failure (List Nat × List Nat) :=
  if width % 8 ≠ 0 then .error ⟨.invalidWidth, input_io⟩
  else
    match decodeStrips width height (List.range (width / 8))
        (vspInit buf1 buf2 input_io width height) with
    | .error e => .error e
    | .ok s => .ok (s.output, s.input_io)

/-- The state of `decompress_vsp` after the first `k` strips (iterations
`x = 0 .. k-1` of the strip loop).  After strip `x` the buffers are swapped, so
the plane bytes decoded for strip `x`, the `bc` of its pack step, are the `bp`
of the state after `x + 1` strips. -/
def vspAfter (buf1 buf2 : Buf) (input_io : List Nat) (width height k : Nat) :
    Except Failure VspState :=
  decodeStrips width height (List.range k) (vspInit buf1 buf2 input_io width height)

/-- The decoded plane bytes `bc` of strip `x`, when the decode gets that far. -/
def stripPlanes (buf1 buf2 : Buf) (input_io : List Nat) (width height x : Nat) : Buf :=
  match vspAfter buf1 buf2 input_io width height (x + 1) with
  | .ok s => s.bp
  | .error _ => fun _ _ => 0

/-- Rotation of a byte to the left by `i` bits within 8 bits, the `component[i]`
of the specification ("8-bit domain"). -/
def rotl8 (b i : Nat) : Nat :=
  ((b <<< i) ||| (b >>> (8 - i))) % 256

/-- What one or more opcodes of the decode of `plane` do to the row cursor and
the "current" buffer: the cursor moves forward without passing `height`, only
the rows it passed are written, in column `plane` only, and with bytes. -/
def StepOk (height plane y : Nat) (bc : Buf) (y1 : Nat) (bc1 : Buf) : Prop :=
  y ≤ y1 ∧ y1 ≤ height ∧
  (∀ r p, (p ≠ plane ∨ r < y ∨ y1 ≤ r) → bc1 r p = bc r p) ∧
  ∀ r, y ≤ r → r < y1 → bc1 r plane < 256

/-- Modelled from the spec: the read-only `io::BufferedIO` over a `bstr`
(`io/buffered_io.h` is not part of the sources at hand), as the list of its
unread bytes: "read little-endian unsigned integer of size S", here of two
bytes.  A read beyond the end of the stream fails. -/
def read_u16_le : List Nat → Except Error (Nat × List Nat)
  | b0 :: b1 :: rest => .ok (b0 % 256 + 256 * (b1 % 256), rest)
  | _ => .error .eof

/-- Modelled from the spec: the four-byte little-endian read of the same
stream. -/
def read_u32_le : List Nat → Except Error (Nat × List Nat)
  | b0 :: b1 :: b2 :: b3 :: rest =>
    .ok (b0 % 256 + 256 * (b1 % 256) + 65536 * (b2 % 256) + 16777216 * (b3 % 256), rest)
  | _ => .error .eof

/-- Modelled from the spec: "read N bytes" of the same stream. -/
def read (n : Nat) (io : List Nat) : Except Error (List Nat × List Nat) :=
  if n ≤ io.length then .ok (io.take n, io.drop n) else .error .eof

/-- Modelled from the spec: the forward `skip(n)` of the same stream; moving
beyond the end fails. -/
def skipBytes (n : Nat) (io : List Nat) : Except Error (List Nat) :=
  if n ≤ io.length then .ok (io.drop n) else .error .eof

/-- Modelled from the spec: the read-write `io::BufferedIO` that
`decompress_sgd` wraps around the output (`io/buffered_io.h` is not part of the
sources at hand): the bytes and the cursor.  The spec fixes the access pattern
(alpha "writes every 4th byte, advancing past 3", colour "writes runs of 3 bytes,
advancing past 1") and not what happens at the end of the buffer; here a read, a
skip or a seek beyond the end fails and a write at the end appends. -/
structure OutBuf where
  buffer : List Nat
  pos : Nat
  deriving DecidableEq, Repr

/-- Modelled from the spec: `output_io.skip(offset)`; the cursor has to stay
within `0 .. size`. -/
def OutBuf.skip (o : OutBuf) (offset : Int) : Except Error OutBuf :=
  if (o.pos : Int) + offset < 0 ∨ (o.pos : Int) + offset > o.buffer.length then .error .eof
  else .ok { o with pos := ((o.pos : Int) + offset).toNat }

/-- Modelled from the spec: `output_io.write_u8(v)`. -/
def OutBuf.write_u8 (o : OutBuf) (v : Nat) : OutBuf :=
  if o.pos < o.buffer.length then
    { buffer := o.buffer.set o.pos (v % 256), pos := o.pos + 1 }
  else
    { buffer := o.buffer ++ List.replicate (o.pos - o.buffer.length) 0 ++ [v % 256],
      pos := o.pos + 1 }

/-- Modelled from the spec: `output_io.read_u8()`. -/
def OutBuf.read_u8 (o : OutBuf) : Except Error (Nat × OutBuf) :=
  if o.pos < o.buffer.length then .ok (o.buffer.getD o.pos 0, { o with pos := o.pos + 1 })
  else .error .eof

/-- Modelled from the spec: `output_io.seek(offset)`. -/
def OutBuf.seek (o : OutBuf) (offset : Nat) : Except Error OutBuf :=
  if offset > o.buffer.length then .error .eof else .ok { o with pos := offset }

/-- Modelled from the spec: `output_io.read_to_eof()`. -/
def OutBuf.read_to_eof (o : OutBuf) : List Nat :=
  o.buffer.drop o.pos

/-- The loop `for (auto i : util::range(size)) { output_io.skip(3); output_io.write_u8(v); }`
of the alpha decoder (lines 40-44). -/
def alphaRun (v : Nat) : Nat → OutBuf → Except Error OutBuf
  | 0, o => .ok o
  | n + 1, o =>
    match o.skip 3 with
    | .error e => .error e
    | .ok o1 => alphaRun v n (o1.write_u8 v)

/-- The loop `while (flag-- && !input_io.eof())` of the alpha decoder
(lines 48-53). -/
def alphaLiterals : Nat → List Nat → OutBuf → Except Error (List Nat × OutBuf)
  | 0, io, o => .ok (io, o)
  | _ + 1, [], o => .ok ([], o)
  | flag + 1, a :: rest, o =>
    match o.skip 3 with
    | .error e => .error e
    | .ok o1 => alphaLiterals flag rest (o1.write_u8 ((a % 256) ^^^ 0xFF))

/-- The body of `while (!input_io.eof())` of `decompress_sgd_alpha`: one flag
and its run. -/
def alphaStep (io : List Nat) (o : OutBuf) : Except Error (List Nat × OutBuf) :=
  match read_u16_le io with
  | .error e => .error e
  | .ok (flag, io1) =>
    if flag &&& 0x8000 ≠ 0 then
      match io1 with
      | [] => .error .eof
      | alpha :: io2 =>
        match alphaRun ((alpha % 256) ^^^ 0xFF) ((flag &&& 0x7FFF) + 1) o with
        | .error e => .error e
        | .ok o1 => .ok (io2, o1)
    else alphaLiterals flag io1 o

/-- The loop `while (!input_io.eof())` of `decompress_sgd_alpha`, with an
iteration budget. -/
def alphaLoop : Nat → List Nat → OutBuf → Except Error OutBuf
  | 0, io, o => if io = [] then .ok o else .error .outOfFuel
  | fuel + 1, io, o =>
    if io = [] then .ok o
    else
      match alphaStep io o with
      | .error e => .error e
      | .ok (io1, o1) => alphaLoop fuel io1 o1

/-- The function `decompress_sgd_alpha(input, output_io)`. -/
def decompress_sgd_alpha (input : List Nat) (output_io : OutBuf) : Except Error OutBuf :=
  match alphaLoop (input.length + 1) input output_io with
  | .error e => .error e
  | .ok o => o.seek 0

/-- The statement sequence `write_u8(b); write_u8(g); write_u8(r); skip(1);`. -/
def writePixel (o : OutBuf) (b g r : Nat) : Except Error OutBuf :=
  (((o.write_u8 b).write_u8 g).write_u8 r).skip 1

/-- The update `c += (delta >> shift) & 0x1F` of a `u8` channel. -/
def addField (c delta shift : Nat) : Nat :=
  (c + ((delta >>> shift) &&& 0x1F)) % 256

/-- The update `c += ((delta >> shift) & 0xF) * (delta & signbit ? -1 : 1)` of a
`u8` channel: the sum is an `int`, the store reduces it modulo 256. -/
def addSigned (c delta shift signbit : Nat) : Nat :=
  (((c : Int) + (((delta >>> shift) &&& 0xF : Nat) : Int)
      * (if delta &&& signbit ≠ 0 then -1 else 1)) % 256).toNat

/-- The loop of `decompress_sgd_bgr_strategy_1` (lines 68-88), `b`, `g`, `r`
being the running base. -/
def deltaRun :
    Nat → Nat → Nat → Nat → List Nat → OutBuf → Except Error (List Nat × OutBuf)
  | 0, _, _, _, io, o => .ok (io, o)
  | n + 1, b, g, r, io, o =>
    match read_u16_le io with
    | .error e => .error e
    | .ok (delta, io1) =>
      let b1 := if delta &&& 0x8000 ≠ 0 then addField b delta 0 else addSigned b delta 0 0x10
      let g1 := if delta &&& 0x8000 ≠ 0 then addField g delta 5 else addSigned g delta 5 0x200
      let r1 := if delta &&& 0x8000 ≠ 0 then addField r delta 10 else addSigned r delta 10 0x4000
      match writePixel o b1 g1 r1 with
      | .error e => .error e
      | .ok o1 => deltaRun n b1 g1 r1 io1 o1

/-- The function `decompress_sgd_bgr_strategy_1(input_io, output_io, flag)`. -/
def decompress_sgd_bgr_strategy_1 (io : List Nat) (o : OutBuf) (flag : Nat) :
    Except Error (List Nat × OutBuf) :=
  match o.skip (-4) with
  | .error e => .error e
  | .ok o1 =>
    match o1.read_u8 with
    | .error e => .error e
    | .ok (b, o2) =>
      match o2.read_u8 with
      | .error e => .error e
      | .ok (g, o3) =>
        match o3.read_u8 with
        | .error e => .error e
        | .ok (r, o4) =>
          match o4.skip 1 with
          | .error e => .error e
          | .ok o5 => deltaRun (flag &&& 0x3F) b g r io o5

/-- The loop of `decompress_sgd_bgr_strategy_2` (lines 98-104). -/
def repeatRun (b g r : Nat) : Nat → OutBuf → Except Error OutBuf
  | 0, o => .ok o
  | n + 1, o =>
    match writePixel o b g r with
    | .error e => .error e
    | .ok o1 => repeatRun b g r n o1

/-- The function `decompress_sgd_bgr_strategy_2(input_io, output_io, flag)`. -/
def decompress_sgd_bgr_strategy_2 (io : List Nat) (o : OutBuf) (flag : Nat) :
    Except Error (List Nat × OutBuf) :=
  match io with
  | b :: g :: r :: io1 =>
    match repeatRun (b % 256) (g % 256) (r % 256) ((flag &&& 0x3F) + 1) o with
    | .error e => .error e
    | .ok o1 => .ok (io1, o1)
  | _ => .error .eof

/-- The function `decompress_sgd_bgr_strategy_3(input_io, output_io, flag)`: `size`
times `output_io.write(input_io.read(3)); output_io.skip(1);`. -/
def decompress_sgd_bgr_strategy_3 :
    List Nat → OutBuf → Nat → Except Error (List Nat × OutBuf)
  | io, o, 0 => .ok (io, o)
  | io, o, size + 1 =>
    match io with
    | b :: g :: r :: io1 =>
      match writePixel o b g r with
      | .error e => .error e
      | .ok o1 => decompress_sgd_bgr_strategy_3 io1 o1 size
    | _ => .error .eof

/-- The body of `while (!input_io.eof())` of `decompress_sgd_bgr`: one flag byte
and the run it selects. -/
def bgrStep (io : List Nat) (o : OutBuf) : Except Error (List Nat × OutBuf) :=
  match io with
  | [] => .error .eof
  | f :: io1 =>
    let flag := f % 256
    if flag &&& 0xC0 = 0x80 then decompress_sgd_bgr_strategy_1 io1 o flag
    else if flag &&& 0xC0 = 0x40 then decompress_sgd_bgr_strategy_2 io1 o flag
    else if flag &&& 0xC0 = 0 then decompress_sgd_bgr_strategy_3 io1 o flag
    else .error .badFlag

/-- The loop `while (!input_io.eof())` of `decompress_sgd_bgr`, with an
iteration budget. -/
def bgrLoop : Nat → List Nat → OutBuf → Except Error OutBuf
  | 0, io, o => if io = [] then .ok o else .error .outOfFuel
  | fuel + 1, io, o =>
    if io = [] then .ok o
    else
      match bgrStep io o with
      | .error e => .error e
      | .ok (io1, o1) => bgrLoop fuel io1 o1

/-- The function `decompress_sgd_bgr(input, output_io)`. -/
def decompress_sgd_bgr (input : List Nat) (output_io : OutBuf) : Except Error OutBuf :=
  match bgrLoop (input.length + 1) input output_io with
  | .error e => .error e
  | .ok o => o.seek 0

/-- The function `decompress_sgd(input, output_size)`. -/
def decompress_sgd (input : List Nat) (output_size : Nat) : Except Error (List Nat) :=
  match read_u32_le input with
  | .error e => .error e
  | .ok (alpha_size, io1) =>
    match read alpha_size io1 with
    | .error e => .error e
    | .ok (alpha_data, io2) =>
      match decompress_sgd_alpha alpha_data ⟨List.replicate output_size 0, 0⟩ with
      | .error e => .error e
      | .ok o1 =>
        match read_u32_le io2 with
        | .error e => .error e
        | .ok (color_size, io3) =>
          match read color_size io3 with
          | .error e => .error e
          | .ok (color_data, _) =>
            match decompress_sgd_bgr color_data o1 with
            | .error e => .error e
            | .ok o2 => .ok o2.read_to_eof

/-- The first `k` iterations of the loop of `decompress_sgd_bgr`: `k` runs, each
decoded without error. -/
def bgrRuns : Nat → List Nat → OutBuf → Except Error (List Nat × OutBuf)
  | 0, io, o => .ok (io, o)
  | k + 1, io, o =>
    match bgrStep io o with
    | .error e => .error e
    | .ok (io1, o1) => bgrRuns k io1 o1

/-- The little-endian encoding of a 32-bit length field. -/
def u32le (n : Nat) : List Nat :=
  [n % 256, n / 256 % 256, n / 65536 % 256, n / 16777216 % 256]

/-- The little-endian encoding of a 16-bit field. -/
def u16le (n : Nat) : List Nat :=
  [n % 256, n / 256 % 256]

/-- What runs of the colour decoder do to the output stream: the cursor stays a
multiple of 4 within the buffer, the buffer keeps its length, and the bytes at
offsets congruent to 3 modulo 4 keep their values. -/
def BgrKeeps (o o1 : OutBuf) : Prop :=
  o1.pos % 4 = 0 ∧ o1.pos ≤ o1.buffer.length ∧ o1.buffer.length = o.buffer.length ∧
  ∀ i, i % 4 = 3 → o1.buffer[i]? = o.buffer[i]?

/-- What runs of the alpha decoder do to the output stream: the cursor stays a
multiple of 4 within the buffer and the bytes at offsets not congruent to 3
modulo 4 keep their values. -/
def AlphaKeeps (o o1 : OutBuf) : Prop :=
  o1.pos % 4 = 0 ∧ o1.pos ≤ o1.buffer.length ∧
  ∀ i, i % 4 ≠ 3 → o1.buffer[i]? = o.buffer[i]?

/-! ## The MGD container -/

/-- The width in bits of `size_t`, for a 64-bit target. -/
def size_t_bits : Nat := 64

/-- A `Region` of the metadata: x, y, width, height. -/
structure Region where
  x : Nat
  y : Nat
  width : Nat
  height : Nat
  deriving DecidableEq, Repr

/-- The loop `for (auto i : util::range(region_count))` of `read_region_data`. -/
def readRegions : Nat → List Nat → Except Error (List Region × List Nat)
  | 0, io => .ok ([], io)
  | n + 1, io => do
    let (x, io) ← read_u16_le io
    let (y, io) ← read_u16_le io
    let (width, io) ← read_u16_le io
    let (height, io) ← read_u16_le io
    let (regions, io) ← readRegions n io
    pure ({ x := x, y := y, width := width, height := height } :: regions, io)

/-- The loop `while (file_io.tell() < file_io.size())` of `read_region_data`,
with an iteration budget; `io` is the unread rest of the file, its length is
`size() - tell()`. -/
def regionLoop : Nat → List Nat → Except Error (List Region)
  | 0, io => if io.length = 0 then .ok [] else .error .outOfFuel
  | fuel + 1, io =>
    if io.length = 0 then .ok []
    else do
      let io ← skipBytes 4 io
      let (regions_size, io) ← read_u32_le io
      let (region_count, io) ← read_u16_le io
      let (meta_format, io) ← read_u16_le io
      let bytes_left := io.length
      if meta_format ≠ 4 then Except.error .unexpectedMetaFormat
      else if regions_size ≠ bytes_left then Except.error .regionSizeMismatch
      else do
        let (regions, io) ← readRegions region_count io
        if io.length ≤ 4 then pure regions
        else do
          let io ← skipBytes 4 io
          let more ← regionLoop fuel io
          pure (regions ++ more)

/-- The function `read_region_data(file_io)`. -/
def read_region_data (file_io : List Nat) : Except Error (List Region) :=
  regionLoop (file_io.length + 1) file_io

/-- The function `read_pixels(input, compression_type, size_original, width, height)`.
The `pix::Grid` constructor and the PNG decoder are not part of the sources at
hand and are taken as the parameters `grid` and `png`; the compression types
are `None = 0`, `Sgd = 1`, `Png = 2`. -/
def read_pixels {G : Type} (grid : Nat → Nat → List Nat → Except Error G)
    (png : List Nat → Except Error G) (input : List Nat)
    (compression_type size_original width height : Nat) : Except Error G :=
  if compression_type = 0 then grid width height input
  else if compression_type = 1 then
    match decompress_sgd input size_original with
    | .error e => .error e
    | .ok decompressed => grid width height decompressed
  else if compression_type = 2 then png input
  else .error .unsupportedCompression

/-- The method `MgdImageDecoder::decode_internal(file)`, on the bytes of the file
from its start.  The `u32` compression type is cast to the `u8` enumeration;
`size_compressed` is a `size_t`, so is the sum `size_compressed + 4`. -/
def MgdImageDecoder.decode_internal {G : Type} (grid : Nat → Nat → List Nat → Except Error G)
    (png : List Nat → Except Error G) (file : List Nat) : Except Error G := do
  let io ← skipBytes 4 file
  let (_, io) ← read_u16_le io
  let (_, io) ← read_u16_le io
  let io ← skipBytes 4 io
  let (width, io) ← read_u16_le io
  let (height, io) ← read_u16_le io
  let (size_original, io) ← read_u32_le io
  let (size_compressed_total, io) ← read_u32_le io
  let (compression_type, io) ← read_u32_le io
  let io ← skipBytes 64 io
  let (size_compressed, io) ← read_u32_le io
  if size_compressed_total ≠ (size_compressed + 4) % 2 ^ size_t_bits then
    Except.error .sizeMismatch
  else do
    let (data, io) ← read size_compressed io
    let pixels ← read_pixels grid png data (compression_type % 256) size_original width height
    let _ ← read_region_data io
    pure pixels

/-- The part of `decode_internal` behind the size check: read the compressed
data, decode the pixels, read the region data. -/
def decodeBody {G : Type} (grid : Nat → Nat → List Nat → Except Error G)
    (png : List Nat → Except Error G) (io : List Nat)
    (size_compressed compression_type size_original width height : Nat) : Except Error G := do
  let (data, io) ← read size_compressed io
  let pixels ← read_pixels grid png data (compression_type % 256) size_original width height
  let _ ← read_region_data io
  pure pixels

/-! ## The QLIE pseudo-random generator -/

namespace CustomMersenneTwister

/-- The number of state words. -/
def n : Nat := 64

/-- The tap distance of the regeneration. -/
def m : Nat := 39

/-- The constant `matrix_a`. -/
def matrix_a : Nat := 0x9908B0DF

/-- The constant `upper_mask`. -/
def upper_mask : Nat := 0x80000000

/-- The constant `lower_mask`. -/
def lower_mask : Nat := 0x7FFFFFFF

/-- The `struct Priv`: the array `u32 state[n]` and the cursor `int mti`. -/
structure Priv where
  state : List Nat
  mti : Nat
  deriving DecidableEq, Repr

/-- A read `state[i]` of the array; an index outside the array has no value. -/
def load (state : List Nat) (i : Int) : Option Nat :=
  if i < 0 then none else state[i.toNat]?

/-- An assignment `state[i] = v` to a `u32` cell of the array; an index outside
the array has no result. -/
def store (state : List Nat) (i : Int) (v : Nat) : Option (List Nat) :=
  if i < 0 ∨ (state.length : Int) ≤ i then none
  else some (state.set i.toNat (v % 2 ^ 32))

/-- A `for` loop whose body `body state i` updates the array, run for the
indices `idx` in order. -/
def loopOver (body : List Nat → Nat → Option (List Nat)) :
    List Nat → List Nat → Option (List Nat)
  | [], state => some state
  | i :: idx, state =>
    match body state i with
    | none => none
    | some s1 => loopOver body idx s1

/-- The body of the loop of `init_state` (lines 24-25). -/
def initStep (state : List Nat) (mti : Nat) : Option (List Nat) :=
  match load state ((mti : Int) - 1) with
  | none => none
  | some prev =>
    let tmp := prev ^^^ (prev >>> 30)
    store state mti ((1712438297 * tmp + mti) &&& 0xFFFFFFFF)

/-- The function `init_state(state, seed, mti)`; returns the array and the value
`mti` has when the loop `for (mti = 1; mti < n; mti++)` is left. -/
def init_state (state : List Nat) (seed : Nat) : Option (List Nat × Nat) :=
  match store state 0 (seed &&& 0xFFFFFFFF) with
  | none => none
  | some s0 =>
    match loopOver initStep (List.range' 1 (n - 1)) s0 with
    | none => none
    | some s1 => some (s1, n)

/-- The constructor `CustomMersenneTwister(seed)`; `mem` is what the freshly
allocated `Priv` holds in its array. -/
def construct (mem : List Nat) (seed : Nat) : Option Priv :=
  match init_state mem (seed % 2 ^ 32) with
  | none => none
  | some r => some { state := r.1, mti := r.2 }

/-- Modelled from the spec: the view of a `bstr` as `u32` words
(`data.get<const u32>()` up to `data.end<const u32>()`; the `bstr` class is not
part of the sources at hand): "each consecutive 4-byte little-endian word taken
from an input buffer", a rest of fewer than four bytes is no word. -/
def words : List Nat → List Nat
  | b0 :: b1 :: b2 :: b3 :: rest =>
    (b0 % 256 + 256 * (b1 % 256) + 65536 * (b2 % 256) + 16777216 * (b3 % 256)) :: words rest
  | _ => []

/-- The loop `while (i < n && data_ptr < data_end) p->state[i++] ^= *data_ptr++;`
of `xor_state`, `data` being the words from `data_ptr` on. -/
def xorLoop : List Nat → Nat → List Nat → Option (List Nat)
  | [], _, state => some state
  | w :: data, i, state =>
    if i < n then
      match load state i with
      | none => none
      | some a =>
        match store state i (a ^^^ w) with
        | none => none
        | some s1 => xorLoop data (i + 1) s1
    else some state

/-- The method `xor_state(data)`. -/
def xor_state (p : Priv) (data : List Nat) : Option Priv :=
  match xorLoop (words data) 0 p.state with
  | none => none
  | some s1 => some { state := s1, mti := p.mti }

/-- The table `static u32 mag01[2] = {0x0, matrix_a}`. -/
def mag01 (i : Nat) : Option Nat :=
  [0x0, matrix_a][i]?

/-- One regeneration step:
`y = (state[kk] & upper_mask) | ((state[next] & lower_mask) >> 1);`
`state[kk] = state[tap] ^ y ^ mag01[state[sel] & 0x1];`. -/
def twistWord (state : List Nat) (kk next : Nat) (tap : Int) (sel : Nat) :
    Option (List Nat) :=
  match load state kk, load state next, load state tap, load state sel with
  | some a, some b, some c, some e =>
    let y := (a &&& upper_mask) ||| ((b &&& lower_mask) >>> 1)
    match mag01 (e &&& 0x1) with
    | none => none
    | some g => store state kk (c ^^^ y ^^^ g)
  | _, _, _, _ => none

/-- The body of `if (p->mti >= n)` in `get_next_integer` (lines 55-80): the
reseeding of an uninitialised generator, the two loops over `kk`, the last word,
and the reset of the cursor. -/
def regenerate (p : Priv) : Option Priv :=
  match (if p.mti = n + 1 then init_state p.state 5489 else some (p.state, p.mti)) with
  | none => none
  | some r0 =>
    match loopOver (fun st kk => twistWord st kk (kk + 1) ((kk : Int) + m) (kk + 1))
        (List.range (n - m)) r0.1 with
    | none => none
    | some s1 =>
      match loopOver
          (fun st kk => twistWord st kk (kk + 1) ((kk : Int) + ((m : Int) - n)) (kk + 1))
          (List.range' (n - m) (m - 1)) s1 with
      | none => none
      | some s2 =>
        match twistWord s2 (n - 1) 0 ((m : Int) - 1) (n - 1) with
        | none => none
        | some s3 => some { state := s3, mti := 0 }

/-- The tempering of lines 85-88 on a `u32`. -/
def temper (y0 : Nat) : Nat :=
  let y1 := y0 ^^^ (y0 >>> 11)
  let y2 := y1 ^^^ (((y1 <<< 7) % 2 ^ 32) &&& 0x9C4F88E3)
  let y3 := y2 ^^^ (((y2 <<< 15) % 2 ^ 32) &&& 0xE7F70000)
  y3 ^^^ (y3 >>> 18)

/-- The method `get_next_integer()`; returns the integer and the generator as
the call leaves it. -/
def get_next_integer (p : Priv) : Option (Nat × Priv) :=
  match (if p.mti ≥ n then regenerate p else some p) with
  | none => none
  | some p1 =>
    match load p1.state p1.mti with
    | none => none
    | some y => some (temper y, { state := p1.state, mti := p1.mti + 1 })

/-- A generator as the program holds it: 64 words of 32 bits and a cursor of at
most 64. -/
def WellFormed (p : Priv) : Prop :=
  p.state.length = n ∧ p.mti ≤ n ∧ ∀ w ∈ p.state, w < 2 ^ 32

/-- The generators that a program can hold: made by the constructor and then
used through `xor_state` and `get_next_integer`. -/
inductive Reachable : Priv → Prop
  | seeded (mem : List Nat) (seed : Nat) (p : Priv) :
      mem.length = n → construct mem seed = some p → Reachable p
  | mixed (p p1 : Priv) (data : List Nat) :
      Reachable p → xor_state p data = some p1 → Reachable p1
  | drawn (p p1 : Priv) (v : Nat) :
      Reachable p → get_next_integer p = some (v, p1) → Reachable p1

/-- The tempering in the words of the specification, on naturals without
truncation: `y ^= y>>11; y ^= (y<<7) & 0x9C4F88E3; y ^= (y<<15) & 0xE7F70000;`
`y ^= y>>18`. -/
def temperSpec (y0 : Nat) : Nat :=
  let y1 := y0 ^^^ (y0 >>> 11)
  let y2 := y1 ^^^ ((y1 <<< 7) &&& 0x9C4F88E3)
  let y3 := y2 ^^^ ((y2 <<< 15) &&& 0xE7F70000)
  y3 ^^^ (y3 >>> 18)

/-- The word `y` of a regeneration step, from `state[kk]` and `state[next]`. -/
def twistY (a b : Nat) : Nat :=
  (a &&& 0x80000000) ||| ((b &&& 0x7FFFFFFF) >>> 1)

/-- The entry of `mag01` selected by the lowest bit of a word. -/
def magOf (e : Nat) : Nat :=
  if e % 2 = 1 then 0x9908B0DF else 0

/-- The `i`-th little-endian 32-bit word of a byte buffer. -/
def wordAt (data : List Nat) (i : Nat) : Nat :=
  data.getD (4 * i) 0 % 256 + 256 * (data.getD (4 * i + 1) 0 % 256)
    + 65536 * (data.getD (4 * i + 2) 0 % 256) + 16777216 * (data.getD (4 * i + 3) 0 % 256)

end CustomMersenneTwister

/-- The update of one colour channel by a delta word `d` in the words of the
specification, `shift` being 0, 5, 10 for the blue, green, red field: with bit 15
of `d` set the five-bit field is added, otherwise the four-bit magnitude is
subtracted when the sign bit of the field (bit `shift + 4`) is set and added when
it is clear; the result is reduced modulo 256. -/
def deltaChannel (old d shift : Nat) : Nat :=
  if d.testBit 15 then (old + ((d >>> shift) &&& 0x1F)) % 256
  else if d.testBit (shift + 4) then
    (((old : Int) - (((d >>> shift) &&& 0xF : Nat) : Int)) % 256).toNat
  else (old + ((d >>> shift) &&& 0xF)) % 256

/-- The update of the running base `(b, g, r)` by a delta word. -/
def deltaNext (t : Nat × Nat × Nat) (d : Nat) : Nat × Nat × Nat :=
  (deltaChannel t.1 d 0, deltaChannel t.2.1 d 5, deltaChannel t.2.2 d 10)

/-- The pixels of a delta run: every delta word updates the running base, the
updated base is the pixel and the base of the next delta word. -/
def deltaPixels (t : Nat × Nat × Nat) : List Nat → List (Nat × Nat × Nat)
  | [] => []
  | d :: ds => deltaNext t d :: deltaPixels (deltaNext t d) ds

/-- The stream of a list of 16-bit delta words. -/
def encodeDeltas : List Nat → List Nat
  | [] => []
  | d :: ds => u16le d ++ encodeDeltas ds

/-- Two output streams that the alpha decoder cannot tell apart: the same
cursor, the same length, and the same bytes at the offsets congruent to 3
modulo 4 (the alpha decoder reads nothing of the buffer; these are the bytes it
writes). -/
def AlphaSim (o o1 : OutBuf) : Prop :=
  o1.pos = o.pos ∧ o1.buffer.length = o.buffer.length ∧
  ∀ i : Nat, i % 4 = 3 → o1.buffer[i]? = o.buffer[i]?

/-- Two output streams of which the second serves the colour decoder as well as
the first: the same cursor, at least the length, and the same bytes at the
offsets not congruent to 3 modulo 4 (the bytes the colour decoder reads and
writes). -/
def BgrSim (o o1 : OutBuf) : Prop :=
  o1.pos = o.pos ∧ o.buffer.length ≤ o1.buffer.length ∧
  ∀ i : Nat, i % 4 ≠ 3 → o1.buffer[i]? = o.buffer[i]?

/-- The mask an opcode byte `c` leaves, in the words of the specification:
opcodes 0x03, 0x04, 0x05 use the mask and reset it to 0, opcode 0x06 sets it to
0xFF, every other opcode leaves it as it is. -/
def maskAfter (c mask : Nat) : Nat :=
  if c = 0x03 ∨ c = 0x04 ∨ c = 0x05 then 0 else if c = 0x06 then 0xFF else mask

/-- The bytes that encode a plane by copy opcodes only: the opcode `0x00` with
the count byte `k`, for every `k` of the list. -/
def copyPlane : List Nat → List Nat
  | [] => []
  | k :: ks => 0x00 :: k :: copyPlane ks

/-- The bytes that encode consecutive planes by copy opcodes only, `kss` holding
the count bytes of each plane. -/
def copyPlanes : List (List Nat) → List Nat
  | [] => []
  | ks :: kss => copyPlane ks ++ copyPlanes kss

/-- The copy opcodes with the count bytes `ks` are what the decode of a plane
with `left` rows to go executes, and nothing more: every count is a byte, every
opcode is met with rows left to decode (it copies `k + 1` of them, or those that
are left), and after the last one no row is left. -/
def copyCovers : List Nat → Nat → Bool
  | [], left => decide (left = 0)
  | k :: ks, left => decide (0 < left) && (decide (k < 256) && copyCovers ks (left - (k + 1)))

/-- The pixel of column `j` in the words of the specification (planar to
chunky): bit `i` of the pixel is bit `7 - j` of the byte of plane `i`, for the
planes 0..3. -/
def chunkyPixel (bc : Buf) (y j : Nat) : Nat :=
  ((bc y 0).testBit (7 - j)).toNat + 2 * ((bc y 1).testBit (7 - j)).toNat
    + 4 * ((bc y 2).testBit (7 - j)).toNat + 8 * ((bc y 3).testBit (7 - j)).toNat

/-! ## Lemmas on the pack step -/

theorem getD_set_eq (l : List Nat) (i k v : Nat) :
    (l.set i v).getD k 0 = if i = k ∧ k < l.length then v else l.getD k 0 := by
  simp only [List.getD_eq_getElem?_getD, List.getElem?_set]
  by_cases h : i = k
  · subst h
    by_cases h2 : i < l.length
    · simp [h2]
    · simp [h2, List.getElem?_eq_none (Nat.le_of_not_lt h2)]
  · simp [h]

theorem foldl_set_length (g : List Nat → Nat → Nat × Nat) :
    ∀ (js : List Nat) (out : List Nat),
      (js.foldl (fun o j => o.set (g o j).1 (g o j).2) out).length = out.length := by
  intro js
  induction js with
  | nil => intro out; rfl
  | cons j js ih => intro out; simp only [List.foldl_cons]; rw [ih]; simp

theorem foldl_set_getD (f : Nat → Nat → Nat) (base : Nat) :
    ∀ (n : Nat) (out : List Nat) (k : Nat),
      ((List.range n).foldl
          (fun o j => o.set (base + j) (f j (o.getD (base + j) 0))) out).getD k 0
        = if base ≤ k ∧ k < base + n ∧ k < out.length then f (k - base) (out.getD k 0)
          else out.getD k 0 := by
  intro n
  induction n with
  | zero =>
    intro out k
    have : ¬ (base ≤ k ∧ k < base + 0 ∧ k < out.length) := by omega
    rw [if_neg this]
    rfl
  | succ n ih =>
    intro out k
    rw [List.range_succ, List.foldl_append]
    simp only [List.foldl_cons, List.foldl_nil]
    rw [getD_set_eq, ih, ih]
    rw [foldl_set_length (fun o j => (base + j, f j (o.getD (base + j) 0)))]
    by_cases h1 : base + n = k
    · subst h1
      by_cases h2 : base + n < out.length
      · have e1 : ¬ (base ≤ base + n ∧ base + n < base + n ∧ base + n < out.length) := by omega
        have e2 : (base ≤ base + n ∧ base + n < base + (n + 1) ∧ base + n < out.length) := by
          omega
        simp [h2, e1, e2]
      · have e1 : ¬ (base ≤ base + n ∧ base + n < base + n ∧ base + n < out.length) := by omega
        have e2 : ¬ (base ≤ base + n ∧ base + n < base + (n + 1) ∧ base + n < out.length) := by
          omega
        simp [h2, e1, e2]
    · by_cases h3 : base ≤ k ∧ k < base + n ∧ k < out.length
      · have e2 : (base ≤ k ∧ k < base + (n + 1) ∧ k < out.length) := by omega
        simp [h1, h3, e2]
      · have e2 : ¬ (base ≤ k ∧ k < base + (n + 1) ∧ k < out.length) := by omega
        simp [h1, h3, e2]

theorem packRow_length (width x : Nat) (bc : Buf) (output : List Nat) (y : Nat) :
    (packRow width x bc output y).length = output.length := by
  unfold packRow
  exact foldl_set_length
    (fun o j => ((y * (width / 8) + x) * 8 + j,
      packPixel bc y j (o.getD ((y * (width / 8) + x) * 8 + j) 0))) _ output

theorem packRow_getD (width x : Nat) (bc : Buf) (output : List Nat) (y k : Nat) :
    (packRow width x bc output y).getD k 0
      = if k / 8 = y * (width / 8) + x ∧ k < output.length
        then packPixel bc y (k % 8) (output.getD k 0) else output.getD k 0 := by
  unfold packRow
  rw [foldl_set_getD (fun j old => packPixel bc y j old) ((y * (width / 8) + x) * 8) 8 output k]
  by_cases h : k / 8 = y * (width / 8) + x ∧ k < output.length
  · have e : (y * (width / 8) + x) * 8 ≤ k ∧ k < (y * (width / 8) + x) * 8 + 8
        ∧ k < output.length := by omega
    have e3 : k - (y * (width / 8) + x) * 8 = k % 8 := by omega
    simp [h, e, e3]
  · have e : ¬ ((y * (width / 8) + x) * 8 ≤ k ∧ k < (y * (width / 8) + x) * 8 + 8
        ∧ k < output.length) := by omega
    simp [h, e]

theorem packStrip_length (width x : Nat) (bc : Buf) :
    ∀ (height : Nat) (output : List Nat),
      (packStrip width height x bc output).length = output.length := by
  intro height
  induction height with
  | zero => intro output; rfl
  | succ h ih =>
    intro output
    unfold packStrip at ih ⊢
    rw [List.range_succ, List.foldl_append]
    simp only [List.foldl_cons, List.foldl_nil]
    rw [packRow_length, ih]

/-- What the pack step of strip `x` leaves at output index `k`: the bytes of the
strip (column group `x`, rows below `height`) are or-ed with the packed bits,
every other byte is kept. -/
theorem packStrip_getD (width x : Nat) (bc : Buf) (hx : x < width / 8) :
    ∀ (height : Nat) (output : List Nat) (k : Nat),
      (packStrip width height x bc output).getD k 0
        = if (k / 8) % (width / 8) = x ∧ (k / 8) / (width / 8) < height ∧ k < output.length
          then packPixel bc ((k / 8) / (width / 8)) (k % 8) (output.getD k 0)
          else output.getD k 0 := by
  intro height
  induction height with
  | zero =>
    intro output k
    simp [packStrip]
  | succ h ih =>
    intro output k
    have ih2 := ih output k
    have hl := packStrip_length width x bc h output
    unfold packStrip at ih2 hl ⊢
    rw [List.range_succ, List.foldl_append]
    simp only [List.foldl_cons, List.foldl_nil]
    rw [packRow_getD, ih2, hl]
    have hW : 0 < width / 8 := by omega
    have key : k / 8 = h * (width / 8) + x ↔
        ((k / 8) % (width / 8) = x ∧ (k / 8) / (width / 8) = h) := by
      constructor
      · intro e
        rw [e]
        constructor
        · rw [Nat.add_comm, Nat.add_mul_mod_self_right]; exact Nat.mod_eq_of_lt hx
        · rw [Nat.add_comm, Nat.add_mul_div_right _ _ hW, Nat.div_eq_of_lt hx]; simp
      · rintro ⟨e1, e2⟩
        have := Nat.div_add_mod (k / 8) (width / 8)
        rw [e1, e2, Nat.mul_comm] at this
        exact this.symm
    by_cases c1 : k / 8 = h * (width / 8) + x
    · obtain ⟨e1, e2⟩ := key.mp c1
      by_cases c2 : k < output.length
      · have n1 : ¬ ((k / 8) % (width / 8) = x ∧ (k / 8) / (width / 8) < h
            ∧ k < output.length) := by omega
        have n2 : ((k / 8) % (width / 8) = x ∧ (k / 8) / (width / 8) < h + 1
            ∧ k < output.length) := by omega
        rw [if_pos ⟨c1, c2⟩, if_neg n1, if_pos n2, e2]
      · have n1 : ¬ ((k / 8) % (width / 8) = x ∧ (k / 8) / (width / 8) < h
            ∧ k < output.length) := by omega
        have n2 : ¬ ((k / 8) % (width / 8) = x ∧ (k / 8) / (width / 8) < h + 1
            ∧ k < output.length) := by omega
        have n3 : ¬ (k / 8 = h * (width / 8) + x ∧ k < output.length) := by omega
        rw [if_neg n3, if_neg n1, if_neg n2]
    · have n3 : ¬ (k / 8 = h * (width / 8) + x ∧ k < output.length) := by omega
      rw [if_neg n3]
      have hne : ¬ ((k / 8) % (width / 8) = x ∧ (k / 8) / (width / 8) = h) :=
        fun hh => c1 (key.mpr hh)
      by_cases c3 : (k / 8) % (width / 8) = x ∧ (k / 8) / (width / 8) < h ∧ k < output.length
      · have n2 : ((k / 8) % (width / 8) = x ∧ (k / 8) / (width / 8) < h + 1
            ∧ k < output.length) := by omega
        rw [if_pos c3, if_pos n2]
      · have n2 : ¬ ((k / 8) % (width / 8) = x ∧ (k / 8) / (width / 8) < h + 1
            ∧ k < output.length) := by
          rintro ⟨a, b, c⟩
          have : (k / 8) / (width / 8) = h ∨ (k / 8) / (width / 8) < h := by omega
          rcases this with t | t
          · exact hne ⟨a, t⟩
          · exact c3 ⟨a, t, c⟩
        rw [if_neg c3, if_neg n2]

theorem packPixel_step_lt (acc t i : Nat) (ha : acc < 16) (hi : i < 4) :
    (acc ||| (t &&& (1 <<< i))) % 256 < 16 := by
  have h1 : t &&& (1 <<< i) < 2 ^ 4 := by
    apply Nat.and_lt_two_pow
    rw [Nat.one_shiftLeft]
    exact Nat.pow_lt_pow_right (by decide) hi
  have h2 : acc ||| (t &&& (1 <<< i)) < 2 ^ 4 := Nat.or_lt_two_pow (by simpa using ha) h1
  have h3 : (acc ||| (t &&& (1 <<< i))) % 256 ≤ acc ||| (t &&& (1 <<< i)) := Nat.mod_le _ _
  have h4 : (2 : Nat) ^ 4 = 16 := by decide
  omega

theorem range_four : List.range 4 = [0, 1, 2, 3] := by decide

theorem packPixel_lt (bc : Buf) (y j old : Nat) (h : old < 16) : packPixel bc y j old < 16 := by
  unfold packPixel
  rw [range_four]
  simp only [List.foldl_cons, List.foldl_nil]
  apply packPixel_step_lt _ _ _ _ (by decide)
  apply packPixel_step_lt _ _ _ _ (by decide)
  apply packPixel_step_lt _ _ _ _ (by decide)
  exact packPixel_step_lt _ _ _ h (by decide)

/-- Bit `i` of a packed pixel is bit `7 - j + i` of the (untruncated)
`component[i]`. -/
theorem packPixel_testBit (bc : Buf) (y j i : Nat) (hi : i < 4) :
    (packPixel bc y j 0).testBit i = (component bc y i).testBit (7 - j + i) := by
  unfold packPixel
  rw [range_four]
  simp only [List.foldl_cons, List.foldl_nil]
  have e : (256 : Nat) = 2 ^ 8 := by decide
  simp only [e, Nat.testBit_mod_two_pow, Nat.testBit_lor, Nat.testBit_and,
    Nat.testBit_shiftRight, Nat.one_shiftLeft, Nat.testBit_two_pow, Nat.zero_testBit]
  interval_cases i <;> simp

/-- Bit `7 - j + i` of `component[i]` is bit `7 - j` of the plane byte itself:
the part `byte >> (8 - i)` of the component lies below that bit. -/
theorem component_testBit (bc : Buf) (y j i : Nat) (hb : bc y i < 256) :
    (component bc y i).testBit (7 - j + i) = (bc y i).testBit (7 - j) := by
  unfold component
  rw [Nat.testBit_lor, Nat.testBit_shiftLeft, Nat.testBit_shiftRight]
  have h1 : (bc y i).testBit (8 - i + (7 - j + i)) = false := by
    apply Nat.testBit_lt_two_pow
    have : 8 ≤ 8 - i + (7 - j + i) := by omega
    calc bc y i < 2 ^ 8 := by simpa using hb
      _ ≤ 2 ^ (8 - i + (7 - j + i)) := Nat.pow_le_pow_right (by decide) this
  rw [h1]
  have h2 : 7 - j + i - i = 7 - j := by omega
  simp [h2]

/-! ## Lemmas on the strip loop -/

theorem decodeStrips_append (width height : Nat) :
    ∀ (xs ys : List Nat) (s : VspState),
      decodeStrips width height (xs ++ ys) s
        = match decodeStrips width height xs s with
          | .error e => .error e
          | .ok s1 => decodeStrips width height ys s1 := by
  intro xs
  induction xs with
  | nil => intro ys s; rfl
  | cons x xs ih =>
    intro ys s
    simp only [List.cons_append, decodeStrips]
    cases decodeStrip width height x s with
    | error e => rfl
    | ok s1 => exact ih ys s1

theorem vspAfter_succ (buf1 buf2 : Buf) (input_io : List Nat) (width height k : Nat) :
    vspAfter buf1 buf2 input_io width height (k + 1)
      = match vspAfter buf1 buf2 input_io width height k with
        | .error e => .error e
        | .ok s => decodeStrip width height k s := by
  unfold vspAfter
  rw [List.range_succ, decodeStrips_append]
  cases decodeStrips width height (List.range k) (vspInit buf1 buf2 input_io width height) with
  | error e => rfl
  | ok s =>
    simp only [decodeStrips]
    cases decodeStrip width height k s <;> rfl

/-- A decode that gets through `k` strips got through every shorter run of
strips. -/
theorem vspAfter_prefix (buf1 buf2 : Buf) (input_io : List Nat) (width height : Nat) :
    ∀ (k : Nat) (s : VspState), vspAfter buf1 buf2 input_io width height k = .ok s →
      ∀ m, m ≤ k → ∃ s1, vspAfter buf1 buf2 input_io width height m = .ok s1 := by
  intro k
  induction k with
  | zero =>
    intro s h m hm
    have : m = 0 := by omega
    subst this
    exact ⟨s, h⟩
  | succ k ih =>
    intro s h m hm
    by_cases c : m = k + 1
    · subst c; exact ⟨s, h⟩
    · rw [vspAfter_succ] at h
      cases h0 : vspAfter buf1 buf2 input_io width height k with
      | error e => rw [h0] at h; cases h
      | ok s0 => exact ih s0 h0 m (by omega)

theorem decodeStrip_ok (width height x : Nat) (s s1 : VspState)
    (h : decodeStrip width height x s = .ok s1) :
    s1.output = packStrip width height x s1.bp s.output ∧ s1.bc = s.bp := by
  unfold decodeStrip at h
  cases hp : decodePlanes height s.bp (List.range 4) s.input_io s.bc s.mask with
  | error e => rw [hp] at h; cases h
  | ok r =>
    obtain ⟨io, bc, mask⟩ := r
    rw [hp] at h
    simp only [Except.ok.injEq] at h
    subst h
    exact ⟨rfl, rfl⟩

theorem stripPlanes_eq (buf1 buf2 : Buf) (input_io : List Nat) (width height x : Nat)
    (s : VspState) (h : vspAfter buf1 buf2 input_io width height (x + 1) = .ok s) :
    stripPlanes buf1 buf2 input_io width height x = s.bp := by
  unfold stripPlanes
  rw [h]

theorem index_row_lt (width height k : Nat) (hw : width % 8 = 0) (hk : k < width * height) :
    (k / 8) / (width / 8) < height := by
  have e : width = 8 * (width / 8) := by omega
  have hk2 : k < 8 * ((width / 8) * height) := by
    rw [← Nat.mul_assoc, ← e]; exact hk
  have h1 : k / 8 < (width / 8) * height := Nat.div_lt_of_lt_mul hk2
  exact Nat.div_lt_of_lt_mul h1

/-- The output after `n` strips: the bytes of the strips already packed hold the
packed pixel of their strip, all other bytes are still zero. -/
theorem vspAfter_output (buf1 buf2 : Buf) (input_io : List Nat) (width height : Nat)
    (hw : width % 8 = 0) :
    ∀ (n : Nat), n ≤ width / 8 → ∀ (s : VspState),
      vspAfter buf1 buf2 input_io width height n = .ok s →
      s.output.length = width * height ∧
      ∀ k, s.output.getD k 0
        = if (k / 8) % (width / 8) < n ∧ k < width * height
          then packPixel (stripPlanes buf1 buf2 input_io width height ((k / 8) % (width / 8)))
                 ((k / 8) / (width / 8)) (k % 8) 0
          else 0 := by
  intro n
  induction n with
  | zero =>
    intro _ s h
    have hs : s = vspInit buf1 buf2 input_io width height := by
      simp only [vspAfter, List.range_zero, decodeStrips, Except.ok.injEq] at h
      exact h.symm
    subst hs
    refine ⟨by simp [vspInit], ?_⟩
    intro k
    have : ¬ ((k / 8) % (width / 8) < 0 ∧ k < width * height) := by omega
    rw [if_neg this]
    simp only [vspInit, List.getD_eq_getElem?_getD, List.getElem?_replicate]
    split <;> rfl
  | succ n ih =>
    intro hn s h
    have h' := h
    rw [vspAfter_succ] at h'
    cases h0 : vspAfter buf1 buf2 input_io width height n with
    | error e => rw [h0] at h'; cases h'
    | ok s0 =>
      rw [h0] at h'
      simp only at h'
      obtain ⟨ihl, ihg⟩ := ih (by omega) s0 h0
      obtain ⟨ho, _⟩ := decodeStrip_ok width height n s0 s h'
      have hsp := stripPlanes_eq buf1 buf2 input_io width height n s h
      constructor
      · rw [ho, packStrip_length, ihl]
      · intro k
        rw [ho, packStrip_getD width n s.bp (by omega) height s0.output k, ihl, ihg k]
        by_cases c1 : (k / 8) % (width / 8) = n
        · by_cases c2 : k < width * height
          · have hr := index_row_lt width height k hw c2
            have n1 : ¬ ((k / 8) % (width / 8) < n ∧ k < width * height) := by omega
            have n2 : ((k / 8) % (width / 8) < n + 1 ∧ k < width * height) := by omega
            rw [if_pos ⟨c1, hr, c2⟩, if_neg n1, if_pos n2, c1, hsp]
          · have n0 : ¬ ((k / 8) % (width / 8) = n ∧ (k / 8) / (width / 8) < height
                ∧ k < width * height) := by omega
            have n1 : ¬ ((k / 8) % (width / 8) < n ∧ k < width * height) := by omega
            have n2 : ¬ ((k / 8) % (width / 8) < n + 1 ∧ k < width * height) := by omega
            rw [if_neg n0, if_neg n1, if_neg n2]
        · have n0 : ¬ ((k / 8) % (width / 8) = n ∧ (k / 8) / (width / 8) < height
              ∧ k < width * height) := by omega
          rw [if_neg n0]
          by_cases c3 : (k / 8) % (width / 8) < n ∧ k < width * height
          · have n2 : ((k / 8) % (width / 8) < n + 1 ∧ k < width * height) := by omega
            rw [if_pos c3, if_pos n2]
          · have n2 : ¬ ((k / 8) % (width / 8) < n + 1 ∧ k < width * height) := by omega
            rw [if_neg c3, if_neg n2]

theorem decompress_vsp_ok (buf1 buf2 : Buf) (input_io : List Nat) (width height : Nat)
    (out rest : List Nat)
    (h : decompress_vsp buf1 buf2 input_io width height = .ok (out, rest)) :
    width % 8 = 0 ∧ ∃ s, vspAfter buf1 buf2 input_io width height (width / 8) = .ok s
      ∧ s.output = out ∧ s.input_io = rest := by
  unfold decompress_vsp at h
  by_cases hw : width % 8 = 0
  · refine ⟨hw, ?_⟩
    have hw2 : ¬ (width % 8 ≠ 0) := by omega
    rw [if_neg hw2] at h
    unfold vspAfter
    cases hd : decodeStrips width height (List.range (width / 8))
        (vspInit buf1 buf2 input_io width height) with
    | error e => rw [hd] at h; cases h
    | ok s =>
      rw [hd] at h
      simp only [Except.ok.injEq, Prod.mk.injEq] at h
      exact ⟨s, rfl, h.1, h.2⟩
  · rw [if_pos hw] at h; cases h

/-- The position of pixel `(8x + j, y)` in the output and its decomposition. -/
theorem pixel_index (width height x y j : Nat) (hw : width % 8 = 0) (hx : x < width / 8)
    (hy : y < height) (hj : j < 8) :
    (y * width + x * 8 + j) / 8 % (width / 8) = x ∧
    (y * width + x * 8 + j) / 8 / (width / 8) = y ∧
    (y * width + x * 8 + j) % 8 = j ∧
    y * width + x * 8 + j < width * height := by
  have e : width = 8 * (width / 8) := by omega
  generalize width / 8 = w at e hx
  subst e
  have hW : 0 < w := by omega
  have e1 : y * (8 * w) + x * 8 + j = j + (x + y * w) * 8 := by ring
  have e2 : (y * (8 * w) + x * 8 + j) / 8 = x + y * w := by
    rw [e1, Nat.add_mul_div_right _ _ (by decide : 0 < 8), Nat.div_eq_of_lt hj]; simp
  refine ⟨?_, ?_, ?_, ?_⟩
  · rw [e2, Nat.add_mul_mod_self_right]; exact Nat.mod_eq_of_lt hx
  · rw [e2, Nat.add_mul_div_right _ _ hW, Nat.div_eq_of_lt hx]; simp
  · rw [e1, Nat.add_mul_mod_self_right]; exact Nat.mod_eq_of_lt hj
  · have h1 : (y + 1) * (8 * w) ≤ height * (8 * w) := Nat.mul_le_mul_right _ (by omega)
    have h2 : (y + 1) * (8 * w) = y * (8 * w) + 8 * w := by ring
    have h3 : 8 * w * height = height * (8 * w) := by ring
    omega

/-- The output byte of pixel `(8x + j, y)` of a successful decode is the pixel
packed from the plane bytes of strip `x`. -/
theorem decompress_vsp_pixel (buf1 buf2 : Buf) (input_io : List Nat) (width height : Nat)
    (out rest : List Nat)
    (h : decompress_vsp buf1 buf2 input_io width height = .ok (out, rest))
    (x y j : Nat) (hx : x < width / 8) (hy : y < height) (hj : j < 8) :
    ∃ s, vspAfter buf1 buf2 input_io width height (x + 1) = .ok s ∧
      out.getD (y * width + x * 8 + j) 0 = packPixel s.bp y j 0 := by
  obtain ⟨hw, s, hs, ho, _⟩ := decompress_vsp_ok buf1 buf2 input_io width height out rest h
  obtain ⟨s1, hs1⟩ := vspAfter_prefix buf1 buf2 input_io width height _ s hs (x + 1) (by omega)
  refine ⟨s1, hs1, ?_⟩
  obtain ⟨_, hg⟩ := vspAfter_output buf1 buf2 input_io width height hw _ (Nat.le_refl _) s hs
  obtain ⟨i1, i2, i3, i4⟩ := pixel_index width height x y j hw hx hy hj
  rw [← ho, hg, i1, i2, i3, if_pos ⟨hx, i4⟩,
    stripPlanes_eq buf1 buf2 input_io width height x s1 hs1]

/-! ## The settled properties of `decompress_vsp` -/

/-- C1: for a width that is not a multiple of 8, whatever the height and the
input stream, `decompress_vsp` raises the invalid-width error with the stream
exactly as it was passed in (no byte consumed); the result is the error, there
is no output buffer. -/
theorem decompress_vsp_invalid_width (buf1 buf2 : Buf) (input_io : List Nat)
    (width height : Nat) (hw : width % 8 ≠ 0) :
    decompress_vsp buf1 buf2 input_io width height
      = .error { error := .invalidWidth, input_io := input_io } := by
  unfold decompress_vsp
  rw [if_pos hw]

theorem decompress_vsp_invalid_width_witness :
    9 % 8 ≠ 0 ∧
    decompress_vsp (fun _ _ => 0) (fun _ _ => 0) [1, 0, 5, 1, 0, 5] 9 1
      = .error { error := .invalidWidth, input_io := [1, 0, 5, 1, 0, 5] } :=
  ⟨by decide, decompress_vsp_invalid_width _ _ _ 9 1 (by decide)⟩

/-- C2: whenever `decompress_vsp` succeeds (which needs a width that is a multiple
of 8), the returned buffer has exactly `width * height` bytes and every byte is
below 16. -/
theorem decompress_vsp_output_nibbles (buf1 buf2 : Buf) (input_io : List Nat)
    (width height : Nat) (out rest : List Nat)
    (h : decompress_vsp buf1 buf2 input_io width height = .ok (out, rest)) :
    width % 8 = 0 ∧ out.length = width * height ∧ ∀ b ∈ out, b < 16 := by
  obtain ⟨hw, s, hs, ho, _⟩ := decompress_vsp_ok buf1 buf2 input_io width height out rest h
  obtain ⟨hl, hg⟩ := vspAfter_output buf1 buf2 input_io width height hw _ (Nat.le_refl _) s hs
  subst ho
  refine ⟨hw, hl, ?_⟩
  intro b hb
  obtain ⟨k, hk, rfl⟩ := List.getElem_of_mem hb
  have e : s.output[k] = s.output.getD k 0 := (List.getD_eq_getElem _ 0 hk).symm
  rw [e, hg]
  split
  · exact packPixel_lt _ _ _ _ (by decide)
  · decide

theorem decompress_vsp_output_nibbles_witness :
    8 % 8 = 0 ∧ [5, 5, 5, 5, 9, 9, 9, 9, 5, 5, 5, 5, 9, 9, 9, 9].length = 8 * 2
      ∧ ∀ b ∈ [5, 5, 5, 5, 9, 9, 9, 9, 5, 5, 5, 5, 9, 9, 9, 9], b < 16 :=
  decompress_vsp_output_nibbles (fun _ _ => 0) (fun _ _ => 0)
    [1, 5, 0xFF, 1, 5, 0, 1, 5, 0xF0, 1, 5, 0x0F, 9, 9] 8 2
    [5, 5, 5, 5, 9, 9, 9, 9, 5, 5, 5, 5, 9, 9, 9, 9] [9, 9] rfl

theorem runFill_spec (height plane : Nat) (val : Buf → Nat → Nat)
    (hval : ∀ (b1 b2 : Buf) (r : Nat), (∀ p, b1 r p = b2 r p) → val b1 r = val b2 r) :
    ∀ (n y : Nat) (bc : Buf), y ≤ height →
      (runFill height plane val n y bc).1 = min (y + n) height ∧
      ∀ r p, (runFill height plane val n y bc).2 r p
        = if p = plane ∧ y ≤ r ∧ r < min (y + n) height then val bc r % 256 else bc r p := by
  intro n
  induction n with
  | zero =>
    intro y bc hy
    simp only [runFill]
    refine ⟨by omega, ?_⟩
    intro r p
    have : ¬ (p = plane ∧ y ≤ r ∧ r < min (y + 0) height) := by omega
    rw [if_neg this]
  | succ n ih =>
    intro y bc hy
    simp only [runFill]
    by_cases c : y < height
    · rw [if_pos c]
      obtain ⟨h1, h2⟩ := ih (y + 1) (bc.set y plane (val bc y)) (by omega)
      refine ⟨by rw [h1]; omega, ?_⟩
      intro r p
      rw [h2]
      by_cases c1 : p = plane ∧ y + 1 ≤ r ∧ r < min (y + 1 + n) height
      · have c2 : p = plane ∧ y ≤ r ∧ r < min (y + (n + 1)) height := by omega
        rw [if_pos c1, if_pos c2]
        have : val (bc.set y plane (val bc y)) r = val bc r := by
          apply hval
          intro q
          have : ¬ (r = y ∧ q = plane) := by omega
          simp only [Buf.set, if_neg this]
        rw [this]
      · rw [if_neg c1]
        by_cases c3 : r = y ∧ p = plane
        · have c2 : p = plane ∧ y ≤ r ∧ r < min (y + (n + 1)) height := by omega
          rw [if_pos c2]
          obtain ⟨e1, e2⟩ := c3
          subst e1 e2
          simp [Buf.set]
        · have c2 : ¬ (p = plane ∧ y ≤ r ∧ r < min (y + (n + 1)) height) := by omega
          simp only [Buf.set, if_neg c3, if_neg c2]
    · rw [if_neg c]
      refine ⟨by simp only; omega, ?_⟩
      intro r p
      have : ¬ (p = plane ∧ y ≤ r ∧ r < min (y + (n + 1)) height) := by omega
      rw [if_neg this]

theorem runPair_spec (height plane b0 b1 : Nat) :
    ∀ (n y : Nat) (bc : Buf), y ≤ height →
      (runPair height plane b0 b1 n y bc).1 = min (y + 2 * n) height ∧
      ∀ r p, (runPair height plane b0 b1 n y bc).2 r p
        = if p = plane ∧ y ≤ r ∧ r < min (y + 2 * n) height
          then (if (r - y) % 2 = 0 then b0 else b1) % 256 else bc r p := by
  intro n
  induction n with
  | zero =>
    intro y bc hy
    simp only [runPair]
    refine ⟨by omega, ?_⟩
    intro r p
    have : ¬ (p = plane ∧ y ≤ r ∧ r < min (y + 2 * 0) height) := by omega
    rw [if_neg this]
  | succ n ih =>
    intro y bc hy
    simp only [runPair]
    by_cases c : y < height
    · rw [if_pos c]
      by_cases d : y + 1 ≥ height
      · rw [if_pos d]
        refine ⟨by simp only; omega, ?_⟩
        intro r p
        by_cases c3 : r = y ∧ p = plane
        · have c2 : p = plane ∧ y ≤ r ∧ r < min (y + 2 * (n + 1)) height := by omega
          have c4 : (r - y) % 2 = 0 := by omega
          simp only [Buf.set, if_pos c3, if_pos c2, if_pos c4]
        · have c2 : ¬ (p = plane ∧ y ≤ r ∧ r < min (y + 2 * (n + 1)) height) := by omega
          simp only [Buf.set, if_neg c3, if_neg c2]
      · rw [if_neg d]
        obtain ⟨h1, h2⟩ := ih (y + 2) ((bc.set y plane b0).set (y + 1) plane b1) (by omega)
        refine ⟨by rw [h1]; omega, ?_⟩
        intro r p
        rw [h2]
        by_cases c1 : p = plane ∧ y + 2 ≤ r ∧ r < min (y + 2 + 2 * n) height
        · have c2 : p = plane ∧ y ≤ r ∧ r < min (y + 2 * (n + 1)) height := by omega
          rw [if_pos c1, if_pos c2]
          have : (r - (y + 2)) % 2 = (r - y) % 2 := by omega
          rw [this]
        · rw [if_neg c1]
          by_cases c3 : r = y + 1 ∧ p = plane
          · have c2 : p = plane ∧ y ≤ r ∧ r < min (y + 2 * (n + 1)) height := by omega
            have c4 : ¬ ((r - y) % 2 = 0) := by omega
            simp only [Buf.set, if_pos c3, if_pos c2, if_neg c4]
          · by_cases c5 : r = y ∧ p = plane
            · have c2 : p = plane ∧ y ≤ r ∧ r < min (y + 2 * (n + 1)) height := by omega
              have c4 : (r - y) % 2 = 0 := by omega
              simp only [Buf.set, if_neg c3, if_pos c5, if_pos c2, if_pos c4]
            · have c2 : ¬ (p = plane ∧ y ≤ r ∧ r < min (y + 2 * (n + 1)) height) := by omega
              simp only [Buf.set, if_neg c3, if_neg c5, if_neg c2]
    · rw [if_neg c]
      refine ⟨by simp only; omega, ?_⟩
      intro r p
      have : ¬ (p = plane ∧ y ≤ r ∧ r < min (y + 2 * (n + 1)) height) := by omega
      rw [if_neg this]

/-! ## Lemmas on the plane loop -/

theorem stepOk_refl (height plane y : Nat) (bc : Buf) (hy : y ≤ height) :
    StepOk height plane y bc y bc :=
  ⟨Nat.le_refl _, hy, fun _ _ _ => rfl, fun r h1 h2 => absurd h2 (by omega)⟩

theorem stepOk_trans {height plane y y1 y2 : Nat} {bc bc1 bc2 : Buf}
    (h1 : StepOk height plane y bc y1 bc1) (h2 : StepOk height plane y1 bc1 y2 bc2) :
    StepOk height plane y bc y2 bc2 := by
  obtain ⟨a1, a2, a3, a4⟩ := h1
  obtain ⟨b1, b2, b3, b4⟩ := h2
  refine ⟨by omega, b2, ?_, ?_⟩
  · intro r p hrp
    rw [b3 r p (by omega), a3 r p (by omega)]
  · intro r hr1 hr2
    by_cases c : r < y1
    · rw [b3 r plane (by omega)]; exact a4 r hr1 c
    · exact b4 r (by omega) hr2

theorem runFill_ok (height plane : Nat) (val : Buf → Nat → Nat)
    (hval : ∀ (b1 b2 : Buf) (r : Nat), (∀ p, b1 r p = b2 r p) → val b1 r = val b2 r)
    (n y : Nat) (bc : Buf) (hy : y ≤ height) :
    StepOk height plane y bc (runFill height plane val n y bc).1
      (runFill height plane val n y bc).2 := by
  obtain ⟨e1, e2⟩ := runFill_spec height plane val hval n y bc hy
  refine ⟨by omega, by omega, ?_, ?_⟩
  · intro r p hrp
    rw [e2, if_neg (by omega)]
  · intro r hr1 hr2
    rw [e2, if_pos ⟨rfl, hr1, by omega⟩]
    exact Nat.mod_lt _ (show 0 < 256 by decide)

theorem runPair_ok (height plane b0 b1 n y : Nat) (bc : Buf) (hy : y ≤ height) :
    StepOk height plane y bc (runPair height plane b0 b1 n y bc).1
      (runPair height plane b0 b1 n y bc).2 := by
  obtain ⟨e1, e2⟩ := runPair_spec height plane b0 b1 n y bc hy
  refine ⟨by omega, by omega, ?_, ?_⟩
  · intro r p hrp
    rw [e2, if_neg (by omega)]
  · intro r hr1 hr2
    rw [e2, if_pos ⟨rfl, hr1, by omega⟩]
    exact Nat.mod_lt _ (show 0 < 256 by decide)

theorem set_ok (height plane y v : Nat) (bc : Buf) (hy : y < height) :
    StepOk height plane y bc (y + 1) (bc.set y plane v) := by
  refine ⟨by omega, by omega, ?_, ?_⟩
  · intro r p hrp
    have : ¬ (r = y ∧ p = plane) := by omega
    simp only [Buf.set, if_neg this]
  · intro r hr1 hr2
    have hr : r = y := by omega
    subst hr
    have e : (bc.set r plane v) r plane = v % 256 := by simp [Buf.set]
    rw [e]
    exact Nat.mod_lt _ (show 0 < 256 by decide)

theorem read_u8_ok (io io1 : List Nat) (b : Nat) (h : read_u8 io = .ok (b, io1)) :
    ∃ c, io = c :: io1 ∧ b = c % 256 := by
  cases io with
  | nil => simp [read_u8] at h
  | cons c t =>
    simp only [read_u8, Except.ok.injEq, Prod.mk.injEq] at h
    exact ⟨c, by rw [h.2], h.1.symm⟩

/-- One opcode executed at a row below `height`: it consumes at least its opcode
byte and obeys `StepOk`. -/
theorem opcode_ok (height plane : Nat) (bp : Buf) (s s1 : PlaneState) (hy : s.y < height)
    (h : opcode height plane bp s = .ok s1) :
    StepOk height plane s.y s.bc s1.y s1.bc ∧ s1.input_io.length < s.input_io.length := by
  unfold opcode at h
  cases r0 : read_u8 s.input_io with
  | error e => rw [r0] at h; cases h
  | ok v0 =>
    obtain ⟨c, io1⟩ := v0
    obtain ⟨c0, hio, -⟩ := read_u8_ok _ _ _ r0
    rw [r0] at h
    simp only at h
    split_ifs at h with h0 h1 h2 h3 h6 h7
    · cases r1 : read_u8 io1 with
      | error e => rw [r1] at h; cases h
      | ok v1 =>
        obtain ⟨k, io2⟩ := v1
        obtain ⟨k0, hio1, -⟩ := read_u8_ok _ _ _ r1
        rw [r1] at h
        simp only [Except.ok.injEq] at h
        subst h
        refine ⟨runFill_ok height plane (fun _ y => bp y plane) (fun _ _ _ _ => rfl) _ _ _
          (by omega), ?_⟩
        rw [hio, hio1]; simp only [List.length_cons]; omega
    · cases r1 : read_u8 io1 with
      | error e => rw [r1] at h; cases h
      | ok v1 =>
        obtain ⟨k, io2⟩ := v1
        obtain ⟨k0, hio1, -⟩ := read_u8_ok _ _ _ r1
        rw [r1] at h
        simp only at h
        cases r2 : read_u8 io2 with
        | error e => rw [r2] at h; cases h
        | ok v2 =>
          obtain ⟨b0, io3⟩ := v2
          obtain ⟨b00, hio2, -⟩ := read_u8_ok _ _ _ r2
          rw [r2] at h
          simp only [Except.ok.injEq] at h
          subst h
          refine ⟨runFill_ok height plane (fun _ _ => b0) (fun _ _ _ _ => rfl) _ _ _
            (by omega), ?_⟩
          rw [hio, hio1, hio2]; simp only [List.length_cons]; omega
    · cases r1 : read_u8 io1 with
      | error e => rw [r1] at h; cases h
      | ok v1 =>
        obtain ⟨k, io2⟩ := v1
        obtain ⟨k0, hio1, -⟩ := read_u8_ok _ _ _ r1
        rw [r1] at h
        simp only at h
        cases r2 : read_u8 io2 with
        | error e => rw [r2] at h; cases h
        | ok v2 =>
          obtain ⟨b0, io3⟩ := v2
          obtain ⟨b00, hio2, -⟩ := read_u8_ok _ _ _ r2
          rw [r2] at h
          simp only at h
          cases r3 : read_u8 io3 with
          | error e => rw [r3] at h; cases h
          | ok v3 =>
            obtain ⟨b1, io4⟩ := v3
            obtain ⟨b10, hio3, -⟩ := read_u8_ok _ _ _ r3
            rw [r3] at h
            simp only [Except.ok.injEq] at h
            subst h
            refine ⟨runPair_ok height plane _ _ _ _ _ (by omega), ?_⟩
            rw [hio, hio1, hio2, hio3]; simp only [List.length_cons]; omega
    · cases r1 : read_u8 io1 with
      | error e => rw [r1] at h; cases h
      | ok v1 =>
        obtain ⟨k, io2⟩ := v1
        obtain ⟨k0, hio1, -⟩ := read_u8_ok _ _ _ r1
        rw [r1] at h
        simp only [Except.ok.injEq] at h
        subst h
        refine ⟨runFill_ok height plane (fun bc y => bc y (c - 3) ^^^ s.mask) ?_ _ _ _
          (by omega), ?_⟩
        · intro b1 b2 r hb
          simp only [hb]
        · rw [hio, hio1]; simp only [List.length_cons]; omega
    · simp only [Except.ok.injEq] at h
      subst h
      refine ⟨stepOk_refl height plane _ _ (by omega), ?_⟩
      rw [hio]; simp only [List.length_cons]; omega
    · cases r1 : read_u8 io1 with
      | error e => rw [r1] at h; cases h
      | ok v1 =>
        obtain ⟨k, io2⟩ := v1
        obtain ⟨k0, hio1, -⟩ := read_u8_ok _ _ _ r1
        rw [r1] at h
        simp only [Except.ok.injEq] at h
        subst h
        refine ⟨set_ok height plane _ _ _ hy, ?_⟩
        rw [hio, hio1]; simp only [List.length_cons]; omega
    · simp only [Except.ok.injEq] at h
      subst h
      refine ⟨set_ok height plane _ _ _ hy, ?_⟩
      rw [hio]; simp only [List.length_cons]; omega

/-- The loop of one plane, when it returns: the cursor is `height`, only rows
below `height` of column `plane` were written, and all of them hold bytes. -/
theorem decodePlane_ok (height plane : Nat) (bp : Buf) :
    ∀ (fuel : Nat) (s s1 : PlaneState), s.y ≤ height →
      decodePlane height plane bp fuel s = .ok s1 →
      StepOk height plane s.y s.bc s1.y s1.bc ∧ s1.y = height
        ∧ s1.input_io.length ≤ s.input_io.length := by
  intro fuel
  induction fuel with
  | zero =>
    intro s s1 hy h
    simp only [decodePlane] at h
    split_ifs at h with c
    simp only [Except.ok.injEq] at h
    subst h
    exact ⟨stepOk_refl height plane _ _ hy, by omega, Nat.le_refl _⟩
  | succ fuel ih =>
    intro s s1 hy h
    simp only [decodePlane] at h
    split_ifs at h with c
    · cases ho : opcode height plane bp s with
      | error e => rw [ho] at h; cases h
      | ok s2 =>
        rw [ho] at h
        simp only at h
        obtain ⟨k1, k2⟩ := opcode_ok height plane bp s s2 c ho
        obtain ⟨m1, m2, m3⟩ := ih s2 s1 k1.2.1 h
        exact ⟨stepOk_trans k1 m1, m2, by omega⟩
    · simp only [Except.ok.injEq] at h
      subst h
      exact ⟨stepOk_refl height plane _ _ hy, by omega, Nat.le_refl _⟩

/-- The loop over the planes `ps`, when it returns: rows at or beyond `height`
and the columns of other planes are as before, the rows below `height` of the
columns in `ps` hold bytes. -/
theorem decodePlanes_ok (height : Nat) (bp : Buf) :
    ∀ (ps : List Nat) (io : List Nat) (bc : Buf) (mask : Nat) (res : List Nat × Buf × Nat),
      decodePlanes height bp ps io bc mask = .ok res →
      (∀ r, height ≤ r → ∀ p, res.2.1 r p = bc r p) ∧
      (∀ r p, p ∉ ps → res.2.1 r p = bc r p) ∧
      (∀ r, r < height → ∀ p, p ∈ ps → res.2.1 r p < 256) ∧
      res.1.length ≤ io.length := by
  intro ps
  induction ps with
  | nil =>
    intro io bc mask res h
    simp only [decodePlanes, Except.ok.injEq] at h
    subst h
    exact ⟨fun _ _ _ => rfl, fun _ _ _ => rfl, fun _ _ _ hp => absurd hp (List.not_mem_nil _),
      Nat.le_refl _⟩
  | cons plane ps ih =>
    intro io bc mask res h
    simp only [decodePlanes] at h
    cases hd : decodePlane height plane bp (io.length + 1) ⟨io, bc, mask, 0⟩ with
    | error e => rw [hd] at h; cases h
    | ok s =>
      rw [hd] at h
      simp only at h
      obtain ⟨⟨_, _, f3, f4⟩, fy, fl⟩ :=
        decodePlane_ok height plane bp _ _ s (Nat.zero_le _) hd
      obtain ⟨g1, g2, g3, g4⟩ := ih _ _ _ res h
      simp only at f3 f4 fl
      refine ⟨?_, ?_, ?_, by omega⟩
      · intro r hr p
        rw [g1 r hr p, f3 r p (by omega)]
      · intro r p hp
        rw [List.mem_cons, not_or] at hp
        rw [g2 r p hp.2, f3 r p (Or.inl hp.1)]
      · intro r hr p hp
        by_cases c : p ∈ ps
        · exact g3 r hr p c
        · rw [g2 r p c]
          rw [List.mem_cons] at hp
          rcases hp with hp | hp
          · rw [hp]; exact f4 r (Nat.zero_le _) (by omega)
          · exact absurd hp c

theorem decodeStrip_planes (width height x : Nat) (s s1 : VspState)
    (h : decodeStrip width height x s = .ok s1) :
    ∃ res, decodePlanes height s.bp (List.range 4) s.input_io s.bc s.mask = .ok res ∧
      s1.input_io = res.1 ∧ s1.bp = res.2.1 ∧ s1.bc = s.bp ∧ s1.mask = res.2.2 := by
  unfold decodeStrip at h
  cases hp : decodePlanes height s.bp (List.range 4) s.input_io s.bc s.mask with
  | error e => rw [hp] at h; cases h
  | ok r =>
    obtain ⟨io, bc, mask⟩ := r
    rw [hp] at h
    simp only [Except.ok.injEq] at h
    subst h
    exact ⟨_, rfl, rfl, rfl, rfl, rfl⟩

/-- The rows at or beyond `height` of the two history buffers are never
written: after `n` strips they are those of the initial buffers (which have
changed roles `n` times). -/
theorem vspAfter_frame (buf1 buf2 : Buf) (input_io : List Nat) (width height : Nat) :
    ∀ (n : Nat) (s : VspState), vspAfter buf1 buf2 input_io width height n = .ok s →
      ∀ r, height ≤ r → ∀ p,
        s.bp r p = (if n % 2 = 0 then buf1 else buf2) r p ∧
        s.bc r p = (if n % 2 = 0 then buf2 else buf1) r p := by
  intro n
  induction n with
  | zero =>
    intro s h r _ p
    simp only [vspAfter, List.range_zero, decodeStrips, Except.ok.injEq] at h
    subst h
    exact ⟨rfl, rfl⟩
  | succ n ih =>
    intro s h r hr p
    rw [vspAfter_succ] at h
    cases h0 : vspAfter buf1 buf2 input_io width height n with
    | error e => rw [h0] at h; cases h
    | ok s0 =>
      rw [h0] at h
      simp only at h
      obtain ⟨res, hres, _, e2, e3, _⟩ := decodeStrip_planes width height n s0 s h
      obtain ⟨g1, _, _, _⟩ := decodePlanes_ok height s0.bp _ _ _ _ res hres
      obtain ⟨i1, i2⟩ := ih s0 h0 r hr p
      rw [e2, e3, g1 r hr p, i1, i2]
      by_cases c : n % 2 = 0
      · have c2 : ¬ ((n + 1) % 2 = 0) := by omega
        simp only [if_pos c, if_neg c2, and_self]
      · have c2 : (n + 1) % 2 = 0 := by omega
        simp only [if_neg c, if_pos c2, and_self]

/-- After a decoded strip the "previous" buffer holds bytes in the rows below
`height` of its four planes. -/
theorem decodeStrip_bytes (width height x : Nat) (s s1 : VspState)
    (h : decodeStrip width height x s = .ok s1) :
    ∀ r, r < height → ∀ p, p < 4 → s1.bp r p < 256 := by
  obtain ⟨res, hres, _, e2, _, _⟩ := decodeStrip_planes width height x s s1 h
  obtain ⟨_, _, g3, _⟩ := decodePlanes_ok height s.bp _ _ _ _ res hres
  intro r hr p hp
  rw [e2]
  apply g3 r hr p
  rw [range_four]
  simp only [List.mem_cons, List.mem_singleton, List.not_mem_nil, or_false]
  omega

/-! ## The run opcodes -/

theorem opcode_copy (height plane : Nat) (bp bc : Buf) (mask y k : Nat) (rest : List Nat)
    (hy : y ≤ height) (hk : k < 256) :
    opcode height plane bp ⟨0x00 :: k :: rest, bc, mask, y⟩
      = .ok ⟨rest,
          fun r p => if p = plane ∧ y ≤ r ∧ r < min (y + (k + 1)) height
            then bp r plane % 256 else bc r p,
          mask, min (y + (k + 1)) height⟩ := by
  obtain ⟨e1, e2⟩ := runFill_spec height plane (fun _ y => bp y plane) (fun _ _ _ _ => rfl)
    (k + 1) y bc hy
  simp only [opcode, read_u8, Nat.mod_eq_of_lt hk, Nat.zero_mod, if_true, Except.ok.injEq,
    PlaneState.mk.injEq, true_and]
  exact ⟨funext fun r => funext fun p => e2 r p, e1⟩

theorem opcode_literal (height plane : Nat) (bp bc : Buf) (mask y k b0 : Nat) (rest : List Nat)
    (hy : y ≤ height) (hk : k < 256) :
    opcode height plane bp ⟨0x01 :: k :: b0 :: rest, bc, mask, y⟩
      = .ok ⟨rest,
          fun r p => if p = plane ∧ y ≤ r ∧ r < min (y + (k + 1)) height
            then b0 % 256 % 256 else bc r p,
          mask, min (y + (k + 1)) height⟩ := by
  obtain ⟨e1, e2⟩ := runFill_spec height plane (fun _ _ => b0 % 256) (fun _ _ _ _ => rfl)
    (k + 1) y bc hy
  simp only [opcode, read_u8, Nat.mod_eq_of_lt hk, Nat.reduceMod, Nat.reduceEqDiff, if_false,
    if_true, Except.ok.injEq, PlaneState.mk.injEq, true_and]
  exact ⟨funext fun r => funext fun p => e2 r p, e1⟩

theorem opcode_pair (height plane : Nat) (bp bc : Buf) (mask y k b0 b1 : Nat) (rest : List Nat)
    (hy : y ≤ height) (hk : k < 256) :
    opcode height plane bp ⟨0x02 :: k :: b0 :: b1 :: rest, bc, mask, y⟩
      = .ok ⟨rest,
          fun r p => if p = plane ∧ y ≤ r ∧ r < min (y + 2 * (k + 1)) height
            then (if (r - y) % 2 = 0 then b0 % 256 else b1 % 256) % 256 else bc r p,
          mask, min (y + 2 * (k + 1)) height⟩ := by
  obtain ⟨e1, e2⟩ := runPair_spec height plane (b0 % 256) (b1 % 256) (k + 1) y bc hy
  simp only [opcode, read_u8, Nat.mod_eq_of_lt hk, Nat.reduceMod, Nat.reduceEqDiff, if_false,
    if_true, Except.ok.injEq, PlaneState.mk.injEq, true_and]
  exact ⟨funext fun r => funext fun p => e2 r p, e1⟩

theorem opcode_xor (height plane : Nat) (bp bc : Buf) (mask y k c : Nat) (rest : List Nat)
    (hy : y ≤ height) (hk : k < 256) (hc : c = 0x03 ∨ c = 0x04 ∨ c = 0x05) :
    opcode height plane bp ⟨c :: k :: rest, bc, mask, y⟩
      = .ok ⟨rest,
          fun r p => if p = plane ∧ y ≤ r ∧ r < min (y + (k + 1)) height
            then (bc r (c - 3) ^^^ mask) % 256 else bc r p,
          0, min (y + (k + 1)) height⟩ := by
  have hval : ∀ (b1 b2 : Buf) (r : Nat), (∀ p, b1 r p = b2 r p) →
      (fun (b : Buf) y => b y (c - 3) ^^^ mask) b1 r
        = (fun (b : Buf) y => b y (c - 3) ^^^ mask) b2 r := by
    intro b1 b2 r hb
    simp only [hb]
  obtain ⟨e1, e2⟩ := runFill_spec height plane (fun b y => b y (c - 3) ^^^ mask) hval
    (k + 1) y bc hy
  rcases hc with hc | hc | hc <;> subst hc <;>
    simp only [opcode, read_u8, Nat.mod_eq_of_lt hk, Nat.reduceMod, Nat.reduceEqDiff, if_false,
      if_true, Except.ok.injEq, PlaneState.mk.injEq, true_and, true_or, or_true, or_false,
      false_or] <;>
    exact ⟨funext fun r => funext fun p => e2 r p, e1⟩

/-! ## Streams of literal fills -/

theorem packPixel_congr (bc bc1 : Buf) (y y1 j old : Nat)
    (h : ∀ i, i < 4 → bc y i = bc1 y1 i) :
    packPixel bc y j old = packPixel bc1 y1 j old := by
  unfold packPixel
  rw [range_four]
  simp only [List.foldl_cons, List.foldl_nil, component, h 0 (by decide), h 1 (by decide),
    h 2 (by decide), h 3 (by decide)]

/-- C3, as stated, fails: on width 8, height 1 and the stream
`07 00  80  07 00  07 00` the decode succeeds with plane byte `current[0][1] = 0x80`;
bit 1 of output pixel (0, 0) is set, although bit 7 of the 8-bit left rotation
by 1 of `0x80` (which is `0x01`) is clear. -/
theorem vsp_pack_rotl8_counterexample :
    ∃ s out rest,
      decompress_vsp (fun _ _ => 0) (fun _ _ => 0) [7, 0, 0x80, 7, 0, 7, 0] 8 1
        = .ok (out, rest) ∧
      vspAfter (fun _ _ => 0) (fun _ _ => 0) [7, 0, 0x80, 7, 0, 7, 0] 8 1 (0 + 1) = .ok s ∧
      s.bp 0 1 = 0x80 ∧
      (out.getD (0 * 8 + 0 * 8 + 0) 0).testBit 1 = true ∧
      (rotl8 (s.bp 0 1) 1).testBit (7 - 0) = false :=
  ⟨_, _, _, rfl, rfl, rfl, rfl, rfl⟩

/-- C3, amended: for every successful `decompress_vsp` call, every strip `x`, row
`y`, column `j` in 0..7 and plane `i` in 0..3, the decode of strip `x` has
completed with plane bytes `current` (the `bp` of the state after `x + 1`
strips), and bit `i` of the output pixel `(x*8+j, y)`, stored at output index
`y*width + x*8 + j`, is bit `7 - j + i` of `component[i]`, where
`component[i] = (current[y][i] << i) | (current[y][i] >> (8 - i))` is the
integer the code computes, not truncated to 8 bits. -/
theorem decompress_vsp_pixel_component_bits (buf1 buf2 : Buf) (input_io : List Nat)
    (width height : Nat) (out rest : List Nat)
    (h : decompress_vsp buf1 buf2 input_io width height = .ok (out, rest))
    (x y j i : Nat) (hx : x < width / 8) (hy : y < height) (hj : j < 8) (hi : i < 4) :
    ∃ s, vspAfter buf1 buf2 input_io width height (x + 1) = .ok s ∧
      (out.getD (y * width + x * 8 + j) 0).testBit i
        = (component s.bp y i).testBit (7 - j + i) := by
  obtain ⟨s, hs, hp⟩ :=
    decompress_vsp_pixel buf1 buf2 input_io width height out rest h x y j hx hy hj
  exact ⟨s, hs, by rw [hp, packPixel_testBit _ _ _ _ hi]⟩

theorem decompress_vsp_pixel_component_bits_witness :
    ∃ s, vspAfter (fun _ _ => 0) (fun _ _ => 0) [7, 0, 0x80, 7, 0, 7, 0] 8 1 (0 + 1) = .ok s ∧
      (([2, 0, 0, 0, 0, 0, 0, 0] : List Nat).getD (0 * 8 + 0 * 8 + 0) 0).testBit 1
        = (component s.bp 0 1).testBit (7 - 0 + 1) :=
  decompress_vsp_pixel_component_bits (fun _ _ => 0) (fun _ _ => 0) [7, 0, 0x80, 7, 0, 7, 0]
    8 1 [2, 0, 0, 0, 0, 0, 0, 0] [] rfl 0 0 0 1 (by decide) (by decide) (by decide) (by decide)

/-- C4: for every height and row cursor `y < height`,
* any opcode, on any stream, leaves the cursor at most `height` and the rows at
  or beyond `height` of the "current" buffer as they were, and after any number
  of strips of a decode those rows of both history buffers are the initial ones;
* a run opcode whose count byte `k` asks for more rows than remain (`k + 1` rows
  for 0x00, 0x01, 0x03, 0x04, 0x05, `2 * (k + 1)` for 0x02), given with its
  operand bytes, raises no error, leaves the cursor at `height`, has written
  exactly the rows `y .. height - 1` of the plane, and leaves the stream right
  behind its 2 bytes (0x00, 0x03, 0x04, 0x05), 3 bytes (0x01) or 4 bytes (0x02);
* with any count byte `k1` the same opcodes leave the stream at that same place. -/
theorem vsp_runs_stop_at_height (height plane : Nat) (bp bc : Buf) (mask y k b0 b1 : Nat)
    (rest : List Nat) (hy : y < height) (hk : k < 256) :
    (∀ io s1, opcode height plane bp ⟨io, bc, mask, y⟩ = .ok s1 →
      s1.y ≤ height ∧ ∀ r, height ≤ r → ∀ p, s1.bc r p = bc r p) ∧
    (∀ buf1 buf2 input_io width n s,
      vspAfter buf1 buf2 input_io width height n = .ok s →
      ∀ r, height ≤ r → ∀ p,
        s.bp r p = (if n % 2 = 0 then buf1 else buf2) r p ∧
        s.bc r p = (if n % 2 = 0 then buf2 else buf1) r p) ∧
    (height - y < k + 1 →
      opcode height plane bp ⟨0x00 :: k :: rest, bc, mask, y⟩
        = .ok ⟨rest, fun r p => if p = plane ∧ y ≤ r ∧ r < height
            then bp r plane % 256 else bc r p, mask, height⟩ ∧
      opcode height plane bp ⟨0x01 :: k :: b0 :: rest, bc, mask, y⟩
        = .ok ⟨rest, fun r p => if p = plane ∧ y ≤ r ∧ r < height
            then b0 % 256 else bc r p, mask, height⟩ ∧
      ∀ c, c = 0x03 ∨ c = 0x04 ∨ c = 0x05 →
        opcode height plane bp ⟨c :: k :: rest, bc, mask, y⟩
          = .ok ⟨rest, fun r p => if p = plane ∧ y ≤ r ∧ r < height
              then (bc r (c - 3) ^^^ mask) % 256 else bc r p, 0, height⟩) ∧
    (height - y < 2 * (k + 1) →
      opcode height plane bp ⟨0x02 :: k :: b0 :: b1 :: rest, bc, mask, y⟩
        = .ok ⟨rest, fun r p => if p = plane ∧ y ≤ r ∧ r < height
            then (if (r - y) % 2 = 0 then b0 else b1) % 256 else bc r p, mask, height⟩) ∧
    (∀ k1, k1 < 256 →
      (∃ s1, opcode height plane bp ⟨0x00 :: k1 :: rest, bc, mask, y⟩ = .ok s1
        ∧ s1.input_io = rest) ∧
      (∃ s1, opcode height plane bp ⟨0x01 :: k1 :: b0 :: rest, bc, mask, y⟩ = .ok s1
        ∧ s1.input_io = rest) ∧
      (∃ s1, opcode height plane bp ⟨0x02 :: k1 :: b0 :: b1 :: rest, bc, mask, y⟩ = .ok s1
        ∧ s1.input_io = rest) ∧
      ∀ c, c = 0x03 ∨ c = 0x04 ∨ c = 0x05 →
        ∃ s1, opcode height plane bp ⟨c :: k1 :: rest, bc, mask, y⟩ = .ok s1
          ∧ s1.input_io = rest) := by
  have hy1 : y ≤ height := Nat.le_of_lt hy
  refine ⟨?_, ?_, ?_, ?_, ?_⟩
  · intro io s1 h
    obtain ⟨⟨_, a2, a3, _⟩, _⟩ := opcode_ok height plane bp _ s1 hy h
    exact ⟨a2, fun r hr p => a3 r p (Or.inr (Or.inr (Nat.le_trans a2 hr)))⟩
  · intro buf1 buf2 input_io width n s h
    exact vspAfter_frame buf1 buf2 input_io width height n s h
  · intro ht
    have hm : min (y + (k + 1)) height = height := by omega
    refine ⟨?_, ?_, ?_⟩
    · rw [opcode_copy height plane bp bc mask y k rest hy1 hk, hm]
    · rw [opcode_literal height plane bp bc mask y k b0 rest hy1 hk, hm]
      simp only [Nat.mod_mod]
    · intro c hc
      rw [opcode_xor height plane bp bc mask y k c rest hy1 hk hc, hm]
  · intro ht
    have hm : min (y + 2 * (k + 1)) height = height := by omega
    rw [opcode_pair height plane bp bc mask y k b0 b1 rest hy1 hk, hm]
    simp only [Except.ok.injEq, PlaneState.mk.injEq, true_and, and_true]
    funext r p
    by_cases c : (r - y) % 2 = 0
    · simp only [if_pos c, Nat.mod_mod]
    · simp only [if_neg c, Nat.mod_mod]
  · intro k1 hk1
    refine ⟨⟨_, opcode_copy height plane bp bc mask y k1 rest hy1 hk1, rfl⟩,
      ⟨_, opcode_literal height plane bp bc mask y k1 b0 rest hy1 hk1, rfl⟩,
      ⟨_, opcode_pair height plane bp bc mask y k1 b0 b1 rest hy1 hk1, rfl⟩, ?_⟩
    intro c hc
    exact ⟨_, opcode_xor height plane bp bc mask y k1 c rest hy1 hk1 hc, rfl⟩

theorem vsp_runs_stop_at_height_witness :
    1 < 3 ∧ 200 < 256 ∧ 3 - 1 < 2 * (200 + 1) ∧
    opcode 3 1 (fun _ _ => 7) ⟨0x02 :: 200 :: 0xAA :: 0x55 :: [9], fun _ _ => 0, 0xFF, 1⟩
      = .ok ⟨[9], fun r p => if p = 1 ∧ 1 ≤ r ∧ r < 3
          then (if (r - 1) % 2 = 0 then 0xAA else 0x55) % 256 else 0, 0xFF, 3⟩ :=
  ⟨by decide, by decide, by decide,
    (vsp_runs_stop_at_height 3 1 (fun _ _ => 7) (fun _ _ => 0) 0xFF 1 200 0xAA 0x55 [9]
      (by decide) (by decide)).2.2.2.1 (by decide)⟩

theorem skip_nat (o : OutBuf) (n : Nat) :
    o.skip (n : Int)
      = if o.pos + n ≤ o.buffer.length then .ok ⟨o.buffer, o.pos + n⟩ else .error .eof := by
  unfold OutBuf.skip
  by_cases h : o.pos + n ≤ o.buffer.length
  · have h1 : ¬ ((o.pos : Int) + n < 0 ∨ (o.pos : Int) + n > o.buffer.length) := by omega
    have h2 : ((o.pos : Int) + (n : Int)).toNat = o.pos + n := by omega
    rw [if_neg h1, if_pos h, h2]
  · have h1 : ((o.pos : Int) + n < 0 ∨ (o.pos : Int) + n > o.buffer.length) := by omega
    rw [if_pos h1, if_neg h]

theorem skip_back (o : OutBuf) (h : o.pos ≤ o.buffer.length) :
    o.skip (-4) = if 4 ≤ o.pos then .ok ⟨o.buffer, o.pos - 4⟩ else .error .eof := by
  unfold OutBuf.skip
  by_cases c : 4 ≤ o.pos
  · have h1 : ¬ ((o.pos : Int) + -4 < 0 ∨ (o.pos : Int) + -4 > o.buffer.length) := by omega
    have h2 : ((o.pos : Int) + -4).toNat = o.pos - 4 := by omega
    rw [if_neg h1, if_pos c, h2]
  · have h1 : ((o.pos : Int) + -4 < 0 ∨ (o.pos : Int) + -4 > o.buffer.length) := by omega
    rw [if_pos h1, if_neg c]

theorem write_u8_spec (o : OutBuf) (v : Nat) (h : o.pos ≤ o.buffer.length) :
    (o.write_u8 v).pos = o.pos + 1 ∧
    (o.write_u8 v).buffer.length = max o.buffer.length (o.pos + 1) ∧
    ∀ i, (o.write_u8 v).buffer[i]? = if i = o.pos then some (v % 256) else o.buffer[i]? := by
  unfold OutBuf.write_u8
  by_cases c : o.pos < o.buffer.length
  · rw [if_pos c]
    refine ⟨rfl, by simp only [List.length_set]; omega, ?_⟩
    intro i
    simp only [List.getElem?_set]
    by_cases e : o.pos = i
    · subst e; simp [c]
    · have e2 : ¬ i = o.pos := fun x => e x.symm
      simp [e, e2]
  · rw [if_neg c]
    have e : o.pos - o.buffer.length = 0 := by omega
    refine ⟨rfl, ?_, ?_⟩
    · simp only [e, List.replicate_zero, List.append_nil, List.length_append,
        List.length_singleton]
      omega
    · intro i
      simp only [e, List.replicate_zero, List.append_nil]
      by_cases c1 : i < o.buffer.length
      · have : ¬ i = o.pos := by omega
        rw [if_neg this, List.getElem?_append_left c1]
      · by_cases c2 : i = o.pos
        · have e3 : i - o.buffer.length = 0 := by omega
          rw [if_pos c2, List.getElem?_append_right (by omega), e3]
          rfl
        · have h1 : (o.buffer ++ [v % 256]).length ≤ i := by
            simp only [List.length_append, List.length_singleton]; omega
          have h2 : o.buffer.length ≤ i := by omega
          rw [if_neg c2, List.getElem?_eq_none h1, List.getElem?_eq_none h2]

/-- The statement pair `skip(3); write_u8(v);` of the alpha decoder: it succeeds
exactly when three bytes are left before the end, then the byte at `pos + 3` is
`v` and the cursor has moved by 4. -/
theorem alphaSlot_spec (o o1 : OutBuf) (v : Nat) (h : o.skip 3 = .ok o1) :
    o.pos + 3 ≤ o.buffer.length ∧
    (o1.write_u8 v).pos = o.pos + 4 ∧
    (o1.write_u8 v).buffer.length = max o.buffer.length (o.pos + 4) ∧
    ∀ i, (o1.write_u8 v).buffer[i]?
      = if i = o.pos + 3 then some (v % 256) else o.buffer[i]? := by
  have e := skip_nat o 3
  simp only [Nat.cast_ofNat] at e
  rw [e] at h
  by_cases c : o.pos + 3 ≤ o.buffer.length
  · rw [if_pos c] at h
    simp only [Except.ok.injEq] at h
    subst h
    obtain ⟨w1, w2, w3⟩ := write_u8_spec ⟨o.buffer, o.pos + 3⟩ v c
    exact ⟨c, w1, w2, w3⟩
  · rw [if_neg c] at h; cases h

theorem writePixel_spec (o : OutBuf) (b g r : Nat) (h : o.pos ≤ o.buffer.length) :
    writePixel o b g r
      = if o.pos + 4 ≤ o.buffer.length then
          .ok ⟨((o.buffer.set o.pos (b % 256)).set (o.pos + 1) (g % 256)).set (o.pos + 2)
            (r % 256), o.pos + 4⟩
        else .error .eof := by
  unfold writePixel
  have e := skip_nat (((o.write_u8 b).write_u8 g).write_u8 r) 1
  simp only [Nat.cast_one] at e
  rw [e]
  obtain ⟨a1, a2, _⟩ := write_u8_spec o b h
  obtain ⟨b1, b2, _⟩ := write_u8_spec (o.write_u8 b) g (by omega)
  obtain ⟨c1, c2, _⟩ := write_u8_spec ((o.write_u8 b).write_u8 g) r (by omega)
  by_cases c : o.pos + 4 ≤ o.buffer.length
  · have hc : (((o.write_u8 b).write_u8 g).write_u8 r).pos + 1
        ≤ (((o.write_u8 b).write_u8 g).write_u8 r).buffer.length := by omega
    rw [if_pos c, if_pos hc]
    simp only [OutBuf.write_u8, List.length_set, if_pos (show o.pos < o.buffer.length by omega),
      if_pos (show o.pos + 1 < o.buffer.length by omega),
      if_pos (show o.pos + 1 + 1 < o.buffer.length by omega)]
  · have hc : ¬ ((((o.write_u8 b).write_u8 g).write_u8 r).pos + 1
        ≤ (((o.write_u8 b).write_u8 g).write_u8 r).buffer.length) := by omega
    rw [if_neg c, if_neg hc]

theorem seek_zero (o o1 : OutBuf) (h : o.seek 0 = .ok o1) : o1 = ⟨o.buffer, 0⟩ := by
  unfold OutBuf.seek at h
  rw [if_neg (by omega)] at h
  simp only [Except.ok.injEq] at h
  exact h.symm

/-! ## Lemmas on the alpha decoder -/

theorem alphaRun_ok (v : Nat) :
    ∀ (n : Nat) (o o1 : OutBuf), o.pos ≤ o.buffer.length → alphaRun v n o = .ok o1 →
      o1.pos = o.pos + 4 * n ∧ o1.pos ≤ o1.buffer.length ∧
      o1.buffer.length = max o.buffer.length (o.pos + 4 * n) ∧
      ∀ i, o1.buffer[i]?
        = if o.pos ≤ i ∧ i < o.pos + 4 * n ∧ (i - o.pos) % 4 = 3 then some (v % 256)
          else o.buffer[i]? := by
  intro n
  induction n with
  | zero =>
    intro o o1 hp h
    simp only [alphaRun, Except.ok.injEq] at h
    subst h
    refine ⟨rfl, hp, by omega, ?_⟩
    intro i
    rw [if_neg (by omega)]
  | succ n ih =>
    intro o o1 hp h
    simp only [alphaRun] at h
    cases hs : o.skip 3 with
    | error e => rw [hs] at h; cases h
    | ok o2 =>
      rw [hs] at h
      simp only at h
      obtain ⟨a1, a2, a3, a4⟩ := alphaSlot_spec o o2 v hs
      obtain ⟨b1, b2, b3, b4⟩ := ih (o2.write_u8 v) o1 (by omega) h
      refine ⟨by omega, b2, by omega, ?_⟩
      intro i
      rw [b4 i, a4 i, a2]
      split_ifs <;> first | rfl | omega

theorem alphaRun_room (v : Nat) :
    ∀ (n : Nat) (o : OutBuf), o.pos + 4 * n ≤ o.buffer.length →
      ∃ o1, alphaRun v n o = .ok o1 := by
  intro n
  induction n with
  | zero => intro o _; exact ⟨o, rfl⟩
  | succ n ih =>
    intro o hr
    have e := skip_nat o 3
    simp only [Nat.cast_ofNat] at e
    rw [if_pos (by omega)] at e
    simp only [alphaRun, e]
    apply ih
    obtain ⟨w1, w2, _⟩ := write_u8_spec ⟨o.buffer, o.pos + 3⟩ v (by simp only; omega)
    simp only at w1 w2
    omega

theorem alphaLiterals_ok :
    ∀ (f : Nat) (io : List Nat) (o : OutBuf) (res : List Nat × OutBuf),
      o.pos ≤ o.buffer.length → alphaLiterals f io o = .ok res →
      res.1 = io.drop (min f io.length) ∧
      res.2.pos = o.pos + 4 * min f io.length ∧ res.2.pos ≤ res.2.buffer.length ∧
      res.2.buffer.length = max o.buffer.length (o.pos + 4 * min f io.length) ∧
      ∀ i, res.2.buffer[i]?
        = if o.pos ≤ i ∧ i < o.pos + 4 * min f io.length ∧ (i - o.pos) % 4 = 3
          then some (((io.getD ((i - o.pos) / 4) 0 % 256) ^^^ 0xFF) % 256)
          else o.buffer[i]? := by
  intro f
  induction f with
  | zero =>
    intro io o res hp h
    simp only [alphaLiterals, Except.ok.injEq] at h
    subst h
    refine ⟨by simp, by simp, hp, by simp only; omega, ?_⟩
    intro i
    rw [if_neg (by omega)]
  | succ f ih =>
    intro io o res hp h
    cases io with
    | nil =>
      simp only [alphaLiterals, Except.ok.injEq] at h
      subst h
      refine ⟨by simp, by simp, hp, by simp only [List.length_nil]; omega, ?_⟩
      intro i
      rw [if_neg (by simp only [List.length_nil]; omega)]
    | cons a rest =>
      simp only [alphaLiterals] at h
      cases hs : o.skip 3 with
      | error e => rw [hs] at h; cases h
      | ok o2 =>
        rw [hs] at h
        simp only at h
        obtain ⟨a1, a2, a3, a4⟩ := alphaSlot_spec o o2 ((a % 256) ^^^ 0xFF) hs
        obtain ⟨b0, b1, b2, b3, b4⟩ := ih rest (o2.write_u8 ((a % 256) ^^^ 0xFF)) res
          (by omega) h
        have hm : min (f + 1) (a :: rest).length = min f rest.length + 1 := by
          simp only [List.length_cons]; omega
        rw [hm]
        refine ⟨by rw [b0]; rfl, by omega, b2, by omega, ?_⟩
        intro i
        rw [b4 i, a4 i, a2]
        by_cases c1 : o.pos + 4 ≤ i ∧ i < o.pos + 4 + 4 * min f rest.length
            ∧ (i - (o.pos + 4)) % 4 = 3
        · have c2 : o.pos ≤ i ∧ i < o.pos + 4 * (min f rest.length + 1)
              ∧ (i - o.pos) % 4 = 3 := by omega
          have c3 : (i - o.pos) / 4 = (i - (o.pos + 4)) / 4 + 1 := by omega
          rw [if_pos c1, if_pos c2, c3, List.getD_cons_succ]
        · rw [if_neg c1]
          by_cases c4 : i = o.pos + 3
          · have c2 : o.pos ≤ i ∧ i < o.pos + 4 * (min f rest.length + 1)
                ∧ (i - o.pos) % 4 = 3 := by omega
            have c3 : (i - o.pos) / 4 = 0 := by omega
            rw [if_pos c4, if_pos c2, c3, List.getD_cons_zero]
          · have c2 : ¬ (o.pos ≤ i ∧ i < o.pos + 4 * (min f rest.length + 1)
                ∧ (i - o.pos) % 4 = 3) := by omega
            rw [if_neg c4, if_neg c2]

theorem alphaLiterals_room :
    ∀ (f : Nat) (io : List Nat) (o : OutBuf),
      o.pos + 4 * min f io.length ≤ o.buffer.length →
      ∃ res, alphaLiterals f io o = .ok res := by
  intro f
  induction f with
  | zero => intro io o _; exact ⟨_, rfl⟩
  | succ f ih =>
    intro io o hr
    cases io with
    | nil => exact ⟨_, rfl⟩
    | cons a rest =>
      have hm : min (f + 1) (a :: rest).length = min f rest.length + 1 := by
        simp only [List.length_cons]; omega
      rw [hm] at hr
      have e := skip_nat o 3
      simp only [Nat.cast_ofNat] at e
      rw [if_pos (by omega)] at e
      simp only [alphaLiterals, e]
      apply ih
      obtain ⟨w1, w2, _⟩ := write_u8_spec ⟨o.buffer, o.pos + 3⟩ ((a % 256) ^^^ 0xFF)
        (by simp only; omega)
      simp only at w1 w2
      omega

theorem xor_ff_lt (a : Nat) (h : a < 256) : a ^^^ 0xFF < 256 := by
  have h1 : a < 2 ^ 8 := by simpa using h
  have h2 : (0xFF : Nat) < 2 ^ 8 := by decide
  simpa using Nat.xor_lt_two_pow h1 h2

theorem read_u16_le_ok (io io1 : List Nat) (v : Nat) (h : read_u16_le io = .ok (v, io1)) :
    ∃ b0 b1, io = b0 :: b1 :: io1 := by
  rcases io with _ | ⟨b0, _ | ⟨b1, rest⟩⟩
  · simp [read_u16_le] at h
  · simp [read_u16_le] at h
  · simp only [read_u16_le, Except.ok.injEq, Prod.mk.injEq] at h
    exact ⟨b0, b1, by rw [h.2]⟩

/-- One iteration of the loop of `decompress_sgd_alpha`: the stream left is a
part of the stream met, and every byte of the buffer either is as before or is
the complement of a byte of the stream. -/
theorem alphaStep_written (io io1 : List Nat) (o o1 : OutBuf)
    (hp : o.pos ≤ o.buffer.length) (h : alphaStep io o = .ok (io1, o1)) :
    o1.pos ≤ o1.buffer.length ∧ io1.length < io.length ∧ (∀ a, a ∈ io1 → a ∈ io) ∧
    ∀ i : Nat, o1.buffer[i]? = o.buffer[i]? ∨
      ∃ a, a ∈ io ∧ o1.buffer[i]? = some ((a % 256) ^^^ 0xFF) := by
  unfold alphaStep at h
  cases hr : read_u16_le io with
  | error e => rw [hr] at h; cases h
  | ok v =>
    obtain ⟨flag, io2⟩ := v
    rw [hr] at h
    simp only at h
    obtain ⟨b0, b1, hio⟩ := read_u16_le_ok io io2 flag hr
    subst hio
    split_ifs at h with c
    · cases io2 with
      | nil => cases h
      | cons alpha io3 =>
        simp only at h
        cases ha : alphaRun ((alpha % 256) ^^^ 0xFF) ((flag &&& 0x7FFF) + 1) o with
        | error e => rw [ha] at h; cases h
        | ok o2 =>
          rw [ha] at h
          simp only [Except.ok.injEq, Prod.mk.injEq] at h
          obtain ⟨e1, e2⟩ := h
          subst e1 e2
          obtain ⟨_, b2, _, b4⟩ := alphaRun_ok _ _ o o2 hp ha
          refine ⟨b2, by simp only [List.length_cons]; omega, ?_, ?_⟩
          · intro a ha1
            simp only [List.mem_cons]
            exact Or.inr (Or.inr (Or.inr ha1))
          · intro i
            rw [b4]
            split_ifs
            · right
              refine ⟨alpha, by simp only [List.mem_cons, true_or, or_true], ?_⟩
              rw [Nat.mod_eq_of_lt (xor_ff_lt _ (Nat.mod_lt _ (show 0 < 256 by decide)))]
            · left; rfl
    · obtain ⟨c0, _, c2, _, c4⟩ := alphaLiterals_ok flag io2 o (io1, o1) hp h
      simp only at c0 c2 c4
      refine ⟨c2, by rw [c0, List.length_drop]; simp only [List.length_cons]; omega, ?_, ?_⟩
      · intro a ha1
        rw [c0] at ha1
        simp only [List.mem_cons]
        exact Or.inr (Or.inr (List.mem_of_mem_drop ha1))
      · intro i
        rw [c4]
        split_ifs with c5
        · right
          have hlt : (i - o.pos) / 4 < io2.length := by omega
          refine ⟨io2.getD ((i - o.pos) / 4) 0, ?_, ?_⟩
          · rw [List.getD_eq_getElem io2 0 hlt]
            simp only [List.mem_cons]
            exact Or.inr (Or.inr (List.getElem_mem hlt))
          · rw [Nat.mod_eq_of_lt (xor_ff_lt _ (Nat.mod_lt _ (show 0 < 256 by decide)))]
        · left; rfl

theorem alphaLoop_written :
    ∀ (fuel : Nat) (io : List Nat) (o o1 : OutBuf),
      o.pos ≤ o.buffer.length → alphaLoop fuel io o = .ok o1 →
      ∀ i : Nat, o1.buffer[i]? = o.buffer[i]? ∨
        ∃ a, a ∈ io ∧ o1.buffer[i]? = some ((a % 256) ^^^ 0xFF) := by
  intro fuel
  induction fuel with
  | zero =>
    intro io o o1 _ h
    simp only [alphaLoop] at h
    split_ifs at h
    simp only [Except.ok.injEq] at h
    subst h
    exact fun _ => Or.inl rfl
  | succ fuel ih =>
    intro io o o1 hp h
    simp only [alphaLoop] at h
    split_ifs at h
    · simp only [Except.ok.injEq] at h
      subst h
      exact fun _ => Or.inl rfl
    · cases hs : alphaStep io o with
      | error e => rw [hs] at h; cases h
      | ok v =>
        obtain ⟨io2, o2⟩ := v
        rw [hs] at h
        simp only at h
        obtain ⟨k1, _, k3, k4⟩ := alphaStep_written io io2 o o2 hp hs
        intro i
        rcases ih io2 o2 o1 k1 h i with e | ⟨a, ha, e⟩
        · rcases k4 i with e2 | ⟨a, ha, e2⟩
          · exact Or.inl (by rw [e, e2])
          · exact Or.inr ⟨a, ha, by rw [e, e2]⟩
        · exact Or.inr ⟨a, k3 a ha, e⟩

theorem decompress_sgd_alpha_written (input buf : List Nat) (o1 : OutBuf)
    (h : decompress_sgd_alpha input ⟨buf, 0⟩ = .ok o1) :
    ∀ i : Nat, o1.buffer[i]? = buf[i]? ∨
      ∃ a, a ∈ input ∧ o1.buffer[i]? = some ((a % 256) ^^^ 0xFF) := by
  unfold decompress_sgd_alpha at h
  cases hl : alphaLoop (input.length + 1) input ⟨buf, 0⟩ with
  | error e => rw [hl] at h; cases h
  | ok o2 =>
    rw [hl] at h
    simp only at h
    have e := seek_zero o2 o1 h
    subst e
    exact alphaLoop_written _ input ⟨buf, 0⟩ o2 (Nat.zero_le _) hl

/-! ## The settled properties of the SGD alpha decoder -/

/-- C7: every byte the alpha decoder writes is the complement (XOR 0xFF) of a
literal alpha byte it read.
One flag, the 16-bit little-endian word `lo + 256 * hi`, met with the output
cursor at `pos` and with room for its slots in the buffer:
* bit 15 set, low 15 bits `k`, followed by the literal `a`: the decoder consumes
  the three bytes and writes `a XOR 0xFF` into the `k + 1` alpha slots at offsets
  `pos + 4m + 3`, `m ≤ k`, and changes no other byte; in particular the literal
  0x00 is written as 0xFF and 0xFF as 0x00;
* bit 15 clear, flag value `f`, followed by the bytes `lits`: the decoder
  consumes `min f (length lits)` literals (fewer than `f` only if the sub-stream
  ends) and writes the complement of the `j`-th of them at offset `pos + 4j + 3`,
  and changes no other byte.
A whole sub-stream `input`, decoded from cursor 0 into any buffer: every byte of
the result either is as it was or is the complement of a byte of `input`. -/
theorem sgd_alpha_complement (lo hi a : Nat) (lits rest input buf : List Nat) (o : OutBuf)
    (hlo : lo < 256) (hhi : hi < 256) (ha : a < 256) :
    ((lo + 256 * hi) &&& 0x8000 ≠ 0 →
      o.pos + 4 * (((lo + 256 * hi) &&& 0x7FFF) + 1) ≤ o.buffer.length →
      ∃ o1, alphaStep (lo :: hi :: a :: rest) o = .ok (rest, o1) ∧
        o1.pos = o.pos + 4 * (((lo + 256 * hi) &&& 0x7FFF) + 1) ∧
        o1.buffer.length = o.buffer.length ∧
        (∀ m, m ≤ (lo + 256 * hi) &&& 0x7FFF →
          o1.buffer[o.pos + 4 * m + 3]? = some (a ^^^ 0xFF)) ∧
        (∀ i, (i < o.pos ∨ o1.pos ≤ i ∨ (i - o.pos) % 4 ≠ 3) →
          o1.buffer[i]? = o.buffer[i]?) ∧
        (a = 0x00 → a ^^^ 0xFF = 0xFF) ∧ (a = 0xFF → a ^^^ 0xFF = 0x00)) ∧
    ((lo + 256 * hi) &&& 0x8000 = 0 →
      o.pos + 4 * min (lo + 256 * hi) lits.length ≤ o.buffer.length →
      ∃ o1, alphaStep (lo :: hi :: lits) o
          = .ok (lits.drop (min (lo + 256 * hi) lits.length), o1) ∧
        o1.pos = o.pos + 4 * min (lo + 256 * hi) lits.length ∧
        o1.buffer.length = o.buffer.length ∧
        (∀ j, j < min (lo + 256 * hi) lits.length →
          o1.buffer[o.pos + 4 * j + 3]? = some ((lits.getD j 0 % 256) ^^^ 0xFF)) ∧
        (∀ i, (i < o.pos ∨ o1.pos ≤ i ∨ (i - o.pos) % 4 ≠ 3) →
          o1.buffer[i]? = o.buffer[i]?)) ∧
    (∀ o1, decompress_sgd_alpha input ⟨buf, 0⟩ = .ok o1 →
      ∀ i : Nat, o1.buffer[i]? = buf[i]? ∨
        ∃ b, b ∈ input ∧ o1.buffer[i]? = some ((b % 256) ^^^ 0xFF)) := by
  refine ⟨?_, ?_, fun o1 h => decompress_sgd_alpha_written input buf o1 h⟩
  · intro hbit hroom
    have hp : o.pos ≤ o.buffer.length := by omega
    obtain ⟨o1, h1⟩ := alphaRun_room ((a % 256) ^^^ 0xFF) (((lo + 256 * hi) &&& 0x7FFF) + 1)
      o hroom
    obtain ⟨b1, _, b3, b4⟩ := alphaRun_ok _ _ o o1 hp h1
    refine ⟨o1, ?_, b1, by omega, ?_, ?_, ?_, ?_⟩
    · simp only [alphaStep, read_u16_le, Nat.mod_eq_of_lt hlo, Nat.mod_eq_of_lt hhi,
        if_pos hbit]
      rw [h1]
    · intro m hm
      rw [b4, if_pos (by omega), Nat.mod_eq_of_lt ha, Nat.mod_eq_of_lt (xor_ff_lt a ha)]
    · intro i hi
      rw [b4, if_neg (by omega)]
    · intro e; subst e; decide
    · intro e; subst e; decide
  · intro hbit hroom
    have hp : o.pos ≤ o.buffer.length := by omega
    obtain ⟨res, h1⟩ := alphaLiterals_room (lo + 256 * hi) lits o hroom
    obtain ⟨b0, b1, _, b3, b4⟩ := alphaLiterals_ok _ _ o res hp h1
    refine ⟨res.2, ?_, b1, by omega, ?_, ?_⟩
    · simp only [alphaStep, read_u16_le, Nat.mod_eq_of_lt hlo, Nat.mod_eq_of_lt hhi, hbit,
        ne_eq, not_true_eq_false, if_false]
      rw [h1, ← b0]
    · intro j hj
      have e : (o.pos + 4 * j + 3 - o.pos) / 4 = j := by omega
      rw [b4, if_pos (by omega), e,
        Nat.mod_eq_of_lt (xor_ff_lt _ (Nat.mod_lt _ (show 0 < 256 by decide)))]
    · intro i hi
      rw [b4, if_neg (by omega)]

theorem sgd_alpha_complement_witness :
    ∃ o1, alphaStep (0x01 :: 0x80 :: 0x00 :: [0x02, 0x00, 0xFF, 0x10])
        { buffer := [1, 2, 3, 4, 5, 6, 7, 8, 9], pos := 0 }
        = .ok ([0x02, 0x00, 0xFF, 0x10], o1) ∧
      o1.pos = 0 + 4 * (((0x01 + 256 * 0x80) &&& 0x7FFF) + 1) ∧
      o1.buffer.length = [1, 2, 3, 4, 5, 6, 7, 8, 9].length ∧
      (∀ m, m ≤ (0x01 + 256 * 0x80) &&& 0x7FFF →
        o1.buffer[0 + 4 * m + 3]? = some (0x00 ^^^ 0xFF)) ∧
      (∀ i, (i < 0 ∨ o1.pos ≤ i ∨ (i - 0) % 4 ≠ 3) →
        o1.buffer[i]? = [1, 2, 3, 4, 5, 6, 7, 8, 9][i]?) ∧
      (0x00 = 0x00 → 0x00 ^^^ 0xFF = 0xFF) ∧ (0x00 = 0xFF → 0x00 ^^^ 0xFF = 0x00) :=
  (sgd_alpha_complement 0x01 0x80 0x00 [] [0x02, 0x00, 0xFF, 0x10] [] []
    { buffer := [1, 2, 3, 4, 5, 6, 7, 8, 9], pos := 0 }
    (by decide) (by decide) (by decide)).1 (by decide) (by decide)

/-! ## Lemmas on the colour decoder -/

theorem writePixel_ok (o o1 : OutBuf) (b g r : Nat) (hp : o.pos ≤ o.buffer.length)
    (h : writePixel o b g r = .ok o1) :
    o.pos + 4 ≤ o.buffer.length ∧ o1.pos = o.pos + 4 ∧ o1.buffer.length = o.buffer.length ∧
    ∀ i, o1.buffer[i]?
      = if i = o.pos then some (b % 256) else if i = o.pos + 1 then some (g % 256)
        else if i = o.pos + 2 then some (r % 256) else o.buffer[i]? := by
  rw [writePixel_spec o b g r hp] at h
  by_cases c : o.pos + 4 ≤ o.buffer.length
  · rw [if_pos c] at h
    simp only [Except.ok.injEq] at h
    subst h
    refine ⟨c, rfl, by simp only [List.length_set], ?_⟩
    intro i
    simp only [List.getElem?_set, List.length_set]
    split_ifs <;> first | rfl | omega
  · rw [if_neg c] at h; cases h

theorem strategy_3_ok :
    ∀ (n : Nat) (io : List Nat) (o : OutBuf) (res : List Nat × OutBuf),
      o.pos ≤ o.buffer.length → decompress_sgd_bgr_strategy_3 io o n = .ok res →
      3 * n ≤ io.length ∧ res.1 = io.drop (3 * n) ∧ res.2.pos = o.pos + 4 * n ∧
      res.2.buffer.length = o.buffer.length ∧ o.pos + 4 * n ≤ o.buffer.length ∧
      ∀ i, res.2.buffer[i]?
        = if o.pos ≤ i ∧ i < o.pos + 4 * n ∧ (i - o.pos) % 4 ≠ 3
          then some (io.getD (3 * ((i - o.pos) / 4) + (i - o.pos) % 4) 0 % 256)
          else o.buffer[i]? := by
  intro n
  induction n with
  | zero =>
    intro io o res hp h
    simp only [decompress_sgd_bgr_strategy_3, Except.ok.injEq] at h
    subst h
    refine ⟨by omega, rfl, rfl, rfl, by omega, ?_⟩
    intro i
    rw [if_neg (by omega)]
  | succ n ih =>
    intro io o res hp h
    rcases io with _ | ⟨b, _ | ⟨g, _ | ⟨r, io1⟩⟩⟩
    · simp [decompress_sgd_bgr_strategy_3] at h
    · simp [decompress_sgd_bgr_strategy_3] at h
    · simp [decompress_sgd_bgr_strategy_3] at h
    · simp only [decompress_sgd_bgr_strategy_3] at h
      cases hw : writePixel o b g r with
      | error e => rw [hw] at h; cases h
      | ok o1 =>
        rw [hw] at h
        simp only at h
        obtain ⟨a1, a2, a3, a4⟩ := writePixel_ok o o1 b g r hp hw
        obtain ⟨b0, b1, b2, b3, b5, b4⟩ := ih io1 o1 res (by omega) h
        refine ⟨by simp only [List.length_cons]; omega, ?_, by omega, by omega, by omega, ?_⟩
        · rw [b1]
          have : 3 * (n + 1) = 3 * n + 1 + 1 + 1 := by omega
          rw [this]
          rfl
        · intro i
          rw [b4 i, a4 i, a2]
          by_cases c1 : o.pos + 4 ≤ i ∧ i < o.pos + 4 + 4 * n ∧ (i - (o.pos + 4)) % 4 ≠ 3
          · have c2 : o.pos ≤ i ∧ i < o.pos + 4 * (n + 1) ∧ (i - o.pos) % 4 ≠ 3 := by omega
            have c3 : 3 * ((i - o.pos) / 4) + (i - o.pos) % 4
                = 3 * ((i - (o.pos + 4)) / 4) + (i - (o.pos + 4)) % 4 + 1 + 1 + 1 := by omega
            rw [if_pos c1, if_pos c2, c3]
            rfl
          · rw [if_neg c1]
            by_cases d0 : i = o.pos
            · have c2 : o.pos ≤ i ∧ i < o.pos + 4 * (n + 1) ∧ (i - o.pos) % 4 ≠ 3 := by omega
              have c3 : 3 * ((i - o.pos) / 4) + (i - o.pos) % 4 = 0 := by omega
              rw [if_pos d0, if_pos c2, c3]
              rfl
            · by_cases d1 : i = o.pos + 1
              · have c2 : o.pos ≤ i ∧ i < o.pos + 4 * (n + 1) ∧ (i - o.pos) % 4 ≠ 3 := by
                  omega
                have c3 : 3 * ((i - o.pos) / 4) + (i - o.pos) % 4 = 1 := by omega
                rw [if_neg d0, if_pos d1, if_pos c2, c3]
                rfl
              · by_cases d2 : i = o.pos + 2
                · have c2 : o.pos ≤ i ∧ i < o.pos + 4 * (n + 1) ∧ (i - o.pos) % 4 ≠ 3 := by
                    omega
                  have c3 : 3 * ((i - o.pos) / 4) + (i - o.pos) % 4 = 2 := by omega
                  rw [if_neg d0, if_neg d1, if_pos d2, if_pos c2, c3]
                  rfl
                · have c2 : ¬ (o.pos ≤ i ∧ i < o.pos + 4 * (n + 1) ∧ (i - o.pos) % 4 ≠ 3) := by
                    omega
                  rw [if_neg d0, if_neg d1, if_neg d2, if_neg c2]

theorem strategy_3_room :
    ∀ (n : Nat) (io : List Nat) (o : OutBuf),
      3 * n ≤ io.length → o.pos + 4 * n ≤ o.buffer.length →
      ∃ res, decompress_sgd_bgr_strategy_3 io o n = .ok res := by
  intro n
  induction n with
  | zero => intro io o _ _; exact ⟨(io, o), by simp only [decompress_sgd_bgr_strategy_3]⟩
  | succ n ih =>
    intro io o hl hr
    rcases io with _ | ⟨b, _ | ⟨g, _ | ⟨r, io1⟩⟩⟩
    · simp only [List.length_nil] at hl; omega
    · simp only [List.length_cons, List.length_nil] at hl; omega
    · simp only [List.length_cons, List.length_nil] at hl; omega
    · simp only [List.length_cons] at hl
      simp only [decompress_sgd_bgr_strategy_3]
      rw [writePixel_spec o b g r (by omega), if_pos (by omega)]
      simp only
      apply ih
      · omega
      · simp only [List.length_set]; omega

theorem getD_byte (l : List Nat) (h : ∀ b ∈ l, b < 256) (k : Nat) : l.getD k 0 < 256 := by
  by_cases c : k < l.length
  · rw [List.getD_eq_getElem l 0 c]
    exact h _ (List.getElem_mem c)
  · rw [List.getD_eq_default l 0 (by omega)]
    decide

/-- C8: a colour run whose flag byte `n` has top two bits 00, followed by at
least `3n` literal bytes `lits` and met with the output cursor at `pos` with `n`
pixel slots left in the buffer: the decoder consumes the flag and exactly `3n`
literal bytes, copies them verbatim into bytes 0..2 of the `n` slots
`pos + 4m`, `m < n`, changes no other byte (in particular no byte 3 of a slot),
and advances the cursor by `4n`. -/
theorem sgd_bgr_literal_run (n : Nat) (lits : List Nat) (o : OutBuf)
    (hn : n < 256) (hflag : n &&& 0xC0 = 0) (hlits : 3 * n ≤ lits.length)
    (hbytes : ∀ b ∈ lits, b < 256) (hroom : o.pos + 4 * n ≤ o.buffer.length) :
    ∃ o1, bgrStep (n :: lits) o = .ok (lits.drop (3 * n), o1) ∧
      o1.pos = o.pos + 4 * n ∧ o1.buffer.length = o.buffer.length ∧
      (∀ m, m < n → ∀ c, c < 3 →
        o1.buffer[o.pos + 4 * m + c]? = some (lits.getD (3 * m + c) 0)) ∧
      (∀ i, (i < o.pos ∨ o1.pos ≤ i ∨ (i - o.pos) % 4 = 3) →
        o1.buffer[i]? = o.buffer[i]?) := by
  obtain ⟨res, h1⟩ := strategy_3_room n lits o hlits hroom
  obtain ⟨_, b1, b2, b3, _, b4⟩ := strategy_3_ok n lits o res (by omega) h1
  refine ⟨res.2, ?_, b2, b3, ?_, ?_⟩
  · simp only [bgrStep, Nat.mod_eq_of_lt hn, hflag, Nat.reduceEqDiff, if_false, if_true]
    rw [h1, ← b1]
  · intro m hm c hc
    have e1 : (o.pos + 4 * m + c - o.pos) / 4 = m := by omega
    have e2 : (o.pos + 4 * m + c - o.pos) % 4 = c := by omega
    rw [b4, if_pos (by omega), e1, e2, Nat.mod_eq_of_lt (getD_byte lits hbytes _)]
  · intro i hi
    rw [b4, if_neg (by omega)]

theorem sgd_bgr_literal_run_witness :
    ∃ o1, bgrStep (3 :: [1, 2, 3, 4, 5, 6, 7, 8, 9, 0x41])
        { buffer := List.replicate 16 0xEE, pos := 4 }
        = .ok (([1, 2, 3, 4, 5, 6, 7, 8, 9, 0x41] : List Nat).drop (3 * 3), o1) ∧
      o1.pos = 4 + 4 * 3 ∧ o1.buffer.length = (List.replicate 16 0xEE).length ∧
      (∀ m, m < 3 → ∀ c, c < 3 →
        o1.buffer[4 + 4 * m + c]?
          = some (([1, 2, 3, 4, 5, 6, 7, 8, 9, 0x41] : List Nat).getD (3 * m + c) 0)) ∧
      (∀ i, (i < 4 ∨ o1.pos ≤ i ∨ (i - 4) % 4 = 3) →
        o1.buffer[i]? = (List.replicate 16 0xEE)[i]?) :=
  sgd_bgr_literal_run 3 [1, 2, 3, 4, 5, 6, 7, 8, 9, 0x41]
    { buffer := List.replicate 16 0xEE, pos := 4 }
    (by decide) (by decide) (by decide) (by decide) (by decide)

/-! ### The frame of the colour runs -/

theorem bgrKeeps_refl (o : OutBuf) (h1 : o.pos % 4 = 0) (h2 : o.pos ≤ o.buffer.length) :
    BgrKeeps o o :=
  ⟨h1, h2, rfl, fun _ _ => rfl⟩

theorem bgrKeeps_trans {o o1 o2 : OutBuf} (h1 : BgrKeeps o o1) (h2 : BgrKeeps o1 o2) :
    BgrKeeps o o2 :=
  ⟨h2.1, h2.2.1, by rw [h2.2.2.1, h1.2.2.1], fun i hi => by rw [h2.2.2.2 i hi, h1.2.2.2 i hi]⟩

theorem writePixel_keeps (o o1 : OutBuf) (b g r : Nat) (h4 : o.pos % 4 = 0)
    (hp : o.pos ≤ o.buffer.length) (h : writePixel o b g r = .ok o1) : BgrKeeps o o1 := by
  obtain ⟨a1, a2, a3, a4⟩ := writePixel_ok o o1 b g r hp h
  refine ⟨by omega, by omega, a3, ?_⟩
  intro i hi
  rw [a4, if_neg (by omega), if_neg (by omega), if_neg (by omega)]

theorem read_u16_le_length (io io1 : List Nat) (v : Nat) (h : read_u16_le io = .ok (v, io1)) :
    io1.length + 2 = io.length := by
  rcases io with _ | ⟨b0, _ | ⟨b1, rest⟩⟩
  · simp [read_u16_le] at h
  · simp [read_u16_le] at h
  · simp only [read_u16_le, Except.ok.injEq, Prod.mk.injEq] at h
    rw [← h.2]
    simp only [List.length_cons]

theorem deltaRun_keeps :
    ∀ (n b g r : Nat) (io : List Nat) (o : OutBuf) (res : List Nat × OutBuf),
      o.pos % 4 = 0 → o.pos ≤ o.buffer.length → deltaRun n b g r io o = .ok res →
      BgrKeeps o res.2 ∧ res.1.length ≤ io.length := by
  intro n
  induction n with
  | zero =>
    intro b g r io o res h4 hp h
    simp only [deltaRun, Except.ok.injEq] at h
    subst h
    exact ⟨bgrKeeps_refl o h4 hp, Nat.le_refl _⟩
  | succ n ih =>
    intro b g r io o res h4 hp h
    simp only [deltaRun] at h
    cases hr : read_u16_le io with
    | error e => rw [hr] at h; cases h
    | ok v =>
      obtain ⟨delta, io1⟩ := v
      rw [hr] at h
      simp only at h
      have hl := read_u16_le_length io io1 delta hr
      split at h
      · cases h
      · rename_i o1 hw
        have k1 := writePixel_keeps o o1 _ _ _ h4 hp hw
        obtain ⟨k2, k3⟩ := ih _ _ _ io1 o1 res k1.1 k1.2.1 h
        exact ⟨bgrKeeps_trans k1 k2, by omega⟩

theorem repeatRun_keeps (b g r : Nat) :
    ∀ (n : Nat) (o o1 : OutBuf),
      o.pos % 4 = 0 → o.pos ≤ o.buffer.length → repeatRun b g r n o = .ok o1 →
      BgrKeeps o o1 := by
  intro n
  induction n with
  | zero =>
    intro o o1 h4 hp h
    simp only [repeatRun, Except.ok.injEq] at h
    subst h
    exact bgrKeeps_refl o h4 hp
  | succ n ih =>
    intro o o1 h4 hp h
    simp only [repeatRun] at h
    cases hw : writePixel o b g r with
    | error e => rw [hw] at h; cases h
    | ok o2 =>
      rw [hw] at h
      simp only at h
      have k1 := writePixel_keeps o o2 _ _ _ h4 hp hw
      exact bgrKeeps_trans k1 (ih o2 o1 k1.1 k1.2.1 h)

theorem outRead_u8_ok (o o1 : OutBuf) (v : Nat) (h : o.read_u8 = .ok (v, o1)) :
    o1 = ⟨o.buffer, o.pos + 1⟩ ∧ o.pos < o.buffer.length := by
  unfold OutBuf.read_u8 at h
  by_cases c : o.pos < o.buffer.length
  · rw [if_pos c] at h
    simp only [Except.ok.injEq, Prod.mk.injEq] at h
    exact ⟨h.2.symm, c⟩
  · rw [if_neg c] at h; cases h

theorem strategy_1_keeps (io : List Nat) (o : OutBuf) (flag : Nat) (res : List Nat × OutBuf)
    (h4 : o.pos % 4 = 0) (hp : o.pos ≤ o.buffer.length)
    (h : decompress_sgd_bgr_strategy_1 io o flag = .ok res) :
    BgrKeeps o res.2 ∧ res.1.length ≤ io.length := by
  unfold decompress_sgd_bgr_strategy_1 at h
  rw [skip_back o hp] at h
  by_cases c : 4 ≤ o.pos
  · rw [if_pos c] at h
    simp only at h
    cases r1 : OutBuf.read_u8 ⟨o.buffer, o.pos - 4⟩ with
    | error e => rw [r1] at h; cases h
    | ok v1 =>
      obtain ⟨b, o2⟩ := v1
      rw [r1] at h
      simp only at h
      obtain ⟨e2, _⟩ := outRead_u8_ok _ _ _ r1
      subst e2
      cases r2 : OutBuf.read_u8 ⟨o.buffer, o.pos - 4 + 1⟩ with
      | error e => rw [r2] at h; cases h
      | ok v2 =>
        obtain ⟨g, o3⟩ := v2
        rw [r2] at h
        simp only at h
        obtain ⟨e3, _⟩ := outRead_u8_ok _ _ _ r2
        subst e3
        cases r3 : OutBuf.read_u8 ⟨o.buffer, o.pos - 4 + 1 + 1⟩ with
        | error e => rw [r3] at h; cases h
        | ok v3 =>
          obtain ⟨r, o4⟩ := v3
          rw [r3] at h
          simp only at h
          obtain ⟨e4, _⟩ := outRead_u8_ok _ _ _ r3
          subst e4
          have es := skip_nat ⟨o.buffer, o.pos - 4 + 1 + 1 + 1⟩ 1
          simp only [Nat.cast_one] at es
          rw [es, if_pos (by omega)] at h
          simp only at h
          have ep : o.pos - 4 + 1 + 1 + 1 + 1 = o.pos := by omega
          rw [ep] at h
          exact deltaRun_keeps _ _ _ _ io ⟨o.buffer, o.pos⟩ res h4 hp h
  · rw [if_neg c] at h; cases h

theorem strategy_2_keeps (io : List Nat) (o : OutBuf) (flag : Nat) (res : List Nat × OutBuf)
    (h4 : o.pos % 4 = 0) (hp : o.pos ≤ o.buffer.length)
    (h : decompress_sgd_bgr_strategy_2 io o flag = .ok res) :
    BgrKeeps o res.2 ∧ res.1.length ≤ io.length := by
  rcases io with _ | ⟨b, _ | ⟨g, _ | ⟨r, io1⟩⟩⟩
  · simp [decompress_sgd_bgr_strategy_2] at h
  · simp [decompress_sgd_bgr_strategy_2] at h
  · simp [decompress_sgd_bgr_strategy_2] at h
  · simp only [decompress_sgd_bgr_strategy_2] at h
    cases hr : repeatRun (b % 256) (g % 256) (r % 256) ((flag &&& 0x3F) + 1) o with
    | error e => rw [hr] at h; cases h
    | ok o1 =>
      rw [hr] at h
      simp only [Except.ok.injEq] at h
      subst h
      exact ⟨repeatRun_keeps _ _ _ _ o o1 h4 hp hr, by simp only [List.length_cons]; omega⟩

theorem strategy_3_keeps (io : List Nat) (o : OutBuf) (n : Nat) (res : List Nat × OutBuf)
    (h4 : o.pos % 4 = 0) (hp : o.pos ≤ o.buffer.length)
    (h : decompress_sgd_bgr_strategy_3 io o n = .ok res) :
    BgrKeeps o res.2 ∧ res.1.length ≤ io.length := by
  obtain ⟨b0, b1, b2, b3, b5, b4⟩ := strategy_3_ok n io o res hp h
  refine ⟨⟨by omega, by omega, b3, ?_⟩, ?_⟩
  · intro i hi
    rw [b4, if_neg (by omega)]
  · rw [b1, List.length_drop]; omega

/-- One iteration of the loop of `decompress_sgd_bgr`, entered with the cursor
at a multiple of 4: the flag byte is consumed and `BgrKeeps` holds. -/
theorem bgrStep_keeps (io io1 : List Nat) (o o1 : OutBuf)
    (h4 : o.pos % 4 = 0) (hp : o.pos ≤ o.buffer.length)
    (h : bgrStep io o = .ok (io1, o1)) :
    BgrKeeps o o1 ∧ io1.length < io.length := by
  cases io with
  | nil => simp [bgrStep] at h
  | cons f rest =>
    simp only [bgrStep] at h
    split_ifs at h with c1 c2 c3
    · obtain ⟨k1, k2⟩ := strategy_1_keeps rest o _ _ h4 hp h
      exact ⟨k1, by simp only [List.length_cons]; simp only at k2; omega⟩
    · obtain ⟨k1, k2⟩ := strategy_2_keeps rest o _ _ h4 hp h
      exact ⟨k1, by simp only [List.length_cons]; simp only at k2; omega⟩
    · obtain ⟨k1, k2⟩ := strategy_3_keeps rest o _ _ h4 hp h
      exact ⟨k1, by simp only [List.length_cons]; simp only at k2; omega⟩

theorem bgrRuns_keeps :
    ∀ (k : Nat) (io io1 : List Nat) (o o1 : OutBuf),
      o.pos % 4 = 0 → o.pos ≤ o.buffer.length → bgrRuns k io o = .ok (io1, o1) →
      BgrKeeps o o1 ∧ io1.length + k ≤ io.length := by
  intro k
  induction k with
  | zero =>
    intro io io1 o o1 h4 hp h
    simp only [bgrRuns, Except.ok.injEq, Prod.mk.injEq] at h
    obtain ⟨e1, e2⟩ := h
    subst e1 e2
    exact ⟨bgrKeeps_refl o h4 hp, Nat.le_refl _⟩
  | succ k ih =>
    intro io io1 o o1 h4 hp h
    simp only [bgrRuns] at h
    cases hs : bgrStep io o with
    | error e => rw [hs] at h; cases h
    | ok v =>
      obtain ⟨io2, o2⟩ := v
      rw [hs] at h
      simp only at h
      obtain ⟨k1, k2⟩ := bgrStep_keeps io io2 o o2 h4 hp hs
      obtain ⟨k3, k4⟩ := ih io2 io1 o2 o1 k1.1 k1.2.1 h
      exact ⟨bgrKeeps_trans k1 k3, by omega⟩

theorem bgrLoop_keeps :
    ∀ (fuel : Nat) (io : List Nat) (o o1 : OutBuf),
      o.pos % 4 = 0 → o.pos ≤ o.buffer.length → bgrLoop fuel io o = .ok o1 →
      BgrKeeps o o1 := by
  intro fuel
  induction fuel with
  | zero =>
    intro io o o1 h4 hp h
    simp only [bgrLoop] at h
    split_ifs at h
    simp only [Except.ok.injEq] at h
    subst h
    exact bgrKeeps_refl o h4 hp
  | succ fuel ih =>
    intro io o o1 h4 hp h
    simp only [bgrLoop] at h
    split_ifs at h
    · simp only [Except.ok.injEq] at h
      subst h
      exact bgrKeeps_refl o h4 hp
    · cases hs : bgrStep io o with
      | error e => rw [hs] at h; cases h
      | ok v =>
        obtain ⟨io2, o2⟩ := v
        rw [hs] at h
        simp only at h
        obtain ⟨k1, _⟩ := bgrStep_keeps io io2 o o2 h4 hp hs
        exact bgrKeeps_trans k1 (ih io2 o2 o1 k1.1 k1.2.1 h)

/-! ### The frame of the alpha runs -/

theorem alphaKeeps_refl (o : OutBuf) (h1 : o.pos % 4 = 0) (h2 : o.pos ≤ o.buffer.length) :
    AlphaKeeps o o :=
  ⟨h1, h2, fun _ _ => rfl⟩

theorem alphaKeeps_trans {o o1 o2 : OutBuf} (h1 : AlphaKeeps o o1) (h2 : AlphaKeeps o1 o2) :
    AlphaKeeps o o2 :=
  ⟨h2.1, h2.2.1, fun i hi => by rw [h2.2.2 i hi, h1.2.2 i hi]⟩

/-- One iteration of the loop of `decompress_sgd_alpha`, entered with the cursor
at a multiple of 4: the flag is consumed and `AlphaKeeps` holds. -/
theorem alphaStep_keeps (io io1 : List Nat) (o o1 : OutBuf)
    (h4 : o.pos % 4 = 0) (hp : o.pos ≤ o.buffer.length)
    (h : alphaStep io o = .ok (io1, o1)) :
    AlphaKeeps o o1 ∧ io1.length < io.length := by
  unfold alphaStep at h
  cases hr : read_u16_le io with
  | error e => rw [hr] at h; cases h
  | ok v =>
    obtain ⟨flag, io2⟩ := v
    rw [hr] at h
    simp only at h
    have hl := read_u16_le_length io io2 flag hr
    split_ifs at h with c
    · cases io2 with
      | nil => cases h
      | cons alpha io3 =>
        simp only at h
        cases ha : alphaRun ((alpha % 256) ^^^ 0xFF) ((flag &&& 0x7FFF) + 1) o with
        | error e => rw [ha] at h; cases h
        | ok o2 =>
          rw [ha] at h
          simp only [Except.ok.injEq, Prod.mk.injEq] at h
          obtain ⟨e1, e2⟩ := h
          subst e1 e2
          obtain ⟨b1, b2, _, b4⟩ := alphaRun_ok _ _ o o2 hp ha
          refine ⟨⟨by omega, b2, ?_⟩, by simp only [List.length_cons] at hl; omega⟩
          intro i hi
          rw [b4, if_neg (by omega)]
    · obtain ⟨b0, b1, b2, _, b4⟩ := alphaLiterals_ok flag io2 o (io1, o1) hp h
      simp only at b0 b1 b2 b4
      refine ⟨⟨by omega, b2, ?_⟩, ?_⟩
      · intro i hi
        rw [b4, if_neg (by omega)]
      · rw [b0, List.length_drop]; omega

theorem alphaLoop_keeps :
    ∀ (fuel : Nat) (io : List Nat) (o o1 : OutBuf),
      o.pos % 4 = 0 → o.pos ≤ o.buffer.length → alphaLoop fuel io o = .ok o1 →
      AlphaKeeps o o1 := by
  intro fuel
  induction fuel with
  | zero =>
    intro io o o1 h4 hp h
    simp only [alphaLoop] at h
    split_ifs at h
    simp only [Except.ok.injEq] at h
    subst h
    exact alphaKeeps_refl o h4 hp
  | succ fuel ih =>
    intro io o o1 h4 hp h
    simp only [alphaLoop] at h
    split_ifs at h
    · simp only [Except.ok.injEq] at h
      subst h
      exact alphaKeeps_refl o h4 hp
    · cases hs : alphaStep io o with
      | error e => rw [hs] at h; cases h
      | ok v =>
        obtain ⟨io2, o2⟩ := v
        rw [hs] at h
        simp only at h
        obtain ⟨k1, _⟩ := alphaStep_keeps io io2 o o2 h4 hp hs
        exact alphaKeeps_trans k1 (ih io2 o2 o1 k1.1 k1.2.1 h)

theorem decompress_sgd_alpha_keeps (input buf : List Nat) (o1 : OutBuf)
    (h : decompress_sgd_alpha input ⟨buf, 0⟩ = .ok o1) :
    o1.pos = 0 ∧ ∀ i, i % 4 ≠ 3 → o1.buffer[i]? = buf[i]? := by
  unfold decompress_sgd_alpha at h
  cases hl : alphaLoop (input.length + 1) input ⟨buf, 0⟩ with
  | error e => rw [hl] at h; cases h
  | ok o2 =>
    rw [hl] at h
    simp only at h
    have e := seek_zero o2 o1 h
    subst e
    obtain ⟨_, _, k3⟩ := alphaLoop_keeps _ input ⟨buf, 0⟩ o2 rfl (Nat.zero_le _) hl
    exact ⟨rfl, k3⟩

theorem decompress_sgd_bgr_keeps (input buf : List Nat) (o1 : OutBuf)
    (h : decompress_sgd_bgr input ⟨buf, 0⟩ = .ok o1) :
    o1.pos = 0 ∧ o1.buffer.length = buf.length ∧
    ∀ i, i % 4 = 3 → o1.buffer[i]? = buf[i]? := by
  unfold decompress_sgd_bgr at h
  cases hl : bgrLoop (input.length + 1) input ⟨buf, 0⟩ with
  | error e => rw [hl] at h; cases h
  | ok o2 =>
    rw [hl] at h
    simp only at h
    have e := seek_zero o2 o1 h
    subst e
    obtain ⟨_, _, k3, k4⟩ := bgrLoop_keeps _ input ⟨buf, 0⟩ o2 rfl (Nat.zero_le _) hl
    exact ⟨rfl, k3, k4⟩

/-- C9: decoding into an output buffer `buf` from cursor 0,
* the alpha decoder, when it returns, has changed no byte at an offset that is
  not congruent to 3 modulo 4 (and leaves the cursor at 0);
* the colour decoder, when it returns, has changed no byte at an offset
  congruent to 3 modulo 4, whatever strategies its runs select, and has kept the
  length of the buffer (and leaves the cursor at 0);
* after any number of colour runs the output cursor is a multiple of 4, and the
  bytes at offsets congruent to 3 modulo 4 are still those of `buf`. -/
theorem sgd_passes_disjoint (alpha color buf : List Nat) :
    (∀ o1, decompress_sgd_alpha alpha ⟨buf, 0⟩ = .ok o1 →
      o1.pos = 0 ∧ ∀ i, i % 4 ≠ 3 → o1.buffer[i]? = buf[i]?) ∧
    (∀ o1, decompress_sgd_bgr color ⟨buf, 0⟩ = .ok o1 →
      o1.pos = 0 ∧ o1.buffer.length = buf.length ∧
      ∀ i, i % 4 = 3 → o1.buffer[i]? = buf[i]?) ∧
    (∀ k io o1, bgrRuns k color ⟨buf, 0⟩ = .ok (io, o1) →
      o1.pos % 4 = 0 ∧ ∀ i, i % 4 = 3 → o1.buffer[i]? = buf[i]?) := by
  refine ⟨fun o1 h => decompress_sgd_alpha_keeps alpha buf o1 h,
    fun o1 h => decompress_sgd_bgr_keeps color buf o1 h, ?_⟩
  intro k io o1 h
  obtain ⟨⟨k1, _, _, k4⟩, _⟩ := bgrRuns_keeps k color io ⟨buf, 0⟩ o1 rfl (Nat.zero_le _) h
  exact ⟨k1, k4⟩

theorem sgd_passes_disjoint_witness :
    (({ buffer := [9, 9, 9, 4, 10, 10, 10, 8, 9, 9, 10, 12], pos := 0 } : OutBuf).pos = 0 ∧
      ({ buffer := [9, 9, 9, 4, 10, 10, 10, 8, 9, 9, 10, 12], pos := 0 } : OutBuf).buffer.length
        = [1, 2, 3, 4, 5, 6, 7, 8, 9, 10, 11, 12].length ∧
      ∀ i, i % 4 = 3 →
        ({ buffer := [9, 9, 9, 4, 10, 10, 10, 8, 9, 9, 10, 12], pos := 0 } : OutBuf).buffer[i]?
          = [1, 2, 3, 4, 5, 6, 7, 8, 9, 10, 11, 12][i]?) :=
  (sgd_passes_disjoint [0x00, 0x80, 0x33] [0x40, 9, 9, 9, 0x82, 0x21, 0x84, 0x31, 0x02]
    [1, 2, 3, 4, 5, 6, 7, 8, 9, 10, 11, 12]).2.1 _ rfl

/-! ## The MGD container: the size check -/

theorem skipBytes_append (pad rest : List Nat) (n : Nat) (h : pad.length = n) :
    skipBytes n (pad ++ rest) = .ok rest := by
  unfold skipBytes
  rw [if_pos (by simp only [List.length_append]; omega), List.drop_left' h]

theorem read_append (l rest : List Nat) : read l.length (l ++ rest) = .ok (l, rest) := by
  unfold read
  rw [if_pos (by simp only [List.length_append]; omega), List.take_left, List.drop_left]

theorem read_u16_le_append (v : Nat) (rest : List Nat) (h : v < 65536) :
    read_u16_le (u16le v ++ rest) = .ok (v, rest) := by
  simp only [u16le, List.cons_append, List.nil_append, read_u16_le, Except.ok.injEq,
    Prod.mk.injEq, and_true]
  omega

theorem read_u32_le_append (v : Nat) (rest : List Nat) (h : v < 4294967296) :
    read_u32_le (u32le v ++ rest) = .ok (v, rest) := by
  simp only [u32le, List.cons_append, List.nil_append, read_u32_le, Except.ok.injEq,
    Prod.mk.injEq, and_true]
  omega

/-- C10: on a file that holds the whole MGD header (magic, data offset, format,
four bytes, width, height, original size, total compressed size, compression
type, 64 bytes, inner length), `decode_internal`
* fails with the CorruptData error "Compressed data size mismatch" whenever the
  total compressed size differs from the inner length plus 4, the sum being the
  exact integer (no 32-bit wraparound); this holds whatever the pixel decoders
  (`grid`, `png`) and the bytes behind the header are, none of them is used;
* otherwise goes on to read the data, decode the pixels and read the regions,
  and its result is the result of these steps. -/
theorem mgd_size_check {G : Type} (grid : Nat → Nat → List Nat → Except Error G)
    (png : List Nat → Except Error G) (magic pad1 pad2 body : List Nat)
    (data_offset format width height size_original total ctype inner : Nat)
    (hm : magic.length = 4) (hp1 : pad1.length = 4) (hp2 : pad2.length = 64)
    (h1 : data_offset < 65536) (h2 : format < 65536) (h3 : width < 65536)
    (h4 : height < 65536) (h5 : size_original < 4294967296) (h6 : total < 4294967296)
    (h7 : ctype < 4294967296) (h8 : inner < 4294967296) :
    (total ≠ inner + 4 →
      MgdImageDecoder.decode_internal grid png
          (magic ++ (u16le data_offset ++ (u16le format ++ (pad1 ++ (u16le width ++
            (u16le height ++ (u32le size_original ++ (u32le total ++ (u32le ctype ++
              (pad2 ++ (u32le inner ++ body)))))))))))
        = .error .sizeMismatch ∧ Error.isCorruptData .sizeMismatch = true) ∧
    (total = inner + 4 →
      MgdImageDecoder.decode_internal grid png
          (magic ++ (u16le data_offset ++ (u16le format ++ (pad1 ++ (u16le width ++
            (u16le height ++ (u32le size_original ++ (u32le total ++ (u32le ctype ++
              (pad2 ++ (u32le inner ++ body)))))))))))
        = decodeBody grid png body inner ctype size_original width height) := by
  have hmod : (inner + 4) % 2 ^ size_t_bits = inner + 4 := by
    apply Nat.mod_eq_of_lt
    have : (2 : Nat) ^ size_t_bits = 18446744073709551616 := by decide
    omega
  have hd : MgdImageDecoder.decode_internal grid png
      (magic ++ (u16le data_offset ++ (u16le format ++ (pad1 ++ (u16le width ++
        (u16le height ++ (u32le size_original ++ (u32le total ++ (u32le ctype ++
          (pad2 ++ (u32le inner ++ body)))))))))))
      = if total ≠ inner + 4 then .error .sizeMismatch
        else decodeBody grid png body inner ctype size_original width height := by
    unfold MgdImageDecoder.decode_internal decodeBody
    simp only [bind, Except.bind, skipBytes_append _ _ _ hm, skipBytes_append _ _ _ hp1,
      skipBytes_append _ _ _ hp2, read_u16_le_append _ _ h1, read_u16_le_append _ _ h2,
      read_u16_le_append _ _ h3, read_u16_le_append _ _ h4, read_u32_le_append _ _ h5,
      read_u32_le_append _ _ h6, read_u32_le_append _ _ h7, read_u32_le_append _ _ h8, hmod]
  constructor
  · intro hne
    rw [hd, if_pos hne]
    exact ⟨rfl, rfl⟩
  · intro he
    rw [hd, if_neg (by omega)]

theorem mgd_size_check_witness :
    MgdImageDecoder.decode_internal (fun w h d => Except.ok (w, h, d)) (fun d => Except.ok (0, 0, d))
        ([0x4D, 0x47, 0x44, 0x20] ++ (u16le 96 ++ (u16le 1 ++ ([0, 0, 0, 0] ++ (u16le 1 ++
          (u16le 1 ++ (u32le 4 ++ (u32le 2 ++ (u32le 0 ++
            (List.replicate 64 0 ++ (u32le 0xFFFFFFFE ++ [1, 2, 3, 4])))))))))))
      = .error .sizeMismatch ∧ Error.isCorruptData .sizeMismatch = true :=
  (mgd_size_check (fun w h d => Except.ok (w, h, d)) (fun d => Except.ok (0, 0, d))
    [0x4D, 0x47, 0x44, 0x20] [0, 0, 0, 0] (List.replicate 64 0) [1, 2, 3, 4]
    96 1 1 1 4 2 0 0xFFFFFFFE (by decide) (by decide) (by decide) (by decide) (by decide)
    (by decide) (by decide) (by decide) (by decide) (by decide) (by decide)).1 (by decide)

/-! ## The colour decoder: the bad flag -/

theorem bgrStep_badFlag (flag : Nat) (rest : List Nat) (o : OutBuf)
    (hflag : (flag % 256) &&& 0xC0 = 0xC0) : bgrStep (flag :: rest) o = .error .badFlag := by
  simp only [bgrStep, hflag, Nat.reduceEqDiff, if_false]

/-- The colour loop fails with the bad-flag error when, after `k` runs decoded
without error, the next flag byte has its two top bits set. -/
theorem bgrLoop_badFlag :
    ∀ (k fuel : Nat) (io rest : List Nat) (o o2 : OutBuf) (flag : Nat),
      o.pos % 4 = 0 → o.pos ≤ o.buffer.length →
      bgrRuns k io o = .ok (flag :: rest, o2) → (flag % 256) &&& 0xC0 = 0xC0 →
      io.length < fuel → bgrLoop fuel io o = .error .badFlag := by
  intro k
  induction k with
  | zero =>
    intro fuel io rest o o2 flag _ _ h hflag hf
    simp only [bgrRuns, Except.ok.injEq, Prod.mk.injEq] at h
    obtain ⟨e1, e2⟩ := h
    subst e1 e2
    obtain ⟨f, rfl⟩ : ∃ f, fuel = f + 1 := ⟨fuel - 1, by omega⟩
    simp only [bgrLoop, reduceCtorEq, if_false, bgrStep_badFlag flag rest o hflag]
  | succ k ih =>
    intro fuel io rest o o2 flag h4 hp h hflag hf
    simp only [bgrRuns] at h
    cases hs : bgrStep io o with
    | error e => rw [hs] at h; cases h
    | ok v =>
      obtain ⟨io1, o1⟩ := v
      rw [hs] at h
      simp only at h
      obtain ⟨k1, k2⟩ := bgrStep_keeps io io1 o o1 h4 hp hs
      obtain ⟨f, rfl⟩ : ∃ f, fuel = f + 1 := ⟨fuel - 1, by omega⟩
      have hne : io ≠ [] := by
        intro e
        rw [e] at k2
        simp only [List.length_nil] at k2
        omega
      simp only [bgrLoop, if_neg hne, hs]
      exact ih f io1 rest o1 o2 flag k1.1 k1.2.1 h hflag (by omega)

/-- C6: an input to the SGD decoder made of the length-prefixed alpha section
`alpha`, the length-prefixed colour section `color` and any trailing bytes,
whose alpha section decodes without error and whose colour section, after `k`
(zero or more) runs decoded without error, presents a flag byte with top two
bits 11: `decompress_sgd` fails with the CorruptData error "Bad decompression
flag"; the result is the error, no output buffer is returned. -/
theorem decompress_sgd_bad_flag (alpha color trailing rest : List Nat)
    (output_size k flag : Nat) (oa o2 : OutBuf)
    (hal : alpha.length < 4294967296) (hcl : color.length < 4294967296)
    (halpha : decompress_sgd_alpha alpha ⟨List.replicate output_size 0, 0⟩ = .ok oa)
    (hruns : bgrRuns k color oa = .ok (flag :: rest, o2))
    (hflag : (flag % 256) &&& 0xC0 = 0xC0) :
    decompress_sgd (u32le alpha.length ++ (alpha ++ (u32le color.length ++ (color ++ trailing))))
        output_size = .error .badFlag ∧
    Error.isCorruptData .badFlag = true := by
  obtain ⟨p0, _⟩ := decompress_sgd_alpha_keeps alpha _ oa halpha
  have hb : decompress_sgd_bgr color oa = .error .badFlag := by
    unfold decompress_sgd_bgr
    rw [bgrLoop_badFlag k (color.length + 1) color rest oa o2 flag (by omega) (by omega) hruns
      hflag (by omega)]
  refine ⟨?_, rfl⟩
  unfold decompress_sgd
  simp only [read_u32_le_append _ _ hal, read_append, halpha, read_u32_le_append _ _ hcl, hb]

theorem decompress_sgd_bad_flag_witness :
    decompress_sgd (u32le [0x00, 0x80, 0x33].length ++ ([0x00, 0x80, 0x33] ++
        (u32le [0x01, 7, 8, 9, 0xC5, 1].length ++ ([0x01, 7, 8, 9, 0xC5, 1] ++ [0xAA])))) 8
      = .error .badFlag ∧ Error.isCorruptData .badFlag = true :=
  decompress_sgd_bad_flag [0x00, 0x80, 0x33] [0x01, 7, 8, 9, 0xC5, 1] [0xAA] [1] 8 1 0xC5
    { buffer := [0, 0, 0, 0xCC, 0, 0, 0, 0], pos := 0 }
    { buffer := [7, 8, 9, 0xCC, 0, 0, 0, 0], pos := 4 }
    (by decide) (by decide) rfl rfl (by decide)

/-! ## Lemmas on the generator -/

namespace CustomMersenneTwister

theorem load_nat (state : List Nat) (i : Nat) : load state (i : Int) = state[i]? := by
  unfold load
  rw [if_neg (by omega)]
  rfl

theorem load_ok (state : List Nat) (i : Nat) (h : i < state.length) :
    load state (i : Int) = some (state.getD i 0) := by
  rw [load_nat, List.getD_eq_getElem?_getD, List.getElem?_eq_getElem h]
  rfl

theorem store_ok (state : List Nat) (i v : Nat) (h : i < state.length) :
    store state (i : Int) v = some (state.set i (v % 2 ^ 32)) := by
  unfold store
  rw [if_neg (by omega)]
  rfl

theorem getD_word (state : List Nat) (h : ∀ w ∈ state, w < 2 ^ 32) (k : Nat) :
    state.getD k 0 < 2 ^ 32 := by
  by_cases c : k < state.length
  · rw [List.getD_eq_getElem state 0 c]
    exact h _ (List.getElem_mem c)
  · rw [List.getD_eq_default state 0 (by omega)]
    decide

theorem word_of_getD (state : List Nat) (h : ∀ k, state.getD k 0 < 2 ^ 32) :
    ∀ w ∈ state, w < 2 ^ 32 := by
  intro w hw
  obtain ⟨k, hk, rfl⟩ := List.getElem_of_mem hw
  rw [← List.getD_eq_getElem state 0 hk]
  exact h k

/-- A loop over the consecutive indices `a, a + 1, .., a + k - 1` whose body
keeps an invariant `Inv i` (of the array before index `i` is processed) returns
an array that satisfies `Inv (a + k)`. -/
theorem loopOver_inv (body : List Nat → Nat → Option (List Nat))
    (Inv : Nat → List Nat → Prop) :
    ∀ (k a : Nat) (state : List Nat), Inv a state →
      (∀ st i, a ≤ i → i < a + k → Inv i st → ∃ st1, body st i = some st1 ∧ Inv (i + 1) st1) →
      ∃ st1, loopOver body (List.range' a k) state = some st1 ∧ Inv (a + k) st1 := by
  intro k
  induction k with
  | zero =>
    intro a state h0 _
    exact ⟨state, rfl, h0⟩
  | succ k ih =>
    intro a state h0 hstep
    obtain ⟨s1, hb, hi⟩ := hstep state a (Nat.le_refl _) (by omega) h0
    obtain ⟨s2, hl, hi2⟩ := ih (a + 1) s1 hi
      (fun st i h1 h2 h3 => hstep st i (by omega) (by omega) h3)
    refine ⟨s2, ?_, ?_⟩
    · rw [List.range'_succ]
      simp only [loopOver, hb]
      exact hl
    · have e : a + (k + 1) = a + 1 + k := by omega
      rw [e]
      exact hi2

theorem and_mask32 (x : Nat) : x &&& 0xFFFFFFFF = x % 2 ^ 32 := by
  have e : (0xFFFFFFFF : Nat) = 2 ^ 32 - 1 := by decide
  rw [e, Nat.and_pow_two_sub_one_eq_mod]

theorem initStep_ok (st : List Nat) (i : Nat) (h1 : 1 ≤ i) (h2 : i < st.length) :
    initStep st i
      = some (st.set i
          ((1712438297 * (st.getD (i - 1) 0 ^^^ (st.getD (i - 1) 0 >>> 30)) + i) % 2 ^ 32)) := by
  unfold initStep
  have e : ((i : Int) - 1) = ((i - 1 : Nat) : Int) := by omega
  rw [e, load_ok st (i - 1) (by omega)]
  simp only
  rw [store_ok st i _ h2, and_mask32, Nat.mod_mod]

/-- What `init_state` does on an array of `n` words. -/
theorem init_state_spec (mem : List Nat) (seed : Nat) (hm : mem.length = n) :
    ∃ st, init_state mem seed = some (st, n) ∧ st.length = n ∧
      st.getD 0 0 = seed % 2 ^ 32 ∧
      (∀ i, 1 ≤ i → i < n →
        st.getD i 0
          = (1712438297 * (st.getD (i - 1) 0 ^^^ (st.getD (i - 1) 0 >>> 30)) + i) % 2 ^ 32) ∧
      ∀ w ∈ st, w < 2 ^ 32 := by
  have hn : n = 64 := rfl
  have h0 : store mem 0 (seed &&& 0xFFFFFFFF) = some (mem.set 0 (seed % 2 ^ 32)) := by
    have := store_ok mem 0 (seed &&& 0xFFFFFFFF) (by omega)
    have e0 : (seed &&& 0xFFFFFFFF) % 2 ^ 32 = seed % 2 ^ 32 := by
      rw [and_mask32, Nat.mod_mod]
    rw [e0] at this
    exact this
  obtain ⟨st, hl, i1, i2, i3, i4⟩ := loopOver_inv initStep
    (fun j st => st.length = n ∧ st.getD 0 0 = seed % 2 ^ 32 ∧
      (∀ i, 1 ≤ i → i < j →
        st.getD i 0
          = (1712438297 * (st.getD (i - 1) 0 ^^^ (st.getD (i - 1) 0 >>> 30)) + i) % 2 ^ 32) ∧
      (∀ i, i < j → st.getD i 0 < 2 ^ 32))
    (n - 1) 1 (mem.set 0 (seed % 2 ^ 32))
    (by
      refine ⟨by rw [List.length_set, hm], ?_, ?_, ?_⟩
      · rw [getD_set_eq, if_pos ⟨rfl, by omega⟩]
      · intro i h1 h2; omega
      · intro i hi
        have : i = 0 := by omega
        subst this
        rw [getD_set_eq, if_pos ⟨rfl, by omega⟩]
        exact Nat.mod_lt _ (by decide))
    (by
      intro st i h1 h2 ⟨a1, a2, a3, a4⟩
      refine ⟨_, initStep_ok st i h1 (by omega), ?_, ?_, ?_, ?_⟩
      · rw [List.length_set, a1]
      · rw [getD_set_eq, if_neg (by omega), a2]
      · intro k hk1 hk2
        by_cases c : k = i
        · subst c
          rw [getD_set_eq, if_pos ⟨rfl, by omega⟩, getD_set_eq, if_neg (by omega)]
        · rw [getD_set_eq, if_neg (by omega), getD_set_eq, if_neg (by omega)]
          exact a3 k hk1 (by omega)
      · intro k hk
        by_cases c : k = i
        · subst c
          rw [getD_set_eq, if_pos ⟨rfl, by omega⟩]
          exact Nat.mod_lt _ (by decide)
        · rw [getD_set_eq, if_neg (by omega)]
          exact a4 k (by omega))
  have e : 1 + (n - 1) = n := by omega
  rw [e] at i3 i4
  refine ⟨st, ?_, i1, i2, i3, ?_⟩
  · unfold init_state
    rw [h0]
    simp only [hl]
  · apply word_of_getD
    intro k
    by_cases c : k < n
    · exact i4 k c
    · rw [List.getD_eq_default st 0 (by omega)]
      decide

/-- C11: for every 32-bit seed `s`, whatever the freshly allocated array holds,
constructing the generator yields `state[0] = s` and, for every `i` in 1..63,
`state[i] = (1712438297 * (state[i-1] XOR (state[i-1] >> 30)) + i) mod 2^32`, and
leaves the cursor at 64; the generator is well formed (64 words of 32 bits). -/
theorem mt_seeding (mem : List Nat) (seed : Nat) (hm : mem.length = n) (hs : seed < 2 ^ 32) :
    ∃ p, construct mem seed = some p ∧ p.mti = 64 ∧ p.state.length = 64 ∧
      p.state.getD 0 0 = seed ∧
      (∀ i, 1 ≤ i → i ≤ 63 →
        p.state.getD i 0
          = (1712438297 * (p.state.getD (i - 1) 0 ^^^ (p.state.getD (i - 1) 0 >>> 30)) + i)
              % 2 ^ 32) ∧
      WellFormed p := by
  obtain ⟨st, h1, h2, h3, h4, h5⟩ := init_state_spec mem (seed % 2 ^ 32) hm
  refine ⟨⟨st, n⟩, ?_, rfl, h2, ?_, ?_, ⟨h2, Nat.le_refl _, h5⟩⟩
  · unfold construct
    rw [h1]
  · rw [h3, Nat.mod_mod, Nat.mod_eq_of_lt hs]
  · intro i hi1 hi2
    exact h4 i hi1 (by have : n = 64 := rfl; omega)

theorem mt_seeding_witness :
    ∃ p, construct (List.replicate 64 7) 1 = some p ∧ p.mti = 64 ∧ p.state.length = 64 ∧
      p.state.getD 0 0 = 1 ∧
      (∀ i, 1 ≤ i → i ≤ 63 →
        p.state.getD i 0
          = (1712438297 * (p.state.getD (i - 1) 0 ^^^ (p.state.getD (i - 1) 0 >>> 30)) + i)
              % 2 ^ 32) ∧
      WellFormed p :=
  mt_seeding (List.replicate 64 7) 1 (by decide) (by decide)

/-! ### The regeneration -/

theorem twistY_lt (a b : Nat) : twistY a b < 2 ^ 32 := by
  unfold twistY
  apply Nat.or_lt_two_pow
  · exact Nat.and_lt_two_pow a (by decide)
  · have h1 : b &&& 0x7FFFFFFF < 2 ^ 32 := Nat.and_lt_two_pow b (by decide)
    have h2 : (b &&& 0x7FFFFFFF) >>> 1 ≤ b &&& 0x7FFFFFFF := by
      rw [Nat.shiftRight_eq_div_pow]
      exact Nat.div_le_self _ _
    omega

theorem magOf_lt (e : Nat) : magOf e < 2 ^ 32 := by
  unfold magOf
  split <;> decide

theorem twistVal_lt (a b c e : Nat) (hc : c < 2 ^ 32) :
    c ^^^ twistY a b ^^^ magOf e < 2 ^ 32 :=
  Nat.xor_lt_two_pow (Nat.xor_lt_two_pow hc (twistY_lt a b)) (magOf_lt e)

theorem mag01_eq (e : Nat) : mag01 (e &&& 0x1) = some (magOf e) := by
  unfold mag01 magOf matrix_a
  rw [Nat.and_one_is_mod]
  rcases Nat.mod_two_eq_zero_or_one e with h | h <;> rw [h] <;> rfl

theorem twistWord_ok (st : List Nat) (kk next tap sel : Nat)
    (h1 : kk < st.length) (h2 : next < st.length) (h3 : tap < st.length)
    (h4 : sel < st.length) (hv : ∀ k, st.getD k 0 < 2 ^ 32) :
    twistWord st kk next (tap : Int) sel
      = some (st.set kk
          (st.getD tap 0 ^^^ twistY (st.getD kk 0) (st.getD next 0) ^^^ magOf (st.getD sel 0))) := by
  unfold twistWord
  rw [load_ok st kk h1, load_ok st next h2, load_ok st tap h3, load_ok st sel h4]
  simp only [mag01_eq]
  rw [store_ok st kk _ h1]
  have e : (st.getD tap 0
      ^^^ (st.getD kk 0 &&& upper_mask ||| (st.getD next 0 &&& lower_mask) >>> 1)
      ^^^ magOf (st.getD sel 0)) % 2 ^ 32
      = st.getD tap 0 ^^^ twistY (st.getD kk 0) (st.getD next 0) ^^^ magOf (st.getD sel 0) :=
    Nat.mod_eq_of_lt (twistVal_lt _ _ _ _ (hv tap))
  rw [e]

/-- The first loop of the regeneration, `kk = 0 .. n - m - 1`. -/
theorem twist_loop1 (S : List Nat) (hl : S.length = n) (hv : ∀ k, S.getD k 0 < 2 ^ 32) :
    ∃ st, loopOver (fun st kk => twistWord st kk (kk + 1) ((kk : Int) + m) (kk + 1))
        (List.range (n - m)) S = some st ∧
      st.length = n ∧ (∀ k, st.getD k 0 < 2 ^ 32) ∧
      (∀ k, 25 ≤ k → st.getD k 0 = S.getD k 0) ∧
      ∀ k, k < 25 →
        st.getD k 0
          = S.getD (k + 39) 0 ^^^ twistY (S.getD k 0) (S.getD (k + 1) 0)
              ^^^ magOf (S.getD (k + 1) 0) := by
  have hn : n = 64 := rfl
  have hm : m = 39 := rfl
  rw [List.range_eq_range']
  obtain ⟨st, h1, i1, i2, i3, i4⟩ := loopOver_inv
    (fun st kk => twistWord st kk (kk + 1) ((kk : Int) + m) (kk + 1))
    (fun j st => st.length = n ∧ (∀ k, st.getD k 0 < 2 ^ 32) ∧
      (∀ k, j ≤ k → st.getD k 0 = S.getD k 0) ∧
      (∀ k, k < j →
        st.getD k 0
          = S.getD (k + 39) 0 ^^^ twistY (S.getD k 0) (S.getD (k + 1) 0)
              ^^^ magOf (S.getD (k + 1) 0)))
    (n - m) 0 S ⟨hl, hv, fun _ _ => rfl, fun k hk => absurd hk (by omega)⟩
    (by
      intro st i _ h2 ⟨a1, a2, a3, a4⟩
      have e : ((i : Int) + (m : Nat)) = ((i + 39 : Nat) : Int) := by omega
      refine ⟨st.set i (st.getD (i + 39) 0 ^^^ twistY (st.getD i 0) (st.getD (i + 1) 0)
        ^^^ magOf (st.getD (i + 1) 0)), ?_, ?_, ?_, ?_, ?_⟩
      · simp only
        rw [e]
        exact twistWord_ok st i (i + 1) (i + 39) (i + 1) (by omega) (by omega) (by omega)
          (by omega) a2
      · rw [List.length_set, a1]
      · intro k
        rw [getD_set_eq]
        split
        · exact twistVal_lt _ _ _ _ (a2 _)
        · exact a2 k
      · intro k hk
        rw [getD_set_eq, if_neg (by omega)]
        exact a3 k (by omega)
      · intro k hk
        by_cases c : k = i
        · subst c
          rw [getD_set_eq, if_pos ⟨rfl, by omega⟩, a3 k (Nat.le_refl _), a3 (k + 1) (by omega),
            a3 (k + 39) (by omega)]
        · rw [getD_set_eq, if_neg (by omega)]
          exact a4 k (by omega))
  have e0 : 0 + (n - m) = 25 := by omega
  rw [e0] at i3 i4
  exact ⟨st, h1, i1, i2, i3, i4⟩

/-- The second loop of the regeneration, `kk = n - m .. n - 2`, entered with the
array `S1` that agrees with the old array `S` from index 25 on. -/
theorem twist_loop2 (S S1 : List Nat) (hl : S1.length = n)
    (hv : ∀ k, S1.getD k 0 < 2 ^ 32) (hS : ∀ k, 25 ≤ k → S1.getD k 0 = S.getD k 0) :
    ∃ st, loopOver
        (fun st kk => twistWord st kk (kk + 1) ((kk : Int) + ((m : Int) - n)) (kk + 1))
        (List.range' (n - m) (m - 1)) S1 = some st ∧
      st.length = n ∧ (∀ k, st.getD k 0 < 2 ^ 32) ∧
      (∀ k, 63 ≤ k → st.getD k 0 = S.getD k 0) ∧
      (∀ k, k < 25 → st.getD k 0 = S1.getD k 0) ∧
      ∀ k, 25 ≤ k → k < 63 →
        st.getD k 0
          = st.getD (k - 25) 0 ^^^ twistY (S.getD k 0) (S.getD (k + 1) 0)
              ^^^ magOf (S.getD (k + 1) 0) := by
  have hn : n = 64 := rfl
  have hm : m = 39 := rfl
  obtain ⟨st, h1, i1, i2, i3, i4, i5⟩ := loopOver_inv
    (fun st kk => twistWord st kk (kk + 1) ((kk : Int) + ((m : Int) - n)) (kk + 1))
    (fun j st => st.length = n ∧ (∀ k, st.getD k 0 < 2 ^ 32) ∧
      (∀ k, j ≤ k → st.getD k 0 = S.getD k 0) ∧
      (∀ k, k < 25 → st.getD k 0 = S1.getD k 0) ∧
      (∀ k, 25 ≤ k → k < j →
        st.getD k 0
          = st.getD (k - 25) 0 ^^^ twistY (S.getD k 0) (S.getD (k + 1) 0)
              ^^^ magOf (S.getD (k + 1) 0)))
    (m - 1) (n - m) S1
    ⟨hl, hv, fun k hk => hS k (by omega), fun _ _ => rfl, fun k h1 h2 => absurd h2 (by omega)⟩
    (by
      intro st i h1 h2 ⟨a1, a2, a3, a4, a5⟩
      have e : ((i : Int) + (((m : Nat) : Int) - (n : Nat))) = ((i - 25 : Nat) : Int) := by
        omega
      refine ⟨st.set i (st.getD (i - 25) 0 ^^^ twistY (st.getD i 0) (st.getD (i + 1) 0)
        ^^^ magOf (st.getD (i + 1) 0)), ?_, ?_, ?_, ?_, ?_, ?_⟩
      · simp only
        rw [e]
        exact twistWord_ok st i (i + 1) (i - 25) (i + 1) (by omega) (by omega) (by omega)
          (by omega) a2
      · rw [List.length_set, a1]
      · intro k
        rw [getD_set_eq]
        split
        · exact twistVal_lt _ _ _ _ (a2 _)
        · exact a2 k
      · intro k hk
        rw [getD_set_eq, if_neg (by omega)]
        exact a3 k (by omega)
      · intro k hk
        rw [getD_set_eq, if_neg (by omega)]
        exact a4 k hk
      · intro k hk1 hk2
        by_cases c : k = i
        · subst c
          rw [getD_set_eq, if_pos ⟨rfl, by omega⟩, getD_set_eq, if_neg (by omega),
            a3 k (Nat.le_refl _), a3 (k + 1) (by omega)]
        · rw [getD_set_eq, if_neg (by omega), getD_set_eq, if_neg (by omega)]
          exact a5 k hk1 (by omega))
  have e0 : n - m + (m - 1) = 63 := by omega
  rw [e0] at i3 i5
  exact ⟨st, h1, i1, i2, i3, i4, i5⟩

/-- What the regeneration computes, word by word, from the array `S` it is
entered with: the words are processed in the order 0, 1, .., 63, so the tap
`state[(k + 39) mod 64]` is an old word for `k < 25` and a new one from then on,
and the successor of the last word is the new word 0. -/
theorem regenerate_spec (p : Priv) (hw : WellFormed p) (hc : p.mti = n) :
    ∃ st, regenerate p = some ⟨st, 0⟩ ∧ st.length = n ∧ (∀ w ∈ st, w < 2 ^ 32) ∧
      (∀ k, k < 25 →
        st.getD k 0
          = p.state.getD (k + 39) 0 ^^^ twistY (p.state.getD k 0) (p.state.getD (k + 1) 0)
              ^^^ magOf (p.state.getD (k + 1) 0)) ∧
      (∀ k, 25 ≤ k → k < 63 →
        st.getD k 0
          = st.getD (k - 25) 0 ^^^ twistY (p.state.getD k 0) (p.state.getD (k + 1) 0)
              ^^^ magOf (p.state.getD (k + 1) 0)) ∧
      st.getD 63 0
        = st.getD 38 0 ^^^ twistY (p.state.getD 63 0) (st.getD 0 0)
            ^^^ magOf (p.state.getD 63 0) := by
  have hn : n = 64 := rfl
  have hm : m = 39 := rfl
  obtain ⟨w1, _, w3⟩ := hw
  have hv := getD_word p.state w3
  obtain ⟨s1, l1, a1, a2, a3, a4⟩ := twist_loop1 p.state w1 hv
  obtain ⟨s2, l2, b1, b2, b3, b4, b5⟩ := twist_loop2 p.state s1 a1 a2 a3
  have e : ((m : Nat) : Int) - 1 = ((38 : Nat) : Int) := by omega
  have l3 := twistWord_ok s2 (n - 1) 0 38 (n - 1) (by omega) (by omega) (by omega) (by omega) b2
  have hn1 : n - 1 = 63 := by omega
  rw [hn1] at l3
  refine ⟨s2.set 63 (s2.getD 38 0 ^^^ twistY (s2.getD 63 0) (s2.getD 0 0)
    ^^^ magOf (s2.getD 63 0)), ?_, ?_, ?_, ?_, ?_, ?_⟩
  · unfold regenerate
    rw [if_neg (by omega)]
    simp only [l1, l2, e, hn1, l3]
  · rw [List.length_set, b1]
  · apply word_of_getD
    intro k
    rw [getD_set_eq]
    split
    · exact twistVal_lt _ _ _ _ (b2 _)
    · exact b2 k
  · intro k hk
    rw [getD_set_eq, if_neg (by omega), b4 k hk]
    exact a4 k hk
  · intro k hk1 hk2
    rw [getD_set_eq, if_neg (by omega), getD_set_eq, if_neg (by omega)]
    exact b5 k hk1 hk2
  · rw [getD_set_eq, if_pos ⟨rfl, by omega⟩, getD_set_eq, if_neg (by omega), getD_set_eq,
      if_neg (by omega), b3 63 (Nat.le_refl _)]

/-! ### The draw -/

theorem mod_and_mask (x mask : Nat) (h : mask < 2 ^ 32) :
    (x % 2 ^ 32) &&& mask = x &&& mask := by
  apply Nat.eq_of_testBit_eq
  intro i
  rw [Nat.testBit_and, Nat.testBit_and, Nat.testBit_mod_two_pow]
  by_cases c : i < 32
  · simp [c]
  · have : mask.testBit i = false := by
      apply Nat.testBit_lt_two_pow
      calc mask < 2 ^ 32 := h
        _ ≤ 2 ^ i := Nat.pow_le_pow_right (by decide) (by omega)
    simp [this]

/-- The tempering of the code, which truncates the shifted words to 32 bits, is
the tempering of the specification. -/
theorem temper_eq (y : Nat) : temper y = temperSpec y := by
  unfold temper temperSpec
  simp only [mod_and_mask _ 0x9C4F88E3 (by decide), mod_and_mask _ 0xE7F70000 (by decide)]

theorem shiftRight_lt32 (x k : Nat) (h : x < 2 ^ 32) : x >>> k < 2 ^ 32 := by
  have : x >>> k ≤ x := by
    rw [Nat.shiftRight_eq_div_pow]
    exact Nat.div_le_self _ _
  omega

theorem temperSpec_lt (y : Nat) (h : y < 2 ^ 32) : temperSpec y < 2 ^ 32 := by
  unfold temperSpec
  have h1 : y ^^^ (y >>> 11) < 2 ^ 32 := Nat.xor_lt_two_pow h (shiftRight_lt32 y 11 h)
  have h2 : (y ^^^ (y >>> 11)) ^^^ (((y ^^^ (y >>> 11)) <<< 7) &&& 0x9C4F88E3) < 2 ^ 32 :=
    Nat.xor_lt_two_pow h1 (Nat.and_lt_two_pow _ (by decide))
  have h3 : ((y ^^^ (y >>> 11)) ^^^ (((y ^^^ (y >>> 11)) <<< 7) &&& 0x9C4F88E3))
      ^^^ ((((y ^^^ (y >>> 11)) ^^^ (((y ^^^ (y >>> 11)) <<< 7) &&& 0x9C4F88E3)) <<< 15)
        &&& 0xE7F70000) < 2 ^ 32 :=
    Nat.xor_lt_two_pow h2 (Nat.and_lt_two_pow _ (by decide))
  exact Nat.xor_lt_two_pow h3 (shiftRight_lt32 _ 18 h3)

/-- A draw with the cursor inside the array. -/
theorem get_next_integer_inside (p : Priv) (hc : p.mti < p.state.length)
    (hn : p.state.length = n) :
    get_next_integer p
      = some (temper (p.state.getD p.mti 0), { state := p.state, mti := p.mti + 1 }) := by
  unfold get_next_integer
  rw [if_neg (by omega)]
  simp only
  rw [load_ok p.state p.mti hc]

/-- A draw with the cursor at `n`: the array is regenerated, the cursor is reset
to 0 and the first word is drawn. -/
theorem get_next_integer_regen (p : Priv) (hw : WellFormed p) (hc : p.mti = n) :
    ∃ st, regenerate p = some ⟨st, 0⟩ ∧
      get_next_integer p = some (temper (st.getD 0 0), { state := st, mti := 1 }) ∧
      st.length = n ∧ (∀ w ∈ st, w < 2 ^ 32) ∧
      (∀ k, k < 25 →
        st.getD k 0
          = p.state.getD (k + 39) 0 ^^^ twistY (p.state.getD k 0) (p.state.getD (k + 1) 0)
              ^^^ magOf (p.state.getD (k + 1) 0)) ∧
      (∀ k, 25 ≤ k → k < 63 →
        st.getD k 0
          = st.getD (k - 25) 0 ^^^ twistY (p.state.getD k 0) (p.state.getD (k + 1) 0)
              ^^^ magOf (p.state.getD (k + 1) 0)) ∧
      st.getD 63 0
        = st.getD 38 0 ^^^ twistY (p.state.getD 63 0) (st.getD 0 0)
            ^^^ magOf (p.state.getD 63 0) := by
  have hn : n = 64 := rfl
  obtain ⟨st, r1, r2, r3, r4, r5, r6⟩ := regenerate_spec p hw hc
  refine ⟨st, r1, ?_, r2, r3, r4, r5, r6⟩
  unfold get_next_integer
  rw [if_pos (by omega), r1]
  simp only
  rw [load_ok st 0 (by omega)]

/-! ### The settled properties of the regeneration and of the draw -/

/-- C13: for every generator with cursor `c < 64` (and 64 state words),
`get_next_integer` returns `T(state[c])`, where `T` applies in order
`y ^= y >> 11; y ^= (y << 7) & 0x9C4F88E3; y ^= (y << 15) & 0xE7F70000; y ^= y >> 18`
(on 32-bit words as the code does, `temper`, which is the same as on naturals,
`temperSpec`, and yields a 32-bit word), advances the cursor to `c + 1` and
leaves the state words as they are. -/
theorem mt_draw (p : Priv) (hl : p.state.length = 64) (hc : p.mti < 64) :
    get_next_integer p
      = some (temper (p.state.getD p.mti 0), { state := p.state, mti := p.mti + 1 }) ∧
    temper (p.state.getD p.mti 0) = temperSpec (p.state.getD p.mti 0) ∧
    (p.state.getD p.mti 0 < 2 ^ 32 → temper (p.state.getD p.mti 0) < 2 ^ 32) := by
  refine ⟨get_next_integer_inside p (by omega) hl, temper_eq _, ?_⟩
  intro h
  rw [temper_eq]
  exact temperSpec_lt _ h

theorem mt_draw_witness :
    get_next_integer { state := List.replicate 64 1, mti := 5 }
      = some (temper ((List.replicate 64 1).getD 5 0),
          { state := List.replicate 64 1, mti := 5 + 1 }) ∧
    temper ((List.replicate 64 1).getD 5 0) = temperSpec ((List.replicate 64 1).getD 5 0) ∧
    ((List.replicate 64 1).getD 5 0 < 2 ^ 32 →
      temper ((List.replicate 64 1).getD 5 0) < 2 ^ 32) :=
  mt_draw { state := List.replicate 64 1, mti := 5 } (by decide) (by decide)

/-! ### The mixing -/

theorem words_spec :
    ∀ (k : Nat) (data : List Nat), data.length < 4 * k →
      (words data).length = data.length / 4 ∧
      (∀ i, i < data.length / 4 → (words data).getD i 0 = wordAt data i) ∧
      ∀ i, (words data).getD i 0 < 2 ^ 32 := by
  intro k
  induction k with
  | zero => intro data h; omega
  | succ k ih =>
    intro data h
    rcases data with _ | ⟨b0, _ | ⟨b1, _ | ⟨b2, _ | ⟨b3, rest⟩⟩⟩⟩
    · exact ⟨rfl, fun i hi => by simp at hi, fun i => by simp [words]⟩
    · refine ⟨by simp [words], fun i hi => ?_, fun i => by simp [words]⟩
      simp only [List.length_cons, List.length_nil] at hi
      omega
    · refine ⟨by simp [words], fun i hi => ?_, fun i => by simp [words]⟩
      simp only [List.length_cons, List.length_nil] at hi
      omega
    · refine ⟨by simp [words], fun i hi => ?_, fun i => by simp [words]⟩
      simp only [List.length_cons, List.length_nil] at hi
      omega
    · simp only [List.length_cons] at h
      obtain ⟨h1, h2, h3⟩ := ih rest (by omega)
      simp only [words, List.length_cons]
      refine ⟨by rw [h1]; omega, ?_, ?_⟩
      · intro i hi
        cases i with
        | zero =>
          simp only [List.getD_cons_zero, wordAt, Nat.mul_zero, Nat.zero_add,
            List.getD_cons_succ]
        | succ j =>
          have e0 : 4 * (j + 1) = 4 * j + 1 + 1 + 1 + 1 := by omega
          have e1 : 4 * (j + 1) + 1 = 4 * j + 1 + 1 + 1 + 1 + 1 := by omega
          have e2 : 4 * (j + 1) + 2 = 4 * j + 2 + 1 + 1 + 1 + 1 := by omega
          have e3 : 4 * (j + 1) + 3 = 4 * j + 3 + 1 + 1 + 1 + 1 := by omega
          rw [List.getD_cons_succ, h2 j (by omega)]
          unfold wordAt
          rw [e1, e2, e3, e0]
          simp only [List.getD_cons_succ]
      · intro i
        cases i with
        | zero =>
          simp only [List.getD_cons_zero]
          omega
        | succ j =>
          rw [List.getD_cons_succ]
          exact h3 j

theorem xor_self_iff (a w : Nat) : a ^^^ w = a ↔ w = 0 := by
  constructor
  · intro h
    have h2 : a ^^^ (a ^^^ w) = a ^^^ a := by rw [h]
    rw [← Nat.xor_assoc, Nat.xor_self, Nat.zero_xor] at h2
    exact h2
  · intro h
    rw [h, Nat.xor_zero]

/-- The loop of `xor_state` from index `i` on: word `k` is XOR-ed with the word
`k - i` of the data as far as the data and the array go. -/
theorem xorLoop_spec :
    ∀ (ws : List Nat) (i : Nat) (st : List Nat), st.length = n →
      (∀ k, st.getD k 0 < 2 ^ 32) → (∀ k, ws.getD k 0 < 2 ^ 32) →
      ∃ st1, xorLoop ws i st = some st1 ∧ st1.length = n ∧ (∀ k, st1.getD k 0 < 2 ^ 32) ∧
        ∀ k, st1.getD k 0
          = if i ≤ k ∧ k < n ∧ k < i + ws.length then st.getD k 0 ^^^ ws.getD (k - i) 0
            else st.getD k 0 := by
  intro ws
  induction ws with
  | nil =>
    intro i st hl hv _
    refine ⟨st, rfl, hl, hv, ?_⟩
    intro k
    rw [if_neg (by simp only [List.length_nil]; omega)]
  | cons w ws ih =>
    intro i st hl hv hw
    have hw0 : w < 2 ^ 32 := hw 0
    have hws : ∀ k, ws.getD k 0 < 2 ^ 32 := fun k => hw (k + 1)
    by_cases c : i < n
    · have hv1 : st.getD i 0 ^^^ w < 2 ^ 32 := Nat.xor_lt_two_pow (hv i) hw0
      have hv2 : ∀ k, (st.set i (st.getD i 0 ^^^ w)).getD k 0 < 2 ^ 32 := by
        intro k
        rw [getD_set_eq]
        split
        · exact hv1
        · exact hv k
      obtain ⟨st1, e1, e2, e3, e4⟩ := ih (i + 1) (st.set i (st.getD i 0 ^^^ w))
        (by rw [List.length_set, hl]) hv2 hws
      refine ⟨st1, ?_, e2, e3, ?_⟩
      · simp only [xorLoop, if_pos c]
        rw [load_ok st i (by omega)]
        simp only
        rw [store_ok st i _ (by omega), Nat.mod_eq_of_lt hv1]
        exact e1
      · intro k
        rw [e4 k, getD_set_eq]
        by_cases c1 : k = i
        · subst c1
          have e5 : k - k = 0 := by omega
          rw [if_neg (by omega), if_pos ⟨rfl, by omega⟩,
            if_pos ⟨Nat.le_refl _, c, by simp only [List.length_cons]; omega⟩, e5,
            List.getD_cons_zero]
        · have c3 : ¬ (i = k ∧ k < st.length) := by omega
          by_cases c2 : i + 1 ≤ k ∧ k < n ∧ k < i + 1 + ws.length
          · have e5 : k - i = k - (i + 1) + 1 := by omega
            rw [if_pos c2, if_neg c3,
              if_pos ⟨by omega, c2.2.1, by simp only [List.length_cons]; omega⟩,
              e5, List.getD_cons_succ]
          · rw [if_neg c2, if_neg c3, if_neg (by simp only [List.length_cons]; omega)]
    · refine ⟨st, ?_, hl, hv, ?_⟩
      · simp only [xorLoop, if_neg c]
      · intro k
        rw [if_neg (by omega)]

/-- What `xor_state` does to a well-formed generator, for any buffer. -/
theorem xor_state_spec (p : Priv) (data : List Nat) (hw : WellFormed p) :
    ∃ p1, xor_state p data = some p1 ∧ p1.mti = p.mti ∧ WellFormed p1 ∧
      ∀ i, p1.state.getD i 0
        = if i < min 64 (data.length / 4) then p.state.getD i 0 ^^^ wordAt data i
          else p.state.getD i 0 := by
  have hn : n = 64 := rfl
  obtain ⟨w1, w2, w3⟩ := hw
  obtain ⟨d1, d2, d3⟩ := words_spec (data.length + 1) data (by omega)
  obtain ⟨st1, e1, e2, e3, e4⟩ := xorLoop_spec (words data) 0 p.state w1 (getD_word _ w3) d3
  refine ⟨⟨st1, p.mti⟩, ?_, rfl, ⟨e2, w2, word_of_getD _ e3⟩, ?_⟩
  · unfold xor_state
    rw [e1]
  · intro i
    simp only
    rw [e4 i, d1]
    by_cases c : i < min 64 (data.length / 4)
    · have e5 : i - 0 = i := by omega
      rw [if_pos c, if_pos (by omega), e5, d2 i (by omega)]
    · rw [if_neg c, if_neg (by omega)]

/-- C14: for every well-formed generator and every byte buffer whose length `L`
is a multiple of 4, `xor_state` replaces `state[i]` by `state[i] XOR w_i` for
each `i < min(64, L/4)`, where `w_i` is the `i`-th little-endian 32-bit word of
the buffer, leaves every state word with index `>= min(64, L/4)` unchanged, and
leaves the cursor unchanged. -/
theorem mt_xor_state (p : Priv) (data : List Nat) (hw : WellFormed p)
    (hL : data.length % 4 = 0) :
    ∃ p1, xor_state p data = some p1 ∧ p1.mti = p.mti ∧ p1.state.length = 64 ∧
      (∀ i, i < min 64 (data.length / 4) →
        p1.state.getD i 0 = p.state.getD i 0 ^^^ wordAt data i) ∧
      (∀ i, min 64 (data.length / 4) ≤ i → p1.state.getD i 0 = p.state.getD i 0) := by
  have _ := hL
  obtain ⟨p1, h1, h2, h3, h4⟩ := xor_state_spec p data hw
  refine ⟨p1, h1, h2, h3.1, ?_, ?_⟩
  · intro i hi
    rw [h4 i, if_pos hi]
  · intro i hi
    rw [h4 i, if_neg (by omega)]

theorem mt_xor_state_witness :
    ∃ p1, xor_state { state := List.replicate 64 5, mti := 3 } [1, 0, 0, 0, 0, 1, 0, 0]
        = some p1 ∧
      p1.mti = 3 ∧ p1.state.length = 64 ∧
      (∀ i, i < min 64 ([1, 0, 0, 0, 0, 1, 0, 0].length / 4) →
        p1.state.getD i 0
          = (List.replicate 64 5).getD i 0 ^^^ wordAt [1, 0, 0, 0, 0, 1, 0, 0] i) ∧
      (∀ i, min 64 ([1, 0, 0, 0, 0, 1, 0, 0].length / 4) ≤ i →
        p1.state.getD i 0 = (List.replicate 64 5).getD i 0) :=
  mt_xor_state { state := List.replicate 64 5, mti := 3 } [1, 0, 0, 0, 0, 1, 0, 0]
    ⟨by decide, by decide, by decide⟩ (by decide)

/-- C15, counterexample: the generator seeded with 1 after one draw has cursor 1;
mixing the buffer `01 00 00 00` into it changes `state[0]`, a word below the
cursor. -/
theorem mt_mix_consumed_counterexample :
    ∃ p0 v p1 p2, construct (List.replicate 64 0) 1 = some p0 ∧
      get_next_integer p0 = some (v, p1) ∧ p1.mti = 1 ∧
      xor_state p1 [1, 0, 0, 0] = some p2 ∧
      p2.state.getD 0 0 ≠ p1.state.getD 0 0 :=
  ⟨_, _, _, _, rfl, rfl, rfl, rfl, by decide⟩

/-- C15, amended: for every well-formed generator, whatever its cursor `c`, and
every mix buffer of `L` bytes, `xor_state` changes exactly the state words at the
indices `i < min(64, L/4)` (counted from 0, not from the cursor) whose buffer
word `w_i` is not zero, words below the cursor included; the cursor stays. -/
theorem mt_mix_changed_words (p : Priv) (data : List Nat) (hw : WellFormed p) :
    ∃ p1, xor_state p data = some p1 ∧ p1.mti = p.mti ∧
      ∀ i, (p1.state.getD i 0 ≠ p.state.getD i 0
        ↔ (i < min 64 (data.length / 4) ∧ wordAt data i ≠ 0)) := by
  obtain ⟨p1, h1, h2, _, h4⟩ := xor_state_spec p data hw
  refine ⟨p1, h1, h2, ?_⟩
  intro i
  rw [h4 i]
  by_cases c : i < min 64 (data.length / 4)
  · rw [if_pos c, Ne, xor_self_iff]
    exact ⟨fun h => ⟨c, h⟩, fun h => h.2⟩
  · rw [if_neg c]
    exact ⟨fun h => absurd rfl h, fun h => absurd h.1 c⟩

theorem mt_mix_changed_words_witness :
    ∃ p1, xor_state { state := List.replicate 64 5, mti := 7 } [0, 0, 0, 0, 0, 1, 0, 0]
        = some p1 ∧
      p1.mti = 7 ∧
      ∀ i, (p1.state.getD i 0 ≠ (List.replicate 64 5).getD i 0
        ↔ (i < min 64 ([0, 0, 0, 0, 0, 1, 0, 0].length / 4) ∧
            wordAt [0, 0, 0, 0, 0, 1, 0, 0] i ≠ 0)) :=
  mt_mix_changed_words { state := List.replicate 64 5, mti := 7 } [0, 0, 0, 0, 0, 1, 0, 0]
    ⟨by decide, by decide, by decide⟩

/-! ### Reachable generators -/

theorem construct_wf (mem : List Nat) (seed : Nat) (p : Priv) (hm : mem.length = n)
    (h : construct mem seed = some p) : WellFormed p := by
  obtain ⟨st, e1, e2, _, _, e5⟩ := init_state_spec mem (seed % 2 ^ 32) hm
  unfold construct at h
  rw [e1] at h
  simp only [Option.some.injEq] at h
  subst h
  exact ⟨e2, Nat.le_refl _, e5⟩

theorem temper_lt (y : Nat) (h : y < 2 ^ 32) : temper y < 2 ^ 32 := by
  rw [temper_eq]
  exact temperSpec_lt _ h

/-- A draw from a well-formed generator returns a 32-bit value and a well-formed
generator. -/
theorem get_next_integer_wf (p : Priv) (hw : WellFormed p) :
    ∃ v p1, get_next_integer p = some (v, p1) ∧ v < 2 ^ 32 ∧ WellFormed p1 := by
  have hn : n = 64 := rfl
  by_cases c : p.mti < n
  · refine ⟨_, _, get_next_integer_inside p (by rw [hw.1]; exact c) hw.1,
      temper_lt _ (getD_word _ hw.2.2 _), hw.1, ?_, hw.2.2⟩
    show p.mti + 1 ≤ n
    omega
  · have hc : p.mti = n := by have := hw.2.1; omega
    obtain ⟨st, _, r2, r3, r4, _⟩ := get_next_integer_regen p hw hc
    refine ⟨_, _, r2, temper_lt _ (getD_word _ r4 _), r3, ?_, r4⟩
    show 1 ≤ n
    omega

theorem reachable_wf (p : Priv) (hr : Reachable p) : WellFormed p := by
  induction hr with
  | seeded mem seed p hm h => exact construct_wf mem seed p hm h
  | mixed p p1 data _ h ih =>
    obtain ⟨q, h1, _, h3, _⟩ := xor_state_spec p data ih
    rw [h1] at h
    simp only [Option.some.injEq] at h
    subst h
    exact h3
  | drawn p p1 v _ h ih =>
    obtain ⟨v1, q, h1, _, h3⟩ := get_next_integer_wf p ih
    rw [h1] at h
    simp only [Option.some.injEq, Prod.mk.injEq] at h
    obtain ⟨_, h⟩ := h
    subst h
    exact h3

/-- C16: for every generator reachable from seeding (over an array of 64 words)
by any sequence of `xor_state` and `get_next_integer` calls, the cursor lies in
`[0, 65]` (in fact in `[0, 64]`), the array has 64 words of 32 bits,
`get_next_integer` returns a 32-bit value (every array access of the call has its
index in `0..63`: an access outside makes the model return `none`), and
`xor_state` returns for every buffer, the empty buffer and buffers shorter than
256 bytes included (for which the words past the buffer stay as they are). -/
theorem mt_no_failure (p : Priv) (hr : Reachable p) :
    p.mti ≤ 65 ∧ p.mti ≤ 64 ∧ p.state.length = 64 ∧ (∀ w ∈ p.state, w < 2 ^ 32) ∧
    (∃ v p1, get_next_integer p = some (v, p1) ∧ v < 2 ^ 32 ∧ p1.mti ≤ 64) ∧
    (∀ data, ∃ p1, xor_state p data = some p1 ∧
      ∀ i, data.length / 4 ≤ i → p1.state.getD i 0 = p.state.getD i 0) ∧
    ∃ p1, xor_state p [] = some p1 ∧ p1 = p := by
  have hn : n = 64 := rfl
  have hw := reachable_wf p hr
  refine ⟨?_, hw.2.1, hw.1, hw.2.2, ?_, ?_, ?_⟩
  · have := hw.2.1
    omega
  · obtain ⟨v, p1, h1, h2, h3⟩ := get_next_integer_wf p hw
    exact ⟨v, p1, h1, h2, h3.2.1⟩
  · intro data
    obtain ⟨p1, h1, _, _, h4⟩ := xor_state_spec p data hw
    refine ⟨p1, h1, ?_⟩
    intro i hi
    rw [h4 i, if_neg (by omega)]
  · exact ⟨p, rfl, rfl⟩

theorem mt_no_failure_witness :
    ∃ p, construct (List.replicate 64 0) 1 = some p ∧
      (p.mti ≤ 65 ∧ p.mti ≤ 64 ∧ p.state.length = 64 ∧ (∀ w ∈ p.state, w < 2 ^ 32) ∧
      (∃ v p1, get_next_integer p = some (v, p1) ∧ v < 2 ^ 32 ∧ p1.mti ≤ 64) ∧
      (∀ data, ∃ p1, xor_state p data = some p1 ∧
        ∀ i, data.length / 4 ≤ i → p1.state.getD i 0 = p.state.getD i 0) ∧
      ∃ p1, xor_state p [] = some p1 ∧ p1 = p) :=
  ⟨_, rfl, mt_no_failure _ (Reachable.seeded (List.replicate 64 0) 1 _ rfl rfl)⟩

end CustomMersenneTwister

theorem deltaPixels_step :
    ∀ (ds : List Nat) (t : Nat × Nat × Nat) (i : Nat), i < ds.length →
      (deltaPixels t ds).getD i (0, 0, 0)
        = deltaNext (if i = 0 then t else (deltaPixels t ds).getD (i - 1) (0, 0, 0))
            (ds.getD i 0) := by
  intro ds
  induction ds with
  | nil => intro t i hi; simp at hi
  | cons d ds ih =>
    intro t i hi
    simp only [List.length_cons] at hi
    cases i with
    | zero => simp only [deltaPixels, List.getD_cons_zero, if_pos]
    | succ i =>
      have e := ih (deltaNext t d) i (by omega)
      simp only [deltaPixels, List.getD_cons_succ, Nat.add_sub_cancel]
      rw [if_neg (Nat.succ_ne_zero i), e]
      cases i with
      | zero => simp only [if_pos, List.getD_cons_zero]
      | succ j =>
        rw [if_neg (Nat.succ_ne_zero j)]
        simp only [Nat.add_sub_cancel, List.getD_cons_succ]

/-! ## The delta run of the colour decoder -/

theorem and_pow_ne (d k : Nat) : d &&& 2 ^ k ≠ 0 ↔ d.testBit k = true := by
  rw [Nat.and_two_pow]
  cases h : d.testBit k
  · simp
  · simp

theorem deltaChannel_lt (old d shift : Nat) : deltaChannel old d shift < 256 := by
  unfold deltaChannel
  split_ifs <;> omega

/-- The channel update of the code is the one of the specification. -/
theorem deltaChannel_eq (c d shift signbit : Nat) (hs : signbit = 2 ^ (shift + 4)) :
    (if d &&& 0x8000 ≠ 0 then addField c d shift else addSigned c d shift signbit)
      = deltaChannel c d shift := by
  have e : (0x8000 : Nat) = 2 ^ 15 := by decide
  unfold deltaChannel addField addSigned
  rw [e, hs]
  simp only [and_pow_ne]
  by_cases c1 : d.testBit 15 = true
  · rw [if_pos c1, if_pos c1]
  · rw [if_neg c1, if_neg c1]
    by_cases c2 : d.testBit (shift + 4) = true
    · rw [if_pos c2, if_pos c2, mul_neg_one, ← sub_eq_add_neg]
    · rw [if_neg c2, if_neg c2]
      omega

/-- One iteration of the loop of `decompress_sgd_bgr_strategy_1` on a delta
word. -/
theorem deltaRun_succ (n b g r d : Nat) (io : List Nat) (o : OutBuf) (hd : d < 65536) :
    deltaRun (n + 1) b g r (u16le d ++ io) o
      = match writePixel o (deltaChannel b d 0) (deltaChannel g d 5) (deltaChannel r d 10) with
        | .error e => .error e
        | .ok o1 =>
          deltaRun n (deltaChannel b d 0) (deltaChannel g d 5) (deltaChannel r d 10) io o1 := by
  rw [deltaRun, read_u16_le_append d io hd]
  simp only
  rw [deltaChannel_eq b d 0 0x10 (by decide), deltaChannel_eq g d 5 0x200 (by decide),
    deltaChannel_eq r d 10 0x4000 (by decide)]

/-- A delta run with room in the buffer for its pixels: the pixels written are
`deltaPixels`, nothing else changes. -/
theorem deltaRun_spec :
    ∀ (ds : List Nat) (t : Nat × Nat × Nat) (rest : List Nat) (o : OutBuf),
      (∀ d ∈ ds, d < 65536) → o.pos + 4 * ds.length ≤ o.buffer.length →
      ∃ o1, deltaRun ds.length t.1 t.2.1 t.2.2 (encodeDeltas ds ++ rest) o = .ok (rest, o1) ∧
        o1.pos = o.pos + 4 * ds.length ∧ o1.buffer.length = o.buffer.length ∧
        (∀ i, i < ds.length →
          o1.buffer[o.pos + 4 * i]? = some ((deltaPixels t ds).getD i (0, 0, 0)).1 ∧
          o1.buffer[o.pos + 4 * i + 1]? = some ((deltaPixels t ds).getD i (0, 0, 0)).2.1 ∧
          o1.buffer[o.pos + 4 * i + 2]? = some ((deltaPixels t ds).getD i (0, 0, 0)).2.2) ∧
        ∀ k, (k < o.pos ∨ o.pos + 4 * ds.length ≤ k ∨ (k - o.pos) % 4 = 3) →
          o1.buffer[k]? = o.buffer[k]? := by
  intro ds
  induction ds with
  | nil =>
    intro t rest o _ _
    exact ⟨o, rfl, rfl, rfl, fun i hi => absurd hi (Nat.not_lt_zero _), fun _ _ => rfl⟩
  | cons d ds ih =>
    intro t rest o hd hroom
    simp only [List.length_cons] at hroom
    have hd0 : d < 65536 := hd d (List.mem_cons_self _ _)
    have hp : o.pos ≤ o.buffer.length := by omega
    have wp := writePixel_spec o (deltaChannel t.1 d 0) (deltaChannel t.2.1 d 5)
      (deltaChannel t.2.2 d 10) hp
    have e1 := Nat.mod_eq_of_lt (deltaChannel_lt t.1 d 0)
    have e2 := Nat.mod_eq_of_lt (deltaChannel_lt t.2.1 d 5)
    have e3 := Nat.mod_eq_of_lt (deltaChannel_lt t.2.2 d 10)
    rw [if_pos (by omega), e1, e2, e3] at wp
    obtain ⟨w1, w2, w3, w4⟩ := writePixel_ok o _ _ _ _ hp wp
    rw [e1, e2, e3] at w4
    dsimp only at w2 w3 w4
    obtain ⟨o1, h1, h2, h3, h4, h5⟩ := ih (deltaNext t d) rest _
      (fun x hx => hd x (List.mem_cons_of_mem _ hx))
      (show (OutBuf.mk _ (o.pos + 4)).pos + 4 * ds.length ≤ (OutBuf.mk _ (o.pos + 4)).buffer.length
        by dsimp only; rw [w3]; omega)
    dsimp only at h2 h3 h4 h5
    rw [w3] at h3
    refine ⟨o1, ?_, ?_, h3, ?_, ?_⟩
    · show deltaRun (ds.length + 1) t.1 t.2.1 t.2.2 ((u16le d ++ encodeDeltas ds) ++ rest) o = _
      rw [List.append_assoc, deltaRun_succ _ _ _ _ _ _ _ hd0, wp]
      exact h1
    · rw [h2]
      simp only [List.length_cons]
      omega
    · intro i hi
      simp only [List.length_cons] at hi
      cases i with
      | zero =>
        simp only [deltaPixels, List.getD_cons_zero, Nat.mul_zero, Nat.add_zero]
        rw [h5 _ (Or.inl (by omega)), h5 _ (Or.inl (by omega)), h5 _ (Or.inl (by omega)),
          w4, w4, w4]
        rw [if_pos rfl, if_neg (by omega), if_pos rfl, if_neg (by omega), if_neg (by omega),
          if_pos rfl]
        exact ⟨rfl, rfl, rfl⟩
      | succ i =>
        simp only [deltaPixels, List.getD_cons_succ]
        have e0 : o.pos + 4 * (i + 1) = o.pos + 4 + 4 * i := by omega
        rw [e0]
        exact h4 i (by omega)
    · intro k hk
      simp only [List.length_cons] at hk
      rw [h5 k (by omega), w4, if_neg (by omega), if_neg (by omega), if_neg (by omega)]

/-- C17: in a delta run of the colour decoder (flag byte with top bits `10`,
`size = flag & 0x3F` delta words of 16 bits, little-endian), met with the cursor
at least 4 and with room for `size` pixels, the base `(b, g, r)` is read from the
three bytes at `cursor-4 .. cursor-2` of the output, and the `i`-th pixel slot
(bytes `cursor+4i .. cursor+4i+2`) receives the `i`-th element of `deltaPixels`:
every delta word `d` turns the running base into `deltaNext base d`, whose
channels are `deltaChannel old d shift` for the shifts 0, 5, 10, that is
`(old + ((d >> shift) & 0x1F)) mod 256` when bit 15 of `d` is set, and otherwise
`(old - m) mod 256` or `(old + m) mod 256` with `m = (d >> shift) & 0xF`, the
subtraction exactly when bit `shift + 4` (4, 9, 14) is set; that triple is the
base for the next delta word.  The fourth byte of every slot and the bytes
outside the run are left as they are. -/
theorem sgd_delta_run (flag : Nat) (ds rest : List Nat) (o : OutBuf)
    (hf : flag < 256) (hflag : flag &&& 0xC0 = 0x80) (hsize : ds.length = flag &&& 0x3F)
    (hds : ∀ d ∈ ds, d < 65536)
    (hpos : 4 ≤ o.pos) (hroom : o.pos + 4 * ds.length ≤ o.buffer.length) :
    ∃ o1, bgrStep (flag :: (encodeDeltas ds ++ rest)) o = .ok (rest, o1) ∧
      o1.pos = o.pos + 4 * ds.length ∧ o1.buffer.length = o.buffer.length ∧
      (∀ i, i < ds.length →
        (o1.buffer[o.pos + 4 * i]?, o1.buffer[o.pos + 4 * i + 1]?,
            o1.buffer[o.pos + 4 * i + 2]?)
          = (some ((deltaPixels (o.buffer.getD (o.pos - 4) 0, o.buffer.getD (o.pos - 3) 0,
                o.buffer.getD (o.pos - 2) 0) ds).getD i (0, 0, 0)).1,
             some ((deltaPixels (o.buffer.getD (o.pos - 4) 0, o.buffer.getD (o.pos - 3) 0,
                o.buffer.getD (o.pos - 2) 0) ds).getD i (0, 0, 0)).2.1,
             some ((deltaPixels (o.buffer.getD (o.pos - 4) 0, o.buffer.getD (o.pos - 3) 0,
                o.buffer.getD (o.pos - 2) 0) ds).getD i (0, 0, 0)).2.2)) ∧
      (∀ i, i < ds.length →
        (deltaPixels (o.buffer.getD (o.pos - 4) 0, o.buffer.getD (o.pos - 3) 0,
            o.buffer.getD (o.pos - 2) 0) ds).getD i (0, 0, 0)
          = deltaNext
              (if i = 0 then (o.buffer.getD (o.pos - 4) 0, o.buffer.getD (o.pos - 3) 0,
                  o.buffer.getD (o.pos - 2) 0)
               else (deltaPixels (o.buffer.getD (o.pos - 4) 0, o.buffer.getD (o.pos - 3) 0,
                  o.buffer.getD (o.pos - 2) 0) ds).getD (i - 1) (0, 0, 0))
              (ds.getD i 0)) ∧
      (∀ k, (k < o.pos ∨ o1.pos ≤ k ∨ (k - o.pos) % 4 = 3) →
        o1.buffer[k]? = o.buffer[k]?) := by
  have hp : o.pos ≤ o.buffer.length := by omega
  obtain ⟨o1, h1, h2, h3, h4, h5⟩ := deltaRun_spec ds
    (o.buffer.getD (o.pos - 4) 0, o.buffer.getD (o.pos - 3) 0, o.buffer.getD (o.pos - 2) 0)
    rest o hds hroom
  refine ⟨o1, ?_, h2, h3, ?_, ?_, ?_⟩
  · simp only [bgrStep]
    rw [Nat.mod_eq_of_lt hf, if_pos hflag]
    unfold decompress_sgd_bgr_strategy_1
    rw [skip_back o hp, if_pos hpos]
    simp only
    have r1 : OutBuf.read_u8 ⟨o.buffer, o.pos - 4⟩
        = .ok (o.buffer.getD (o.pos - 4) 0, ⟨o.buffer, o.pos - 4 + 1⟩) := by
      unfold OutBuf.read_u8
      rw [if_pos (show o.pos - 4 < o.buffer.length by omega)]
    have r2 : OutBuf.read_u8 ⟨o.buffer, o.pos - 4 + 1⟩
        = .ok (o.buffer.getD (o.pos - 3) 0, ⟨o.buffer, o.pos - 4 + 1 + 1⟩) := by
      unfold OutBuf.read_u8
      rw [if_pos (show o.pos - 4 + 1 < o.buffer.length by omega)]
      have e : o.pos - 4 + 1 = o.pos - 3 := by omega
      simp only [e]
    have r3 : OutBuf.read_u8 ⟨o.buffer, o.pos - 4 + 1 + 1⟩
        = .ok (o.buffer.getD (o.pos - 2) 0, ⟨o.buffer, o.pos - 4 + 1 + 1 + 1⟩) := by
      unfold OutBuf.read_u8
      rw [if_pos (show o.pos - 4 + 1 + 1 < o.buffer.length by omega)]
      have e : o.pos - 4 + 1 + 1 = o.pos - 2 := by omega
      simp only [e]
    rw [r1]
    simp only
    rw [r2]
    simp only
    rw [r3]
    simp only
    have es := skip_nat ⟨o.buffer, o.pos - 4 + 1 + 1 + 1⟩ 1
    simp only [Nat.cast_one] at es
    rw [es, if_pos (by omega)]
    simp only
    have ep : o.pos - 4 + 1 + 1 + 1 + 1 = o.pos := by omega
    rw [ep, ← hsize]
    exact h1
  · intro i hi
    obtain ⟨a1, a2, a3⟩ := h4 i hi
    rw [a1, a2, a3]
  · intro i hi
    exact deltaPixels_step ds _ i hi
  · intro k hk
    rw [h2] at hk
    exact h5 k hk
theorem sgd_delta_run_witness :
    ∃ o1, bgrStep (0x82 :: (encodeDeltas [0x8421, 0x0011] ++ [7]))
        ⟨[10, 20, 30, 0, 0, 0, 0, 0, 0, 0, 0, 0], 4⟩ = .ok ([7], o1) ∧
      o1.pos = 4 + 4 * 2 ∧ o1.buffer.length = 12 ∧
      (o1.buffer[4]?, o1.buffer[5]?, o1.buffer[6]?) = (some 11, some 21, some 31) ∧
      (o1.buffer[8]?, o1.buffer[9]?, o1.buffer[10]?) = (some 10, some 21, some 31) :=
  (sgd_delta_run 0x82 [0x8421, 0x0011] [7] ⟨[10, 20, 30, 0, 0, 0, 0, 0, 0, 0, 0, 0], 4⟩
    (by decide) (by decide) (by decide) (by decide) (by decide) (by decide)).imp
    (fun _ h => ⟨h.1, h.2.1, h.2.2.1, h.2.2.2.1 0 (by decide), h.2.2.2.1 1 (by decide)⟩)

/-! ## The two passes of `decompress_sgd` in either order -/

theorem getD_congr (l l1 : List Nat) (i : Nat) (h : l1[i]? = l[i]?) :
    l1.getD i 0 = l.getD i 0 := by
  simp only [List.getD_eq_getElem?_getD, h]

theorem alphaSlot_sim (o o1 o2 : OutBuf) (v : Nat) (hs : AlphaSim o o1)
    (h : o.skip 3 = .ok o2) :
    ∃ o3, o1.skip 3 = .ok o3 ∧ AlphaSim (o2.write_u8 v) (o3.write_u8 v) := by
  obtain ⟨s1, s2, s3⟩ := hs
  obtain ⟨a1, a2, a3, a4⟩ := alphaSlot_spec o o2 v h
  have e := skip_nat o1 3
  simp only [Nat.cast_ofNat] at e
  rw [if_pos (by omega)] at e
  obtain ⟨b1, b2, b3, b4⟩ := alphaSlot_spec o1 _ v e
  refine ⟨_, e, by omega, by omega, ?_⟩
  intro i hi
  rw [a4 i, b4 i, s1, s3 i hi]

theorem alphaRun_sim (v : Nat) :
    ∀ (n : Nat) (o o1 o2 : OutBuf), AlphaSim o o1 → alphaRun v n o = .ok o2 →
      ∃ o3, alphaRun v n o1 = .ok o3 ∧ AlphaSim o2 o3 := by
  intro n
  induction n with
  | zero =>
    intro o o1 o2 hs h
    simp only [alphaRun, Except.ok.injEq] at h
    subst h
    exact ⟨o1, rfl, hs⟩
  | succ n ih =>
    intro o o1 o2 hs h
    simp only [alphaRun] at h
    cases hk : o.skip 3 with
    | error e => rw [hk] at h; cases h
    | ok o4 =>
      rw [hk] at h
      simp only at h
      obtain ⟨o5, e5, s5⟩ := alphaSlot_sim o o1 o4 v hs hk
      obtain ⟨o3, e3, s3⟩ := ih _ _ o2 s5 h
      refine ⟨o3, ?_, s3⟩
      simp only [alphaRun, e5]
      exact e3

theorem alphaLiterals_sim :
    ∀ (f : Nat) (io : List Nat) (o o1 : OutBuf) (res : List Nat × OutBuf), AlphaSim o o1 →
      alphaLiterals f io o = .ok res →
      ∃ o3, alphaLiterals f io o1 = .ok (res.1, o3) ∧ AlphaSim res.2 o3 := by
  intro f
  induction f with
  | zero =>
    intro io o o1 res hs h
    simp only [alphaLiterals, Except.ok.injEq] at h
    subst h
    exact ⟨o1, by simp only [alphaLiterals], hs⟩
  | succ f ih =>
    intro io o o1 res hs h
    cases io with
    | nil =>
      simp only [alphaLiterals, Except.ok.injEq] at h
      subst h
      exact ⟨o1, by simp only [alphaLiterals], hs⟩
    | cons a rest =>
      simp only [alphaLiterals] at h
      cases hk : o.skip 3 with
      | error e => rw [hk] at h; cases h
      | ok o4 =>
        rw [hk] at h
        simp only at h
        obtain ⟨o5, e5, s5⟩ := alphaSlot_sim o o1 o4 ((a % 256) ^^^ 0xFF) hs hk
        obtain ⟨o3, e3, s3⟩ := ih rest _ _ res s5 h
        refine ⟨o3, ?_, s3⟩
        simp only [alphaLiterals, e5]
        exact e3

theorem alphaStep_sim (io io1 : List Nat) (o o1 o2 : OutBuf) (hs : AlphaSim o o1)
    (h : alphaStep io o = .ok (io1, o2)) :
    ∃ o3, alphaStep io o1 = .ok (io1, o3) ∧ AlphaSim o2 o3 := by
  unfold alphaStep at h
  cases hr : read_u16_le io with
  | error e => rw [hr] at h; cases h
  | ok v =>
    obtain ⟨flag, io2⟩ := v
    rw [hr] at h
    simp only at h
    split_ifs at h with c
    · cases io2 with
      | nil => cases h
      | cons alpha io3 =>
        simp only at h
        cases ha : alphaRun ((alpha % 256) ^^^ 0xFF) ((flag &&& 0x7FFF) + 1) o with
        | error e => rw [ha] at h; cases h
        | ok o4 =>
          rw [ha] at h
          simp only [Except.ok.injEq, Prod.mk.injEq] at h
          obtain ⟨e1, e2⟩ := h
          subst e1 e2
          obtain ⟨o3, e3, s3⟩ := alphaRun_sim _ _ o o1 o4 hs ha
          refine ⟨o3, ?_, s3⟩
          unfold alphaStep
          rw [hr]
          simp only
          rw [if_pos c, e3]
    · obtain ⟨o3, e3, s3⟩ := alphaLiterals_sim flag io2 o o1 (io1, o2) hs h
      refine ⟨o3, ?_, s3⟩
      unfold alphaStep
      rw [hr]
      simp only
      rw [if_neg c]
      exact e3

theorem alphaLoop_sim :
    ∀ (fuel : Nat) (io : List Nat) (o o1 o2 : OutBuf), AlphaSim o o1 →
      alphaLoop fuel io o = .ok o2 → ∃ o3, alphaLoop fuel io o1 = .ok o3 ∧ AlphaSim o2 o3 := by
  intro fuel
  induction fuel with
  | zero =>
    intro io o o1 o2 hs h
    simp only [alphaLoop] at h
    split_ifs at h with c
    simp only [Except.ok.injEq] at h
    subst h
    exact ⟨o1, by simp only [alphaLoop]; rw [if_pos c], hs⟩
  | succ fuel ih =>
    intro io o o1 o2 hs h
    simp only [alphaLoop] at h
    split_ifs at h with c
    · simp only [Except.ok.injEq] at h
      subst h
      exact ⟨o1, by simp only [alphaLoop]; rw [if_pos c], hs⟩
    · cases hk : alphaStep io o with
      | error e => rw [hk] at h; cases h
      | ok v =>
        obtain ⟨io2, o4⟩ := v
        rw [hk] at h
        simp only at h
        obtain ⟨o5, e5, s5⟩ := alphaStep_sim io io2 o o1 o4 hs hk
        obtain ⟨o3, e3, s3⟩ := ih io2 o4 o5 o2 s5 h
        refine ⟨o3, ?_, s3⟩
        simp only [alphaLoop]
        rw [if_neg c, e5]
        exact e3

/-- The alpha pass on two streams it cannot tell apart: it succeeds on both or
on none, and the results cannot be told apart either. -/
theorem decompress_sgd_alpha_sim (input : List Nat) (o o1 o2 : OutBuf) (hs : AlphaSim o o1)
    (h : decompress_sgd_alpha input o = .ok o2) :
    ∃ o3, decompress_sgd_alpha input o1 = .ok o3 ∧ AlphaSim o2 o3 := by
  unfold decompress_sgd_alpha at h
  cases hl : alphaLoop (input.length + 1) input o with
  | error e => rw [hl] at h; cases h
  | ok o4 =>
    rw [hl] at h
    simp only at h
    have e := seek_zero o4 o2 h
    subst e
    obtain ⟨o5, e5, s5⟩ := alphaLoop_sim _ input o o1 o4 hs hl
    refine ⟨⟨o5.buffer, 0⟩, ?_, rfl, s5.2.1, s5.2.2⟩
    unfold decompress_sgd_alpha
    rw [e5]
    simp only [OutBuf.seek]
    rw [if_neg (by omega)]

/-- The alpha decoder never shortens the buffer. -/
theorem alphaStep_length (io io1 : List Nat) (o o1 : OutBuf) (hp : o.pos ≤ o.buffer.length)
    (h : alphaStep io o = .ok (io1, o1)) :
    o.buffer.length ≤ o1.buffer.length ∧ o1.pos ≤ o1.buffer.length := by
  unfold alphaStep at h
  cases hr : read_u16_le io with
  | error e => rw [hr] at h; cases h
  | ok v =>
    obtain ⟨flag, io2⟩ := v
    rw [hr] at h
    simp only at h
    split_ifs at h with c
    · cases io2 with
      | nil => cases h
      | cons alpha io3 =>
        simp only at h
        cases ha : alphaRun ((alpha % 256) ^^^ 0xFF) ((flag &&& 0x7FFF) + 1) o with
        | error e => rw [ha] at h; cases h
        | ok o2 =>
          rw [ha] at h
          simp only [Except.ok.injEq, Prod.mk.injEq] at h
          obtain ⟨e1, e2⟩ := h
          subst e1 e2
          obtain ⟨_, b2, b3, _⟩ := alphaRun_ok _ _ o o2 hp ha
          exact ⟨by omega, b2⟩
    · obtain ⟨_, _, b2, b3, _⟩ := alphaLiterals_ok flag io2 o (io1, o1) hp h
      simp only at b2 b3
      exact ⟨by omega, b2⟩

theorem alphaLoop_length :
    ∀ (fuel : Nat) (io : List Nat) (o o1 : OutBuf), o.pos ≤ o.buffer.length →
      alphaLoop fuel io o = .ok o1 → o.buffer.length ≤ o1.buffer.length := by
  intro fuel
  induction fuel with
  | zero =>
    intro io o o1 hp h
    simp only [alphaLoop] at h
    split_ifs at h
    simp only [Except.ok.injEq] at h
    subst h
    exact Nat.le_refl _
  | succ fuel ih =>
    intro io o o1 hp h
    simp only [alphaLoop] at h
    split_ifs at h
    · simp only [Except.ok.injEq] at h
      subst h
      exact Nat.le_refl _
    · cases hs : alphaStep io o with
      | error e => rw [hs] at h; cases h
      | ok v =>
        obtain ⟨io2, o2⟩ := v
        rw [hs] at h
        simp only at h
        obtain ⟨k1, k2⟩ := alphaStep_length io io2 o o2 hp hs
        exact Nat.le_trans k1 (ih io2 o2 o1 k2 h)

theorem writePixel_sim (o o1 o2 : OutBuf) (b g r : Nat) (hs : BgrSim o o1)
    (hp : o.pos ≤ o.buffer.length) (h : writePixel o b g r = .ok o2) :
    ∃ o3, writePixel o1 b g r = .ok o3 ∧ BgrSim o2 o3 := by
  obtain ⟨s1, s2, s3⟩ := hs
  obtain ⟨a1, a2, a3, a4⟩ := writePixel_ok o o2 b g r hp h
  have hp1 : o1.pos ≤ o1.buffer.length := by omega
  have e := writePixel_spec o1 b g r hp1
  rw [if_pos (by omega)] at e
  obtain ⟨b1, b2, b3, b4⟩ := writePixel_ok o1 _ b g r hp1 e
  refine ⟨_, e, by omega, by omega, ?_⟩
  intro i hi
  rw [a4 i, b4 i, s1, s3 i hi]

theorem deltaRun_sim :
    ∀ (n b g r : Nat) (io : List Nat) (o o1 : OutBuf) (res : List Nat × OutBuf),
      BgrSim o o1 → o.pos % 4 = 0 → o.pos ≤ o.buffer.length →
      deltaRun n b g r io o = .ok res →
      ∃ o3, deltaRun n b g r io o1 = .ok (res.1, o3) ∧ BgrSim res.2 o3 := by
  intro n
  induction n with
  | zero =>
    intro b g r io o o1 res hs _ _ h
    simp only [deltaRun, Except.ok.injEq] at h
    subst h
    exact ⟨o1, by simp only [deltaRun], hs⟩
  | succ n ih =>
    intro b g r io o o1 res hs h4 hp h
    simp only [deltaRun] at h
    cases hr : read_u16_le io with
    | error e => rw [hr] at h; cases h
    | ok v =>
      obtain ⟨delta, io1⟩ := v
      rw [hr] at h
      simp only at h
      split at h
      · cases h
      · rename_i o4 hw
        obtain ⟨o5, e5, s5⟩ := writePixel_sim o o1 o4 _ _ _ hs hp hw
        have k := writePixel_keeps o o4 _ _ _ h4 hp hw
        obtain ⟨o3, e3, s3⟩ := ih _ _ _ io1 o4 o5 res s5 k.1 k.2.1 h
        refine ⟨o3, ?_, s3⟩
        simp only [deltaRun, hr, e5]
        exact e3

/-- The reads of `decompress_sgd_bgr_strategy_1` spelled out: the base is the
three bytes at `cursor-4 .. cursor-2`, the cursor is back where it was when the
loop starts. -/
theorem strategy_1_eq (io : List Nat) (o : OutBuf) (flag : Nat)
    (hp : o.pos ≤ o.buffer.length) :
    decompress_sgd_bgr_strategy_1 io o flag
      = if 4 ≤ o.pos then
          deltaRun (flag &&& 0x3F) (o.buffer.getD (o.pos - 4) 0) (o.buffer.getD (o.pos - 3) 0)
            (o.buffer.getD (o.pos - 2) 0) io o
        else .error .eof := by
  unfold decompress_sgd_bgr_strategy_1
  rw [skip_back o hp]
  by_cases c : 4 ≤ o.pos
  · rw [if_pos c, if_pos c]
    simp only
    have r1 : OutBuf.read_u8 ⟨o.buffer, o.pos - 4⟩
        = .ok (o.buffer.getD (o.pos - 4) 0, ⟨o.buffer, o.pos - 4 + 1⟩) := by
      unfold OutBuf.read_u8
      rw [if_pos (show o.pos - 4 < o.buffer.length by omega)]
    have r2 : OutBuf.read_u8 ⟨o.buffer, o.pos - 4 + 1⟩
        = .ok (o.buffer.getD (o.pos - 3) 0, ⟨o.buffer, o.pos - 4 + 1 + 1⟩) := by
      unfold OutBuf.read_u8
      rw [if_pos (show o.pos - 4 + 1 < o.buffer.length by omega)]
      have e : o.pos - 4 + 1 = o.pos - 3 := by omega
      simp only [e]
    have r3 : OutBuf.read_u8 ⟨o.buffer, o.pos - 4 + 1 + 1⟩
        = .ok (o.buffer.getD (o.pos - 2) 0, ⟨o.buffer, o.pos - 4 + 1 + 1 + 1⟩) := by
      unfold OutBuf.read_u8
      rw [if_pos (show o.pos - 4 + 1 + 1 < o.buffer.length by omega)]
      have e : o.pos - 4 + 1 + 1 = o.pos - 2 := by omega
      simp only [e]
    rw [r1]
    simp only
    rw [r2]
    simp only
    rw [r3]
    simp only
    have es := skip_nat ⟨o.buffer, o.pos - 4 + 1 + 1 + 1⟩ 1
    simp only [Nat.cast_one] at es
    rw [es, if_pos (by omega)]
    simp only
    have ep : o.pos - 4 + 1 + 1 + 1 + 1 = o.pos := by omega
    rw [ep]
  · rw [if_neg c, if_neg c]

theorem strategy_1_sim (io : List Nat) (o o1 : OutBuf) (flag : Nat)
    (res : List Nat × OutBuf) (hs : BgrSim o o1) (h4 : o.pos % 4 = 0)
    (hp : o.pos ≤ o.buffer.length) (h : decompress_sgd_bgr_strategy_1 io o flag = .ok res) :
    ∃ o3, decompress_sgd_bgr_strategy_1 io o1 flag = .ok (res.1, o3) ∧ BgrSim res.2 o3 := by
  rw [strategy_1_eq io o flag hp] at h
  rw [strategy_1_eq io o1 flag (by have := hs.1; have := hs.2.1; omega), hs.1]
  by_cases c : 4 ≤ o.pos
  · rw [if_pos c] at h
    rw [if_pos c, getD_congr _ _ _ (hs.2.2 (o.pos - 4) (by omega)),
      getD_congr _ _ _ (hs.2.2 (o.pos - 3) (by omega)),
      getD_congr _ _ _ (hs.2.2 (o.pos - 2) (by omega))]
    exact deltaRun_sim _ _ _ _ io o o1 res hs h4 hp h
  · rw [if_neg c] at h; cases h

theorem repeatRun_sim (b g r : Nat) :
    ∀ (n : Nat) (o o1 o2 : OutBuf), BgrSim o o1 → o.pos % 4 = 0 → o.pos ≤ o.buffer.length →
      repeatRun b g r n o = .ok o2 → ∃ o3, repeatRun b g r n o1 = .ok o3 ∧ BgrSim o2 o3 := by
  intro n
  induction n with
  | zero =>
    intro o o1 o2 hs _ _ h
    simp only [repeatRun, Except.ok.injEq] at h
    subst h
    exact ⟨o1, by simp only [repeatRun], hs⟩
  | succ n ih =>
    intro o o1 o2 hs h4 hp h
    simp only [repeatRun] at h
    cases hw : writePixel o b g r with
    | error e => rw [hw] at h; cases h
    | ok o4 =>
      rw [hw] at h
      simp only at h
      obtain ⟨o5, e5, s5⟩ := writePixel_sim o o1 o4 _ _ _ hs hp hw
      have k := writePixel_keeps o o4 _ _ _ h4 hp hw
      obtain ⟨o3, e3, s3⟩ := ih o4 o5 o2 s5 k.1 k.2.1 h
      refine ⟨o3, ?_, s3⟩
      simp only [repeatRun, e5]
      exact e3

theorem strategy_2_sim (io : List Nat) (o o1 : OutBuf) (flag : Nat)
    (res : List Nat × OutBuf) (hs : BgrSim o o1) (h4 : o.pos % 4 = 0)
    (hp : o.pos ≤ o.buffer.length) (h : decompress_sgd_bgr_strategy_2 io o flag = .ok res) :
    ∃ o3, decompress_sgd_bgr_strategy_2 io o1 flag = .ok (res.1, o3) ∧ BgrSim res.2 o3 := by
  rcases io with _ | ⟨b, _ | ⟨g, _ | ⟨r, io1⟩⟩⟩
  · simp [decompress_sgd_bgr_strategy_2] at h
  · simp [decompress_sgd_bgr_strategy_2] at h
  · simp [decompress_sgd_bgr_strategy_2] at h
  · simp only [decompress_sgd_bgr_strategy_2] at h
    cases hr : repeatRun (b % 256) (g % 256) (r % 256) ((flag &&& 0x3F) + 1) o with
    | error e => rw [hr] at h; cases h
    | ok o4 =>
      rw [hr] at h
      simp only [Except.ok.injEq] at h
      subst h
      obtain ⟨o3, e3, s3⟩ := repeatRun_sim _ _ _ _ o o1 o4 hs h4 hp hr
      refine ⟨o3, ?_, s3⟩
      simp only [decompress_sgd_bgr_strategy_2, e3]

theorem strategy_3_sim :
    ∀ (n : Nat) (io : List Nat) (o o1 : OutBuf) (res : List Nat × OutBuf),
      BgrSim o o1 → o.pos % 4 = 0 → o.pos ≤ o.buffer.length →
      decompress_sgd_bgr_strategy_3 io o n = .ok res →
      ∃ o3, decompress_sgd_bgr_strategy_3 io o1 n = .ok (res.1, o3) ∧ BgrSim res.2 o3 := by
  intro n
  induction n with
  | zero =>
    intro io o o1 res hs _ _ h
    simp only [decompress_sgd_bgr_strategy_3, Except.ok.injEq] at h
    subst h
    exact ⟨o1, by simp only [decompress_sgd_bgr_strategy_3], hs⟩
  | succ n ih =>
    intro io o o1 res hs h4 hp h
    rcases io with _ | ⟨b, _ | ⟨g, _ | ⟨r, io1⟩⟩⟩
    · simp [decompress_sgd_bgr_strategy_3] at h
    · simp [decompress_sgd_bgr_strategy_3] at h
    · simp [decompress_sgd_bgr_strategy_3] at h
    · simp only [decompress_sgd_bgr_strategy_3] at h
      cases hw : writePixel o b g r with
      | error e => rw [hw] at h; cases h
      | ok o4 =>
        rw [hw] at h
        simp only at h
        obtain ⟨o5, e5, s5⟩ := writePixel_sim o o1 o4 _ _ _ hs hp hw
        have k := writePixel_keeps o o4 _ _ _ h4 hp hw
        obtain ⟨o3, e3, s3⟩ := ih io1 o4 o5 res s5 k.1 k.2.1 h
        refine ⟨o3, ?_, s3⟩
        simp only [decompress_sgd_bgr_strategy_3, e5]
        exact e3

theorem bgrStep_sim (io io1 : List Nat) (o o1 o2 : OutBuf) (hs : BgrSim o o1)
    (h4 : o.pos % 4 = 0) (hp : o.pos ≤ o.buffer.length)
    (h : bgrStep io o = .ok (io1, o2)) :
    ∃ o3, bgrStep io o1 = .ok (io1, o3) ∧ BgrSim o2 o3 := by
  cases io with
  | nil => simp [bgrStep] at h
  | cons f rest =>
    simp only [bgrStep] at h ⊢
    split_ifs at h ⊢ with c1 c2 c3
    · exact strategy_1_sim rest o o1 _ (io1, o2) hs h4 hp h
    · exact strategy_2_sim rest o o1 _ (io1, o2) hs h4 hp h
    · exact strategy_3_sim _ rest o o1 (io1, o2) hs h4 hp h

theorem bgrLoop_sim :
    ∀ (fuel : Nat) (io : List Nat) (o o1 o2 : OutBuf), BgrSim o o1 → o.pos % 4 = 0 →
      o.pos ≤ o.buffer.length → bgrLoop fuel io o = .ok o2 →
      ∃ o3, bgrLoop fuel io o1 = .ok o3 ∧ BgrSim o2 o3 := by
  intro fuel
  induction fuel with
  | zero =>
    intro io o o1 o2 hs _ _ h
    simp only [bgrLoop] at h
    split_ifs at h with c
    simp only [Except.ok.injEq] at h
    subst h
    exact ⟨o1, by simp only [bgrLoop]; rw [if_pos c], hs⟩
  | succ fuel ih =>
    intro io o o1 o2 hs h4 hp h
    simp only [bgrLoop] at h
    split_ifs at h with c
    · simp only [Except.ok.injEq] at h
      subst h
      exact ⟨o1, by simp only [bgrLoop]; rw [if_pos c], hs⟩
    · cases hk : bgrStep io o with
      | error e => rw [hk] at h; cases h
      | ok v =>
        obtain ⟨io2, o4⟩ := v
        rw [hk] at h
        simp only at h
        obtain ⟨o5, e5, s5⟩ := bgrStep_sim io io2 o o1 o4 hs h4 hp hk
        obtain ⟨k, _⟩ := bgrStep_keeps io io2 o o4 h4 hp hk
        obtain ⟨o3, e3, s3⟩ := ih io2 o4 o5 o2 s5 k.1 k.2.1 h
        refine ⟨o3, ?_, s3⟩
        simp only [bgrLoop]
        rw [if_neg c, e5]
        exact e3

/-- The colour pass on a stream that serves it as well as another on which it
succeeds: it succeeds as well, with a result that agrees in the colour bytes. -/
theorem decompress_sgd_bgr_sim (input : List Nat) (o o1 o2 : OutBuf) (hs : BgrSim o o1)
    (h4 : o.pos % 4 = 0) (hp : o.pos ≤ o.buffer.length)
    (h : decompress_sgd_bgr input o = .ok o2) :
    ∃ o3, decompress_sgd_bgr input o1 = .ok o3 ∧ BgrSim o2 o3 := by
  unfold decompress_sgd_bgr at h
  cases hl : bgrLoop (input.length + 1) input o with
  | error e => rw [hl] at h; cases h
  | ok o4 =>
    rw [hl] at h
    simp only at h
    have e := seek_zero o4 o2 h
    subst e
    obtain ⟨o5, e5, s5⟩ := bgrLoop_sim _ input o o1 o4 hs h4 hp hl
    refine ⟨⟨o5.buffer, 0⟩, ?_, rfl, s5.2.1, s5.2.2⟩
    unfold decompress_sgd_bgr
    rw [e5]
    simp only [OutBuf.seek]
    rw [if_neg (by omega)]

/-- C18: for every alpha sub-stream, every colour sub-stream and every initial
output buffer on which the alpha pass and the colour pass (each from cursor 0)
succeed, the colour pass succeeds on the result of the alpha pass, the alpha
pass succeeds on the result of the colour pass, and the two orders end with the
same output stream (the same buffer, the cursor at 0). -/
theorem sgd_passes_commute (alpha colour buf : List Nat) (oa oc : OutBuf)
    (ha : decompress_sgd_alpha alpha ⟨buf, 0⟩ = .ok oa)
    (hc : decompress_sgd_bgr colour ⟨buf, 0⟩ = .ok oc) :
    ∃ o, decompress_sgd_bgr colour oa = .ok o ∧ decompress_sgd_alpha alpha oc = .ok o := by
  obtain ⟨a1, a2⟩ := decompress_sgd_alpha_keeps alpha buf oa ha
  obtain ⟨c1, c2, c3⟩ := decompress_sgd_bgr_keeps colour buf oc hc
  have al : buf.length ≤ oa.buffer.length := by
    unfold decompress_sgd_alpha at ha
    cases hl : alphaLoop (alpha.length + 1) alpha ⟨buf, 0⟩ with
    | error e => rw [hl] at ha; cases ha
    | ok o2 =>
      rw [hl] at ha
      simp only at ha
      have e := seek_zero o2 oa ha
      subst e
      exact alphaLoop_length _ alpha ⟨buf, 0⟩ o2 (Nat.zero_le _) hl
  obtain ⟨oac, e1, s1⟩ := decompress_sgd_bgr_sim colour ⟨buf, 0⟩ oa oc ⟨a1, al, a2⟩ rfl
    (Nat.zero_le _) hc
  obtain ⟨oca, e2, s2⟩ := decompress_sgd_alpha_sim alpha ⟨buf, 0⟩ oc oa ⟨c1, c2, c3⟩ ha
  have eoa : oa = ⟨oa.buffer, 0⟩ := by rw [← a1]
  have eoc : oc = ⟨oc.buffer, 0⟩ := by rw [← c1]
  have k1 : oac.pos = 0 ∧ oac.buffer.length = oa.buffer.length ∧
      ∀ i, i % 4 = 3 → oac.buffer[i]? = oa.buffer[i]? := by
    rw [eoa] at e1
    exact decompress_sgd_bgr_keeps colour oa.buffer oac e1
  have k2 : oca.pos = 0 ∧ ∀ i, i % 4 ≠ 3 → oca.buffer[i]? = oc.buffer[i]? := by
    rw [eoc] at e2
    exact decompress_sgd_alpha_keeps alpha oc.buffer oca e2
  have eb : oac.buffer = oca.buffer := by
    apply List.ext_getElem?
    intro i
    by_cases c : i % 4 = 3
    · rw [k1.2.2 i c, s2.2.2 i c]
    · rw [s1.2.2 i c, k2.2 i c]
  have e : oac = oca := by
    cases oac
    cases oca
    simp only at eb k1 k2
    simp only [OutBuf.mk.injEq]
    exact ⟨eb, by rw [k1.1, k2.1]⟩
  exact ⟨oac, e1, by rw [e]; exact e2⟩

theorem sgd_passes_commute_witness :
    ∃ o, decompress_sgd_bgr [0x01, 1, 2, 3, 0x81, 0x21, 0x84]
          ⟨[0, 0, 0, 0xFA, 0, 0, 0, 9], 0⟩ = .ok o ∧
      decompress_sgd_alpha [1, 0, 5] ⟨[1, 2, 3, 0, 2, 3, 4, 9], 0⟩ = .ok o :=
  sgd_passes_commute [1, 0, 5] [0x01, 1, 2, 3, 0x81, 0x21, 0x84] [0, 0, 0, 0, 0, 0, 0, 9]
    ⟨[0, 0, 0, 0xFA, 0, 0, 0, 9], 0⟩ ⟨[1, 2, 3, 0, 2, 3, 4, 9], 0⟩ rfl rfl

/-! ## The mask of `decompress_vsp` -/

/-- What an opcode does to the mask depends on the opcode byte alone. -/
theorem opcode_mask (height plane : Nat) (bp : Buf) (s s1 : PlaneState)
    (h : opcode height plane bp s = .ok s1) :
    ∃ c rest, s.input_io = c :: rest ∧ s1.mask = maskAfter (c % 256) s.mask := by
  unfold opcode at h
  cases r0 : read_u8 s.input_io with
  | error e => rw [r0] at h; cases h
  | ok v0 =>
    obtain ⟨c, io1⟩ := v0
    obtain ⟨c0, hio, hc⟩ := read_u8_ok _ _ _ r0
    rw [r0] at h
    simp only at h
    refine ⟨c0, io1, hio, ?_⟩
    rw [← hc]
    unfold maskAfter
    split_ifs at h with h0 h1 h2 h3 h6 h7
    · cases r1 : read_u8 io1 with
      | error e => rw [r1] at h; cases h
      | ok v1 =>
        rw [r1] at h
        simp only [Except.ok.injEq] at h
        subst h
        rw [if_neg (by omega), if_neg (by omega)]
    · cases r1 : read_u8 io1 with
      | error e => rw [r1] at h; cases h
      | ok v1 =>
        rw [r1] at h
        simp only at h
        cases r2 : read_u8 v1.2 with
        | error e => rw [r2] at h; cases h
        | ok v2 =>
          rw [r2] at h
          simp only [Except.ok.injEq] at h
          subst h
          rw [if_neg (by omega), if_neg (by omega)]
    · cases r1 : read_u8 io1 with
      | error e => rw [r1] at h; cases h
      | ok v1 =>
        rw [r1] at h
        simp only at h
        cases r2 : read_u8 v1.2 with
        | error e => rw [r2] at h; cases h
        | ok v2 =>
          rw [r2] at h
          simp only at h
          cases r3 : read_u8 v2.2 with
          | error e => rw [r3] at h; cases h
          | ok v3 =>
            rw [r3] at h
            simp only [Except.ok.injEq] at h
            subst h
            rw [if_neg (by omega), if_neg (by omega)]
    · cases r1 : read_u8 io1 with
      | error e => rw [r1] at h; cases h
      | ok v1 =>
        rw [r1] at h
        simp only [Except.ok.injEq] at h
        subst h
        rw [if_pos h3]
    · simp only [Except.ok.injEq] at h
      subst h
      rw [if_neg h3, if_pos h6]
    · cases r1 : read_u8 io1 with
      | error e => rw [r1] at h; cases h
      | ok v1 =>
        rw [r1] at h
        simp only [Except.ok.injEq] at h
        subst h
        rw [if_neg h3, if_neg h6]
    · simp only [Except.ok.injEq] at h
      subst h
      rw [if_neg h3, if_neg h6]

theorem maskAfter_two (c mask : Nat) (h : mask = 0 ∨ mask = 0xFF) :
    maskAfter c mask = 0 ∨ maskAfter c mask = 0xFF := by
  unfold maskAfter
  split_ifs
  · exact Or.inl rfl
  · exact Or.inr rfl
  · exact h

theorem decodePlane_mask (height plane : Nat) (bp : Buf) :
    ∀ (fuel : Nat) (s s1 : PlaneState), decodePlane height plane bp fuel s = .ok s1 →
      (s.mask = 0 ∨ s.mask = 0xFF) → (s1.mask = 0 ∨ s1.mask = 0xFF) := by
  intro fuel
  induction fuel with
  | zero =>
    intro s s1 h hm
    simp only [decodePlane] at h
    split_ifs at h with c
    simp only [Except.ok.injEq] at h
    subst h
    exact hm
  | succ fuel ih =>
    intro s s1 h hm
    simp only [decodePlane] at h
    split_ifs at h with c
    · cases ho : opcode height plane bp s with
      | error e => rw [ho] at h; cases h
      | ok s2 =>
        rw [ho] at h
        simp only at h
        obtain ⟨c0, rest, _, e⟩ := opcode_mask height plane bp s s2 ho
        exact ih s2 s1 h (by rw [e]; exact maskAfter_two _ _ hm)
    · simp only [Except.ok.injEq] at h
      subst h
      exact hm

theorem decodePlanes_mask (height : Nat) (bp : Buf) :
    ∀ (ps : List Nat) (io : List Nat) (bc : Buf) (mask : Nat) (res : List Nat × Buf × Nat),
      decodePlanes height bp ps io bc mask = .ok res → (mask = 0 ∨ mask = 0xFF) →
      (res.2.2 = 0 ∨ res.2.2 = 0xFF) := by
  intro ps
  induction ps with
  | nil =>
    intro io bc mask res h hm
    simp only [decodePlanes, Except.ok.injEq] at h
    subst h
    exact hm
  | cons plane ps ih =>
    intro io bc mask res h hm
    simp only [decodePlanes] at h
    cases hd : decodePlane height plane bp (io.length + 1) ⟨io, bc, mask, 0⟩ with
    | error e => rw [hd] at h; cases h
    | ok s =>
      rw [hd] at h
      simp only at h
      exact ih _ _ _ res h (decodePlane_mask height plane bp _ _ s hd hm)

/-- The loop over the planes `ps1 ++ ps2` is the loop over `ps1` followed by the
loop over `ps2`, entered with the stream, the buffer and the mask that the first
loop left. -/
theorem decodePlanes_append (height : Nat) (bp : Buf) (ps2 : List Nat) :
    ∀ (ps1 : List Nat) (io : List Nat) (bc : Buf) (mask : Nat),
      decodePlanes height bp (ps1 ++ ps2) io bc mask
        = match decodePlanes height bp ps1 io bc mask with
          | .error e => .error e
          | .ok res => decodePlanes height bp ps2 res.1 res.2.1 res.2.2 := by
  intro ps1
  induction ps1 with
  | nil => intro io bc mask; rfl
  | cons plane ps ih =>
    intro io bc mask
    simp only [List.cons_append, decodePlanes]
    cases hd : decodePlane height plane bp (io.length + 1) ⟨io, bc, mask, 0⟩ with
    | error e => rfl
    | ok s => exact ih _ _ _

theorem vspAfter_mask (buf1 buf2 : Buf) (input_io : List Nat) (width height : Nat) :
    ∀ (k : Nat) (s : VspState), vspAfter buf1 buf2 input_io width height k = .ok s →
      (s.mask = 0 ∨ s.mask = 0xFF) ∧ (k = 0 → s.mask = 0) := by
  intro k
  induction k with
  | zero =>
    intro s h
    simp only [vspAfter, List.range_zero, decodeStrips, Except.ok.injEq] at h
    subst h
    exact ⟨Or.inl rfl, fun _ => rfl⟩
  | succ k ih =>
    intro s h
    rw [vspAfter_succ] at h
    cases hk : vspAfter buf1 buf2 input_io width height k with
    | error e => rw [hk] at h; cases h
    | ok s0 =>
      rw [hk] at h
      simp only at h
      obtain ⟨res, e1, _, _, _, e5⟩ := decodeStrip_planes width height k s0 s h
      refine ⟨?_, fun c => absurd c (Nat.succ_ne_zero k)⟩
      rw [e5]
      exact decodePlanes_mask height s0.bp _ _ _ _ res e1 (ih s0 hk).1

/-- C19, counterexample: width 8, height 1, stream `01 00 FF | 06 09 | 03 00 | 55`.
Plane 1 is `06 09`: the mask is set and the literal completes the plane.  The
decode of plane 2 starts with the mask `0xFF`, and its opcode `03 00` writes
`0xFF XOR 0xFF = 0`, where it would write `0xFF` were the mask 0 at the start of
the plane. -/
theorem vsp_mask_plane_start_counterexample :
    ∃ s res st st0,
      vspAfter (fun _ _ => 0) (fun _ _ => 0) [1, 0, 0xFF, 6, 9, 3, 0, 0x55] 8 1 0 = .ok s ∧
      decodePlanes 1 s.bp (List.range 2) s.input_io s.bc s.mask = .ok res ∧
      res.1 = [3, 0, 0x55] ∧ res.2.2 = 0xFF ∧
      decodePlane 1 2 s.bp (res.1.length + 1) ⟨res.1, res.2.1, res.2.2, 0⟩ = .ok st ∧
      st.bc 0 2 = 0 ∧
      decodePlane 1 2 s.bp (res.1.length + 1) ⟨res.1, res.2.1, 0, 0⟩ = .ok st0 ∧
      st0.bc 0 2 = 0xFF ∧
      decompress_vsp (fun _ _ => 0) (fun _ _ => 0) [1, 0, 0xFF, 6, 9, 3, 0, 0x55] 8 1
        = .ok ([1, 9, 1, 9, 3, 9, 1, 11], []) :=
  ⟨_, _, _, _, rfl, rfl, rfl, rfl, rfl, rfl, rfl, rfl, rfl⟩

/-- C19, amended: the mask is one variable of the whole call and no plane or
strip boundary resets it.  For every decode that gets to strip `k`:
* the mask with which strip `k` starts is 0 or 0xFF, and it is 0 for `k = 0`;
* the decode of plane `plane` of strip `k` starts with the mask that the planes
  before it left (`res.2.2`), which is 0 or 0xFF, and what it leaves is the mask
  of the planes up to `plane`;
* strip `k + 1` starts with the mask that the four planes of strip `k` left;
* every opcode leaves the mask `maskAfter c mask`: 0 after 0x03, 0x04, 0x05,
  0xFF after 0x06, the mask it found after any other opcode byte `c`;
* an opcode 0x03, 0x04, 0x05 writes `bc[y][c-3] XOR mask` with the mask it
  finds, whichever opcode, plane or strip set it.
So a 0x06 opcode acts on the next 0x03/0x04/0x05 opcode of the stream, also when
that one belongs to a later plane or a later strip. -/
theorem vsp_mask_carried (buf1 buf2 : Buf) (input_io : List Nat) (width height k : Nat)
    (s : VspState) (h : vspAfter buf1 buf2 input_io width height k = .ok s) :
    (s.mask = 0 ∨ s.mask = 0xFF) ∧ (k = 0 → s.mask = 0) ∧
    (∀ plane res,
      decodePlanes height s.bp (List.range plane) s.input_io s.bc s.mask = .ok res →
      (res.2.2 = 0 ∨ res.2.2 = 0xFF) ∧
      decodePlanes height s.bp (List.range (plane + 1)) s.input_io s.bc s.mask
        = match decodePlane height plane s.bp (res.1.length + 1)
              ⟨res.1, res.2.1, res.2.2, 0⟩ with
          | .error e => .error e
          | .ok st => .ok (st.input_io, st.bc, st.mask)) ∧
    (∀ s1, vspAfter buf1 buf2 input_io width height (k + 1) = .ok s1 →
      decodePlanes height s.bp (List.range 4) s.input_io s.bc s.mask
        = .ok (s1.input_io, s1.bp, s1.mask)) ∧
    (∀ plane bp st st1, opcode height plane bp st = .ok st1 →
      ∃ c rest, st.input_io = c :: rest ∧ st1.mask = maskAfter (c % 256) st.mask) ∧
    (∀ plane bp bc mask y n c rest, y ≤ height → n < 256 → (c = 0x03 ∨ c = 0x04 ∨ c = 0x05) →
      opcode height plane bp ⟨c :: n :: rest, bc, mask, y⟩
        = .ok ⟨rest,
            fun r p => if p = plane ∧ y ≤ r ∧ r < min (y + (n + 1)) height
              then (bc r (c - 3) ^^^ mask) % 256 else bc r p,
            0, min (y + (n + 1)) height⟩) := by
  obtain ⟨m1, m2⟩ := vspAfter_mask buf1 buf2 input_io width height k s h
  refine ⟨m1, m2, ?_, ?_, ?_, ?_⟩
  · intro plane res hres
    refine ⟨decodePlanes_mask height s.bp _ _ _ _ res hres m1, ?_⟩
    rw [List.range_succ, decodePlanes_append, hres]
    simp only [decodePlanes]
  · intro s1 h1
    rw [vspAfter_succ, h] at h1
    simp only at h1
    obtain ⟨res, e1, e2, e3, _, e5⟩ := decodeStrip_planes width height k s s1 h1
    rw [e1, e2, e3, e5]
  · intro plane bp st st1 ho
    exact opcode_mask height plane bp st st1 ho
  · intro plane bp bc mask y n c rest hy hn hc
    exact opcode_xor height plane bp bc mask y n c rest hy hn hc

/-- Width 16, height 1, stream `09 09 09 06 09 | 09 03 00 09 09`.  Plane 3 of
strip 0 is `06 09`: the mask is set and the literal completes the strip.  Strip 1
starts with the mask `0xFF`; its plane 0 is the literal `09`, so plane 1 starts
with the mask `0xFF` too, and its opcode `03 00` writes `0x09 XOR 0xFF = 0xF6` and
resets the mask. -/
theorem vsp_mask_carried_witness :
    ∃ s res s1,
      vspAfter (fun _ _ => 0) (fun _ _ => 0) [9, 9, 9, 6, 9, 9, 3, 0, 9, 9] 16 1 1 = .ok s ∧
      s.input_io = [9, 3, 0, 9, 9] ∧ s.mask = 0xFF ∧
      (s.mask = 0 ∨ s.mask = 0xFF) ∧
      decodePlanes 1 s.bp (List.range 1) s.input_io s.bc s.mask = .ok res ∧
      res.1 = [3, 0, 9, 9] ∧ res.2.2 = 0xFF ∧
      (res.2.2 = 0 ∨ res.2.2 = 0xFF) ∧
      decodePlanes 1 s.bp (List.range (1 + 1)) s.input_io s.bc s.mask
        = (match decodePlane 1 1 s.bp (res.1.length + 1) ⟨res.1, res.2.1, res.2.2, 0⟩ with
          | .error e => .error e
          | .ok st => .ok (st.input_io, st.bc, st.mask)) ∧
      vspAfter (fun _ _ => 0) (fun _ _ => 0) [9, 9, 9, 6, 9, 9, 3, 0, 9, 9] 16 1 (1 + 1)
        = .ok s1 ∧
      decodePlanes 1 s.bp (List.range 4) s.input_io s.bc s.mask
        = .ok (s1.input_io, s1.bp, s1.mask) ∧
      s1.bp 0 0 = 9 ∧ s1.bp 0 1 = 0xF6 ∧ s1.mask = 0 ∧
      (∃ c rest, ([6, 9] : List Nat) = c :: rest ∧ 0xFF = maskAfter (c % 256) 0) ∧
      opcode 1 1 s.bp ⟨3 :: 0 :: [9, 9], res.2.1, 0xFF, 0⟩
        = .ok ⟨[9, 9],
            fun r p => if p = 1 ∧ 0 ≤ r ∧ r < min (0 + (0 + 1)) 1
              then (res.2.1 r (3 - 3) ^^^ 0xFF) % 256 else res.2.1 r p,
            0, min (0 + (0 + 1)) 1⟩ := by
  refine ⟨_, _, _, rfl, rfl, rfl, ?_, rfl, rfl, rfl, ?_, ?_, rfl, ?_, rfl, rfl, rfl, ?_, ?_⟩
  · exact (vsp_mask_carried (fun _ _ => 0) (fun _ _ => 0) [9, 9, 9, 6, 9, 9, 3, 0, 9, 9]
      16 1 1 _ rfl).1
  · exact ((vsp_mask_carried (fun _ _ => 0) (fun _ _ => 0) [9, 9, 9, 6, 9, 9, 3, 0, 9, 9]
      16 1 1 _ rfl).2.2.1 1 _ rfl).1
  · exact ((vsp_mask_carried (fun _ _ => 0) (fun _ _ => 0) [9, 9, 9, 6, 9, 9, 3, 0, 9, 9]
      16 1 1 _ rfl).2.2.1 1 _ rfl).2
  · exact (vsp_mask_carried (fun _ _ => 0) (fun _ _ => 0) [9, 9, 9, 6, 9, 9, 3, 0, 9, 9]
      16 1 1 _ rfl).2.2.2.1 _ rfl
  · exact (vsp_mask_carried (fun _ _ => 0) (fun _ _ => 0) [9, 9, 9, 6, 9, 9, 3, 0, 9, 9]
      16 1 1 _ rfl).2.2.2.2.1 3 (fun _ _ => 0) ⟨[6, 9], fun _ _ => 0, 0, 0⟩
      ⟨[9], fun _ _ => 0, 0xFF, 0⟩ rfl
  · exact (vsp_mask_carried (fun _ _ => 0) (fun _ _ => 0) [9, 9, 9, 6, 9, 9, 3, 0, 9, 9]
      16 1 1 _ rfl).2.2.2.2.2 1 _ _ 0xFF 0 0 3 [9, 9] (by decide) (by decide) (by decide)

/-! ## A strip copied from the previous one -/

theorem copyPlane_length : ∀ ks : List Nat, (copyPlane ks).length = 2 * ks.length := by
  intro ks
  induction ks with
  | nil => rfl
  | cons k ks ih =>
    simp only [copyPlane, List.length_cons, ih]
    omega

/-- The decode of a plane that is encoded by copy opcodes only: the rows from
`y` on of the plane are those of the "previous" buffer, the mask stays, the
stream is left behind the opcodes. -/
theorem decodePlane_copy (height plane : Nat) (bp : Buf) :
    ∀ (ks : List Nat) (fuel y : Nat) (bc : Buf) (mask : Nat) (tail : List Nat),
      copyCovers ks (height - y) = true → y ≤ height → ks.length < fuel →
      ∃ st, decodePlane height plane bp fuel ⟨copyPlane ks ++ tail, bc, mask, y⟩ = .ok st ∧
        st.input_io = tail ∧ st.mask = mask ∧
        ∀ r p, st.bc r p
          = if p = plane ∧ y ≤ r ∧ r < height then bp r plane % 256 else bc r p := by
  intro ks
  induction ks with
  | nil =>
    intro fuel y bc mask tail hc hy hf
    simp only [copyCovers, decide_eq_true_eq] at hc
    obtain ⟨f, rfl⟩ : ∃ f, fuel = f + 1 := ⟨fuel - 1, by omega⟩
    refine ⟨⟨tail, bc, mask, y⟩, ?_, rfl, rfl, ?_⟩
    · simp only [decodePlane, copyPlane, List.nil_append]
      rw [if_neg (by omega)]
    · intro r p
      rw [if_neg (by omega)]
  | cons k ks ih =>
    intro fuel y bc mask tail hc hy hf
    simp only [copyCovers, Bool.and_eq_true, decide_eq_true_eq] at hc
    obtain ⟨c1, c2, c3⟩ := hc
    simp only [List.length_cons] at hf
    obtain ⟨f, rfl⟩ : ∃ f, fuel = f + 1 := ⟨fuel - 1, by omega⟩
    have e : height - min (y + (k + 1)) height = height - y - (k + 1) := by omega
    obtain ⟨st, h1, h2, h3, h4⟩ := ih f (min (y + (k + 1)) height)
      (fun r p => if p = plane ∧ y ≤ r ∧ r < min (y + (k + 1)) height
        then bp r plane % 256 else bc r p) mask tail (by rw [e]; exact c3) (by omega) (by omega)
    refine ⟨st, ?_, h2, h3, ?_⟩
    · simp only [decodePlane, copyPlane, List.cons_append]
      rw [if_pos (by omega), opcode_copy height plane bp bc mask y k _ hy c2]
      exact h1
    · intro r p
      rw [h4 r p]
      by_cases a : p = plane ∧ min (y + (k + 1)) height ≤ r ∧ r < height
      · rw [if_pos a, if_pos ⟨a.1, by omega, a.2.2⟩]
      · rw [if_neg a]
        by_cases b : p = plane ∧ y ≤ r ∧ r < min (y + (k + 1)) height
        · rw [if_pos b, if_pos ⟨b.1, b.2.1, by omega⟩]
        · rw [if_neg b, if_neg (by omega)]

/-- The decode of the planes `ps` when each is encoded by copy opcodes only:
their columns become those of the "previous" buffer. -/
theorem decodePlanes_copy (height : Nat) (bp : Buf) :
    ∀ (ps : List Nat) (kss : List (List Nat)) (tail : List Nat) (bc : Buf) (mask : Nat),
      kss.length = ps.length → (∀ ks ∈ kss, copyCovers ks height = true) →
      ∃ bc1, decodePlanes height bp ps (copyPlanes kss ++ tail) bc mask
          = .ok (tail, bc1, mask) ∧
        ∀ r p, bc1 r p = if p ∈ ps ∧ r < height then bp r p % 256 else bc r p := by
  intro ps
  induction ps with
  | nil =>
    intro kss tail bc mask hl _
    have : kss = [] := List.length_eq_zero.mp hl
    subst this
    refine ⟨bc, rfl, ?_⟩
    intro r p
    rw [if_neg (by simp)]
  | cons plane ps ih =>
    intro kss tail bc mask hl hc
    cases kss with
    | nil => simp at hl
    | cons ks kss =>
      simp only [List.length_cons, Nat.add_right_cancel_iff] at hl
      have c0 := hc ks (List.mem_cons_self _ _)
      have hlen : ks.length
          < (copyPlane ks ++ (copyPlanes kss ++ tail)).length + 1 := by
        rw [List.length_append, copyPlane_length]
        omega
      obtain ⟨st, h1, h2, h3, h4⟩ := decodePlane_copy height plane bp ks _ 0 bc mask
        (copyPlanes kss ++ tail) c0 (Nat.zero_le _) hlen
      obtain ⟨bc1, g1, g2⟩ := ih kss tail st.bc mask hl
        (fun x hx => hc x (List.mem_cons_of_mem _ hx))
      refine ⟨bc1, ?_, ?_⟩
      · simp only [copyPlanes, List.append_assoc, decodePlanes]
        rw [h1]
        simp only
        rw [h2, h3]
        exact g1
      · intro r p
        rw [g2 r p, h4 r p]
        by_cases a : p ∈ ps ∧ r < height
        · rw [if_pos a, if_pos ⟨List.mem_cons_of_mem _ a.1, a.2⟩]
        · rw [if_neg a]
          by_cases b : p = plane ∧ 0 ≤ r ∧ r < height
          · rw [if_pos b, if_pos ⟨by rw [b.1]; exact List.mem_cons_self _ _, b.2.2⟩, b.1]
          · rw [if_neg b, if_neg]
            intro c
            rw [List.mem_cons] at c
            rcases c.1 with c1 | c1
            · exact b ⟨c1, Nat.zero_le _, c.2⟩
            · exact a ⟨c1, c.2⟩

/-- C20: for every successful `decompress_vsp` call and every strip `x` with
`1 <= x < width / 8` (so the width is a multiple of 8 and at least 16, and the
height at least 1 for there to be a row): when strip `x` begins the "previous"
buffer `bp` holds the decoded plane columns of strip `x - 1` (`stripPlanes`),
those from which the output pixels of strip `x - 1` were packed; and if the
stream at that point encodes each of the four planes of strip `x` by `0x00`
opcodes only (`copyPlanes kss` with `copyCovers`), then for every row `y` and
column `j` in 0..7 the output pixel `(8x + j, y)` equals the output pixel
`(8(x-1) + j, y)`. -/
theorem vsp_copy_strip (buf1 buf2 : Buf) (input_io : List Nat) (width height : Nat)
    (out rest : List Nat) (x : Nat) (kss : List (List Nat)) (tail : List Nat)
    (h : decompress_vsp buf1 buf2 input_io width height = .ok (out, rest))
    (hx1 : 1 ≤ x) (hx : x < width / 8)
    (hk : kss.length = 4) (hc : ∀ ks ∈ kss, copyCovers ks height = true)
    (hs : ∃ s, vspAfter buf1 buf2 input_io width height x = .ok s ∧
      s.input_io = copyPlanes kss ++ tail) :
    16 ≤ width ∧ width % 8 = 0 ∧
    (∃ s, vspAfter buf1 buf2 input_io width height x = .ok s ∧
      s.bp = stripPlanes buf1 buf2 input_io width height (x - 1) ∧
      ∀ y j, y < height → j < 8 →
        out.getD (y * width + (x - 1) * 8 + j) 0 = packPixel s.bp y j 0) ∧
    ∀ y j, y < height → j < 8 →
      out.getD (y * width + x * 8 + j) 0 = out.getD (y * width + (x - 1) * 8 + j) 0 := by
  obtain ⟨s, hs1, hs2⟩ := hs
  have hx0 : x - 1 + 1 = x := by omega
  have hw := (decompress_vsp_ok buf1 buf2 input_io width height out rest h).1
  have prev : ∀ y j, y < height → j < 8 →
      out.getD (y * width + (x - 1) * 8 + j) 0 = packPixel s.bp y j 0 := by
    intro y j hy hj
    obtain ⟨s0, e0, p0⟩ := decompress_vsp_pixel buf1 buf2 input_io width height out rest h
      (x - 1) y j (by omega) hy hj
    rw [hx0, hs1] at e0
    simp only [Except.ok.injEq] at e0
    rw [p0, e0]
  refine ⟨by omega, hw, ⟨s, hs1, ?_, prev⟩, ?_⟩
  · unfold stripPlanes
    rw [hx0, hs1]
  · intro y j hy hj
    obtain ⟨s1, e1, p1⟩ := decompress_vsp_pixel buf1 buf2 input_io width height out rest h
      x y j hx hy hj
    rw [vspAfter_succ, hs1] at e1
    simp only at e1
    obtain ⟨res, d1, _, d3, _, _⟩ := decodeStrip_planes width height x s s1 e1
    obtain ⟨bc1, g1, g2⟩ := decodePlanes_copy height s.bp (List.range 4) kss tail s.bc s.mask
      (by rw [hk]; rfl) hc
    rw [hs2, g1] at d1
    simp only [Except.ok.injEq] at d1
    have bytes : ∀ r, r < height → ∀ p, p < 4 → s.bp r p < 256 := by
      have hprev := hs1
      rw [← hx0, vspAfter_succ] at hprev
      cases hq : vspAfter buf1 buf2 input_io width height (x - 1) with
      | error e => rw [hq] at hprev; cases hprev
      | ok sq =>
        rw [hq] at hprev
        simp only at hprev
        exact decodeStrip_bytes width height (x - 1) sq s hprev
    rw [p1, prev y j hy hj]
    apply packPixel_congr
    intro i hi
    rw [d3, ← d1]
    simp only
    rw [g2 y i, if_pos ⟨by rw [range_four]; revert hi; revert i; decide, hy⟩]
    exact Nat.mod_eq_of_lt (bytes y hy i hi)

theorem vsp_copy_strip_witness :
    decompress_vsp (fun _ _ => 0) (fun _ _ => 0)
        [1, 1, 0xF0, 1, 1, 0x0F, 1, 1, 0xAA, 1, 1, 0x55, 0, 1, 0, 0, 0, 0, 0, 5, 0, 1, 0x77] 16 2
      = .ok ([5, 9, 5, 9, 6, 10, 6, 10, 5, 9, 5, 9, 6, 10, 6, 10,
          5, 9, 5, 9, 6, 10, 6, 10, 5, 9, 5, 9, 6, 10, 6, 10], [0x77]) ∧
    ([5, 9, 5, 9, 6, 10, 6, 10, 5, 9, 5, 9, 6, 10, 6, 10,
      5, 9, 5, 9, 6, 10, 6, 10, 5, 9, 5, 9, 6, 10, 6, 10] : List Nat).getD
        (1 * 16 + 1 * 8 + 5) 0
      = ([5, 9, 5, 9, 6, 10, 6, 10, 5, 9, 5, 9, 6, 10, 6, 10,
          5, 9, 5, 9, 6, 10, 6, 10, 5, 9, 5, 9, 6, 10, 6, 10] : List Nat).getD
        (1 * 16 + (1 - 1) * 8 + 5) 0 :=
  ⟨rfl, (vsp_copy_strip (fun _ _ => 0) (fun _ _ => 0)
    [1, 1, 0xF0, 1, 1, 0x0F, 1, 1, 0xAA, 1, 1, 0x55, 0, 1, 0, 0, 0, 0, 0, 5, 0, 1, 0x77] 16 2
    [5, 9, 5, 9, 6, 10, 6, 10, 5, 9, 5, 9, 6, 10, 6, 10,
      5, 9, 5, 9, 6, 10, 6, 10, 5, 9, 5, 9, 6, 10, 6, 10] [0x77] 1 [[1], [0, 0], [5], [1]] [0x77]
    rfl (by decide) (by decide) rfl (by decide) ⟨_, rfl, rfl⟩).2.2.2 1 5 (by decide) (by decide)⟩

/-! ## The pack step is a planar-to-chunky conversion -/

/-- A number below 16 is the sum of its four lowest bits. -/
theorem nibble_bits : ∀ p, p < 16 →
    p = (p.testBit 0).toNat + 2 * (p.testBit 1).toNat + 4 * (p.testBit 2).toNat
      + 8 * (p.testBit 3).toNat := by
  decide

/-- The part `byte >> (8 - i)` of a component lies below bit `i`: it has no bit
at a position the pack step selects. -/
theorem component_low_part (b i k : Nat) (hb : b < 256) (hi : i < 4) (hk : i ≤ k) :
    (b >>> (8 - i)).testBit k = false := by
  apply Nat.testBit_lt_two_pow
  have h1 : b >>> (8 - i) < 2 ^ i := by
    rw [Nat.shiftRight_eq_div_pow, Nat.div_lt_iff_lt_mul (Nat.two_pow_pos _), ← Nat.pow_add]
    have : i + (8 - i) = 8 := by omega
    rw [this]
    exact hb
  exact Nat.lt_of_lt_of_le h1 (Nat.pow_le_pow_right (by decide) hk)

/-- C21: for every successful `decompress_vsp` call, every strip `x`, row `y`,
column `j` in 0..7 and plane `i` in 0..3, with `current` the decoded plane bytes
of strip `x` (the `bp` of the state after `x + 1` strips, bytes below 256):
bit `i` of the output pixel `(8x + j, y)` is bit `7 - j + i` of
`component[i] = (current[y][i] << i) | (current[y][i] >> (8 - i))`, which is bit
`7 - j + i` of the part `current[y][i] << i` alone (the part
`current[y][i] >> (8 - i)` has no bit there), that is bit `7 - j` of the
unrotated byte `current[y][i]`; and the whole pixel is `chunkyPixel`, the number
whose bits 0..3 are the bits `7 - j` of the four plane bytes. -/
theorem vsp_pixel_plane_bits (buf1 buf2 : Buf) (input_io : List Nat)
    (width height : Nat) (out rest : List Nat)
    (h : decompress_vsp buf1 buf2 input_io width height = .ok (out, rest))
    (x y j i : Nat) (hx : x < width / 8) (hy : y < height) (hj : j < 8) (hi : i < 4) :
    ∃ s, vspAfter buf1 buf2 input_io width height (x + 1) = .ok s ∧
      s.bp y i < 256 ∧
      (out.getD (y * width + x * 8 + j) 0).testBit i = (s.bp y i).testBit (7 - j) ∧
      (out.getD (y * width + x * 8 + j) 0).testBit i
        = (component s.bp y i).testBit (7 - j + i) ∧
      (component s.bp y i).testBit (7 - j + i) = (s.bp y i <<< i).testBit (7 - j + i) ∧
      (s.bp y i >>> (8 - i)).testBit (7 - j + i) = false ∧
      out.getD (y * width + x * 8 + j) 0 = chunkyPixel s.bp y j := by
  obtain ⟨s, hs, hp⟩ :=
    decompress_vsp_pixel buf1 buf2 input_io width height out rest h x y j hx hy hj
  have bytes : ∀ p, p < 4 → s.bp y p < 256 := by
    have hs1 := hs
    rw [vspAfter_succ] at hs1
    cases hq : vspAfter buf1 buf2 input_io width height x with
    | error e => rw [hq] at hs1; cases hs1
    | ok sq =>
      rw [hq] at hs1
      simp only at hs1
      exact fun p hp4 => decodeStrip_bytes width height x sq s hs1 y hy p hp4
  have bit : ∀ p, p < 4 →
      (out.getD (y * width + x * 8 + j) 0).testBit p = (s.bp y p).testBit (7 - j) := by
    intro p hp4
    rw [hp, packPixel_testBit _ _ _ _ hp4, component_testBit _ _ _ _ (bytes p hp4)]
  have low := component_low_part (s.bp y i) i (7 - j + i) (bytes i hi) hi (by omega)
  refine ⟨s, hs, bytes i hi, bit i hi, ?_, ?_, low, ?_⟩
  · rw [hp, packPixel_testBit _ _ _ _ hi]
  · unfold component
    rw [Nat.testBit_or, low, Bool.or_false]
  · have hlt : out.getD (y * width + x * 8 + j) 0 < 16 := by
      rw [hp]
      exact packPixel_lt _ _ _ _ (by decide)
    have e := nibble_bits _ hlt
    rw [bit 0 (by decide), bit 1 (by decide), bit 2 (by decide), bit 3 (by decide)] at e
    exact e

theorem vsp_pixel_plane_bits_witness :
    ∃ s, vspAfter (fun _ _ => 0) (fun _ _ => 0) [7, 0, 0x80, 7, 0, 7, 0] 8 1 (0 + 1) = .ok s ∧
      s.bp 0 1 < 256 ∧
      (([2, 0, 0, 0, 0, 0, 0, 0] : List Nat).getD (0 * 8 + 0 * 8 + 0) 0).testBit 1
        = (s.bp 0 1).testBit (7 - 0) ∧
      (([2, 0, 0, 0, 0, 0, 0, 0] : List Nat).getD (0 * 8 + 0 * 8 + 0) 0).testBit 1
        = (component s.bp 0 1).testBit (7 - 0 + 1) ∧
      (component s.bp 0 1).testBit (7 - 0 + 1) = (s.bp 0 1 <<< 1).testBit (7 - 0 + 1) ∧
      (s.bp 0 1 >>> (8 - 1)).testBit (7 - 0 + 1) = false ∧
      ([2, 0, 0, 0, 0, 0, 0, 0] : List Nat).getD (0 * 8 + 0 * 8 + 0) 0 = chunkyPixel s.bp 0 0 :=
  vsp_pixel_plane_bits (fun _ _ => 0) (fun _ _ => 0) [7, 0, 0x80, 7, 0, 7, 0]
    8 1 [2, 0, 0, 0, 0, 0, 0, 0] [] rfl 0 0 0 1 (by decide) (by decide) (by decide) (by decide)

/-! ## Termination of `decompress_vsp` -/

end ArcUnpacker
